import Mathlib

/-!
# SonarQube Prometheus exporter: collection pipeline

A shallow embedding of `internal/metrics/collector.go` (value parsing, the numeric key
filter, the descriptor cache, one collection cycle) together with the parts of the Go
runtime library the collector calls (`strconv.ParseInt`, `strconv.ParseFloat`,
`strings.ReplaceAll`, `strings.ToLower`, the `int64 → float64` conversion).

Go strings are modelled by `String`; a Go `float64` by `Float64` below, which carries the
exact binary64 value; a Go `(value, error)` result by a pair whose second component is
`none` when the error is `nil`.

The functions of `strconv` and `strings` follow the source of the Go standard library,
function by function and with its names; they read the string character by character,
where the library reads bytes: every byte of a character above ASCII is `≥ 0x80` and is
no digit, letter, sign, point or underscore to these functions, as the character itself is
none here. The descriptors and samples of the Prometheus client library are the data the
library is given. The three calls of the SonarQube client that `Collect` makes are a
parameter of `Collect`, with the state of the world outside the process passed along.

`internal/sonarqube/client.go` is embedded over an upstream that answers the three HTTP
requests of the client; the world then also records the requests sent. The pagination loop
of `GetProjects` has no bound in the source and carries fuel here; `getProjectsRun` is the
same loop iteration by iteration, with the variables of the loop as its state.
`CollectChecked` is `Collect` with the error branch of the sample constructors of the
client library.
-/

set_option autoImplicit false

namespace Exporter

/-! ## binary64 values -/

/-- A Go `float64`. A finite value is `(-1)^neg * mant * 2^exp` in the canonical IEEE-754
form: `mant < 2^53`, `-1074 ≤ exp ≤ 971`, and `2^52 ≤ mant` unless `exp = -1074`. -/
inductive Float64 where
  | finite (neg : Bool) (mant : Nat) (exp : Int)
  | inf (neg : Bool)
  | nan
  deriving DecidableEq, Repr

namespace Float64

/-- The constant `0`. -/
def zero : Float64 := .finite false 0 (-1074)

/-- The constant `1`. -/
def one : Float64 := .finite false (2 ^ 52) (-52)

/-- The rational number a finite `float64` denotes (`none` for infinities and NaN). -/
def toRat : Float64 → Option ℚ
  | .finite neg mant exp => some ((if neg then -1 else 1) * (mant : ℚ) * (2 : ℚ) ^ exp)
  | .inf _ => none
  | .nan => none

end Float64

/-- The loop of `ilog2`, bounded by its first argument. -/
def ilog2Loop : Nat → Nat → Nat
  | 0, _ => 0
  | fuel + 1, n => if n < 2 then 0 else ilog2Loop fuel (n / 2) + 1

/-- The position of the highest set bit of `n`: `⌊log₂ n⌋` for `0 < n`, and 0 for 0. -/
def ilog2 (n : Nat) : Nat := ilog2Loop n n

/-- Numerator and denominator of `num / (den * 2^e)`. -/
def scaleBy (num den : Nat) (e : Int) : Nat × Nat :=
  if 0 ≤ e then (num, den * 2 ^ e.toNat) else (num * 2 ^ (-e).toNat, den)

/-- IEEE-754 round-to-nearest, ties-to-even, of the exact magnitude `num / den` (`den > 0`)
to binary64. The flag is `true` when the rounded magnitude exceeds the largest finite
value; the result is then an infinity. -/
def roundBinary64 (neg : Bool) (num den : Nat) : Float64 × Bool :=
  if num = 0 then (.finite neg 0 (-1074), false)
  else
    -- the binary exponent `e` with `2^52 ≤ num / (den * 2^e) < 2^53`, not below `-1074`
    let e0 : Int := (ilog2 num : Int) - (ilog2 den : Int) - 52
    let e1 : Int :=
      if (scaleBy num den e0).1 < 2 ^ 52 * (scaleBy num den e0).2 then e0 - 1 else e0
    let e : Int := if e1 < -1074 then -1074 else e1
    let a := (scaleBy num den e).1
    let b := (scaleBy num den e).2
    let q := a / b
    let r := a % b
    let m := if b < 2 * r ∨ (2 * r = b ∧ q % 2 = 1) then q + 1 else q
    let m' := if m = 2 ^ 53 then 2 ^ 52 else m
    let e' := if m = 2 ^ 53 then e + 1 else e
    if 971 < e' then (.inf neg, true) else (.finite neg m' e', false)

/-- The conversion `float64(i)` of an `int64`: the nearest binary64, ties to even. -/
def float64 (i : Int) : Float64 :=
  (roundBinary64 (decide (i < 0)) i.natAbs 1).1

/-! ## strconv -/

/-- The two error kinds of `strconv` (`ErrSyntax`, `ErrRange`). -/
inductive NumError where
  | ErrSyntax
  | ErrRange
  deriving DecidableEq, Repr

/-- The helper `lower` of strconv: `c | ('x' - 'X')`, as a number. -/
def lower (c : Char) : Nat := c.toNat ||| 0x20

/-- The largest `uint64`. -/
def maxUint64 : Nat := 2 ^ 64 - 1

/-- The digit loop of `strconv.ParseUint(s, 10, 64)`: `n` is the value accumulated so far.
Each byte of a multi-byte rune is `≥ 0x80` and takes the `default` branch, as the rune does
here. -/
def parseUintLoop : List Char → Nat → Nat × Option NumError
  | [], n => (n, none)
  | c :: cs, n =>
    if '0' ≤ c ∧ c ≤ '9' then
      let d := c.toNat - '0'.toNat
      if 10 ≤ d then (0, some .ErrSyntax)
      else if maxUint64 / 10 + 1 ≤ n then (maxUint64, some .ErrRange)
      else
        let n10 := n * 10
        let n1 := (n10 + d) % 2 ^ 64
        if n1 < n10 ∨ maxUint64 < n1 then (maxUint64, some .ErrRange)
        else parseUintLoop cs n1
    else if 'a'.toNat ≤ lower c ∧ lower c ≤ 'z'.toNat then
      let d := lower c - 'a'.toNat + 10
      if 10 ≤ d then (0, some .ErrSyntax)
      else if maxUint64 / 10 + 1 ≤ n then (maxUint64, some .ErrRange)
      else
        let n10 := n * 10
        let n1 := (n10 + d) % 2 ^ 64
        if n1 < n10 ∨ maxUint64 < n1 then (maxUint64, some .ErrRange)
        else parseUintLoop cs n1
    else (0, some .ErrSyntax)

/-- The function `strconv.ParseUint(s, 10, 64)`. -/
def ParseUint (s : List Char) : Nat × Option NumError :=
  if s = [] then (0, some .ErrSyntax) else parseUintLoop s 0

/-- The conversion `int64(x)` with wrap-around. -/
def int64 (x : Int) : Int := (x + 2 ^ 63) % 2 ^ 64 - 2 ^ 63

/-- The part of `strconv.ParseInt(s, 10, 64)` after the sign is taken off: `rest` is what
follows the sign and `neg` tells a minus sign. -/
def parseIntUnsigned (neg : Bool) (rest : List Char) : Int × Option NumError :=
  let un := ParseUint rest
  if un.2 = some .ErrSyntax then (0, un.2)
  else if !neg && decide (2 ^ 63 ≤ un.1) then (2 ^ 63 - 1, some .ErrRange)
  else if neg && decide (2 ^ 63 < un.1) then (-(2 ^ 63), some .ErrRange)
  else
    let n := int64 un.1
    (if neg then int64 (-n) else n, none)

/-- The function `strconv.ParseInt(s, 10, 64)`. -/
def ParseInt (s : String) : Int × Option NumError :=
  match s.data with
  | [] => (0, some .ErrSyntax)
  | c :: cs =>
    if c = '+' then parseIntUnsigned false cs
    else if c = '-' then parseIntUnsigned true cs
    else parseIntUnsigned false (c :: cs)

/-- The helper `commonPrefixLenIgnoreCase(s, pre)` of strconv; `pre` is lower-case. -/
def commonPrefixLenIgnoreCase : List Char → List Char → Nat
  | c :: cs, p :: ps =>
    let c' := if 'A' ≤ c ∧ c ≤ 'Z' then Char.ofNat (c.toNat + 32) else c
    if c' ≠ p then 0 else 1 + commonPrefixLenIgnoreCase cs ps
  | _, _ => 0

/-- The length of the leading spelling of infinity: 3 for `inf`, 8 for `infinity`. -/
def infinityLen (s : List Char) : Nat :=
  let n := commonPrefixLenIgnoreCase s "infinity".data
  if 3 < n ∧ n < 8 then 3 else n

/-- The helper `special` of strconv: a leading, possibly signed `inf`/`infinity`, or `nan`,
any case, with the number of characters it takes up. -/
def special (s : List Char) : Option (Float64 × Nat) :=
  match s with
  | [] => none
  | c :: cs =>
    if c = '+' ∨ c = '-' then
      if infinityLen cs = 3 ∨ infinityLen cs = 8 then
        some (.inf (decide (c = '-')), 1 + infinityLen cs)
      else none
    else if c = 'i' ∨ c = 'I' then
      if infinityLen (c :: cs) = 3 ∨ infinityLen (c :: cs) = 8 then
        some (.inf false, infinityLen (c :: cs))
      else none
    else if c = 'n' ∨ c = 'N' then
      if commonPrefixLenIgnoreCase (c :: cs) "nan".data = 3 then some (.nan, 3) else none
    else none

/-- The scan for the last character seen in `underscoreOK`: `'^'` at the beginning, `'0'`
after a digit or the base prefix, `'_'` after an underscore, `'!'` after anything else. -/
def underscoreScan (hex : Bool) : List Char → Char → Bool
  | [], saw => saw ≠ '_'
  | c :: cs, saw =>
    if ('0' ≤ c ∧ c ≤ '9') ∨ (hex = true ∧ 'a'.toNat ≤ lower c ∧ lower c ≤ 'f'.toNat) then
      underscoreScan hex cs '0'
    else if c = '_' then
      if saw ≠ '0' then false else underscoreScan hex cs '_'
    else if saw = '_' then false
    else underscoreScan hex cs '!'

/-- The helper `underscoreOK` of strconv: underscores only between digits, or between a
base prefix and a digit. -/
def underscoreOK (s : List Char) : Bool :=
  let s1 := match s with
    | c :: cs => if c = '-' ∨ c = '+' then cs else c :: cs
    | [] => []
  match s1 with
  | c0 :: c1 :: cs =>
    if c0 = '0' ∧ (lower c1 = 'b'.toNat ∨ lower c1 = 'o'.toNat ∨ lower c1 = 'x'.toNat) then
      underscoreScan (decide (lower c1 = 'x'.toNat)) cs '0'
    else underscoreScan false (c0 :: c1 :: cs) '^'
  | cs => underscoreScan false cs '^'

/-- The variables of the mantissa loop of `readFloat`. The mantissa holds every digit
read: the digits `readFloat` cuts off after the 19th (16th in base 16) are taken into
account by the conversion that follows it, which rounds the value of all of them. -/
structure MantState where
  mantissa : Nat
  nd : Nat
  dp : Int
  sawdot : Bool
  sawdigits : Bool
  underscores : Bool
  deriving DecidableEq, Repr

/-- The mantissa loop of `readFloat`; returns the variables and the unread input. -/
def readMantissa (hex : Bool) : List Char → MantState → MantState × List Char
  | [], st => (st, [])
  | c :: cs, st =>
    if c = '_' then readMantissa hex cs { st with underscores := true }
    else if c = '.' then
      if st.sawdot then (st, c :: cs)
      else readMantissa hex cs { st with sawdot := true, dp := st.nd }
    else if '0' ≤ c ∧ c ≤ '9' then
      if c = '0' ∧ st.nd = 0 then
        readMantissa hex cs { st with sawdigits := true, dp := st.dp - 1 }
      else
        readMantissa hex cs { st with
          sawdigits := true, nd := st.nd + 1,
          mantissa := st.mantissa * (if hex then 16 else 10) + (c.toNat - '0'.toNat) }
    else if hex = true ∧ 'a'.toNat ≤ lower c ∧ lower c ≤ 'f'.toNat then
      readMantissa hex cs { st with
        sawdigits := true, nd := st.nd + 1,
        mantissa := st.mantissa * 16 + (lower c - 'a'.toNat + 10) }
    else (st, c :: cs)

/-- The exponent digit loop of `readFloat`: the exponent stops growing at 10000. -/
def readExpDigits : List Char → Nat → Bool → Nat × Bool × List Char
  | [], e, us => (e, us, [])
  | c :: cs, e, us =>
    if c = '_' then readExpDigits cs e true
    else if '0' ≤ c ∧ c ≤ '9' then
      readExpDigits cs (if e < 10000 then e * 10 + (c.toNat - '0'.toNat) else e) us
    else (e, us, c :: cs)

/-- What `readFloat` returns when `ok`: the sign, the base, the mantissa and the exponent
(of 10, or of 2 in base 16) and the unread input. -/
structure ReadFloat where
  mantissa : Nat
  exp : Int
  neg : Bool
  hex : Bool
  rest : List Char
  deriving DecidableEq, Repr

/-- The part of `readFloat` after the mantissa loop. -/
def readFloatTail (s : List Char) (neg hex : Bool) (st : MantState) (rest : List Char) :
    Option ReadFloat :=
  if st.sawdigits = false then none
  else
    let dp0 : Int := if st.sawdot then st.dp else st.nd
    let dp1 : Int := if hex then dp0 * 4 else dp0
    let ndMant : Int := if hex then (st.nd : Int) * 4 else st.nd
    let finish (dp : Int) (us : Bool) (rest : List Char) : Option ReadFloat :=
      if us = true ∧ underscoreOK (s.take (s.length - rest.length)) = false then none
      else some ⟨st.mantissa, if st.mantissa ≠ 0 then dp - ndMant else 0, neg, hex, rest⟩
    match rest with
    | c :: r =>
      if lower c = (if hex then 'p'.toNat else 'e'.toNat) then
        match r with
        | [] => none
        | c1 :: r1 =>
          let esign : Int := if c1 = '-' then -1 else 1
          let r2 := if c1 = '+' ∨ c1 = '-' then r1 else c1 :: r1
          match r2 with
          | [] => none
          | c2 :: _ =>
            if c2 < '0' ∨ '9' < c2 then none
            else
              let ex := readExpDigits r2 0 st.underscores
              finish (dp1 + (ex.1 : Int) * esign) ex.2.1 ex.2.2
      else if hex then none
      else finish dp1 st.underscores rest
    | [] => if hex then none else finish dp1 st.underscores rest

/-- The part of `readFloat` after the optional sign: `s1` is the input after the sign
(`s` all of it), read in base 16 after a `0x` prefix that is followed by a character. -/
def readFloatUnsigned (s : List Char) (neg : Bool) (s1 : List Char) : Option ReadFloat :=
  match s1 with
  | c0 :: c1 :: c2 :: r =>
    if c0 = '0' ∧ lower c1 = 'x'.toNat then
      readFloatTail s neg true
        (readMantissa true (c2 :: r) ⟨0, 0, 0, false, false, false⟩).1
        (readMantissa true (c2 :: r) ⟨0, 0, 0, false, false, false⟩).2
    else
      readFloatTail s neg false
        (readMantissa false s1 ⟨0, 0, 0, false, false, false⟩).1
        (readMantissa false s1 ⟨0, 0, 0, false, false, false⟩).2
  | _ =>
    readFloatTail s neg false
      (readMantissa false s1 ⟨0, 0, 0, false, false, false⟩).1
      (readMantissa false s1 ⟨0, 0, 0, false, false, false⟩).2

/-- The helper `readFloat` of strconv. -/
def readFloat (s : List Char) : Option ReadFloat :=
  match s with
  | [] => none
  | c :: cs =>
    if c = '+' then readFloatUnsigned s false cs
    else if c = '-' then readFloatUnsigned s true cs
    else readFloatUnsigned s false (c :: cs)

/-- The conversion of what `readFloat` read to the nearest binary64, with the overflow
flag (`atofHex` in base 16, the decimal conversion otherwise). -/
def convertFloat (r : ReadFloat) : Float64 × Bool :=
  let b : Nat := if r.hex then 2 else 10
  if 0 ≤ r.exp then roundBinary64 r.neg (r.mantissa * b ^ r.exp.toNat) 1
  else roundBinary64 r.neg r.mantissa (b ^ (-r.exp).toNat)

/-- The function `strconv.ParseFloat(s, 64)`. -/
def ParseFloat (s : String) : Float64 × Option NumError :=
  match special s.data with
  | some (f, n) => if n ≠ s.data.length then (Float64.zero, some .ErrSyntax) else (f, none)
  | none =>
    match readFloat s.data with
    | none => (Float64.zero, some .ErrSyntax)
    | some r =>
      if r.rest ≠ [] then (Float64.zero, some .ErrSyntax)
      else if (convertFloat r).2 then ((convertFloat r).1, some .ErrRange)
      else ((convertFloat r).1, none)


/-! ## strings -/

/-- The call `strings.ReplaceAll(s, old, new)` for one-character `old` and `new`. -/
def replaceAll (s : String) (old new : Char) : String :=
  String.mk (s.data.map (fun c => if c = old then new else c))

/-- The function `unicode.ToLower`: the ASCII letters are mapped in the code itself, the
other runes through the case tables of the Go runtime, which are the parameter
`caseTable` here. -/
def unicodeToLower (caseTable : Char → Char) (r : Char) : Char :=
  if r.toNat ≤ 127 then
    if 'A' ≤ r ∧ r ≤ 'Z' then Char.ofNat (r.toNat + ('a'.toNat - 'A'.toNat)) else r
  else caseTable r

/-- The function `strings.ToLower`: `unicode.ToLower` on every rune (its ASCII fast path
computes the same string). -/
def toLower (caseTable : Char → Char) (s : String) : String :=
  String.mk (s.data.map (unicodeToLower caseTable))

/-! ## internal/sonarqube/models.go -/

/-- A SonarQube metric (`Type` is spelled `Typ`). -/
structure Metric where
  ID : String
  Key : String
  Typ : String
  Name : String
  Description : String
  Domain : String
  Direction : Int
  Qualitative : Bool
  Hidden : Bool
  deriving DecidableEq, Repr

/-- A SonarQube project. -/
structure Component where
  Key : String
  Name : String
  Qualifier : String
  IsFavorite : Bool
  AnalysisDate : String
  Tags : List String
  Visibility : String
  deriving DecidableEq, Repr

/-- A single measure value. -/
structure Measure where
  Metric : String
  Value : String
  deriving DecidableEq, Repr

/-! ## The client library: descriptors and samples

`prometheus.NewDesc` and `prometheus.MustNewConstMetric` are modelled by the data they
are given; the checks the library runs on names and label values are not part of this
repository. The definitions with the error branch of the constructors, further down, take
the check of a metric name as a parameter. -/

/-- A `*prometheus.Desc`: what `prometheus.NewDesc` was called with. -/
structure Desc where
  fqName : String
  help : String
  variableLabels : List String
  constLabels : List (String × String)
  deriving DecidableEq, Repr

/-- The function `prometheus.NewDesc`. -/
def NewDesc (fqName help : String) (variableLabels : List String)
    (constLabels : List (String × String)) : Desc :=
  ⟨fqName, help, variableLabels, constLabels⟩

/-- A gauge sample sent on the channel: what `prometheus.MustNewConstMetric` was called
with (the value type is `GaugeValue` at both call sites). -/
structure Sample where
  desc : Desc
  value : Float64
  labelValues : List String
  deriving DecidableEq, Repr

/-- The sample `prometheus.MustNewConstMetric` returns, with `prometheus.GaugeValue`,
when it returns. The function panics when the descriptor carries an error or the label
values do not fit it: that branch is in `MustNewConstMetricChecked`. -/
def MustNewConstMetric (desc : Desc) (value : Float64) (labelValues : List String) : Sample :=
  ⟨desc, value, labelValues⟩

/-! ## internal/metrics/collector.go -/

/-- A Go `map[string]V`: the entries in insertion order. A well-formed map has no two
entries with the same key (`GoMap.WF`). -/
abbrev GoMap (V : Type) := List (String × V)

namespace GoMap

/-- No key occurs twice. -/
def WF {V : Type} (m : GoMap V) : Prop := (m.map Prod.fst).Nodup

/-- The lookup `v, exists := m[k]`. -/
def get {V : Type} (m : GoMap V) (k : String) : Option V :=
  match m with
  | [] => none
  | (k', v) :: rest => if k' = k then some v else get rest k

/-- The assignment `m[k] = v`. -/
def set {V : Type} (m : GoMap V) (k : String) (v : V) : GoMap V :=
  match m with
  | [] => [(k, v)]
  | (k', v') :: rest => if k' = k then (k, v) :: rest else (k', v') :: set rest k v

end GoMap

/-- The collector: the project info descriptor and the descriptor cache (the client is
the parameter `Client` of `Collect`; the mutex is held during the whole of `Collect`). -/
structure Collector where
  projectInfo : Desc
  metricDescs : GoMap Desc
  deriving DecidableEq, Repr

/-- The function `NewCollector`. -/
def NewCollector : Collector :=
  { projectInfo := NewDesc "sonarqube_project_info" "Information about SonarQube projects"
      ["project_key", "project_name", "qualifier", "visibility"] []
    metricDescs := [] }

/-- The function `sanitizeMetricName`. -/
def sanitizeMetricName (caseTable : Char → Char) (key : String) : String :=
  let key := replaceAll key '-' '_'
  let key := replaceAll key '.' '_'
  let key := toLower caseTable key
  key

/-- The function `parseMetricValue`: the value and the error (`none` for `nil`). -/
def parseMetricValue (value metricType : String) : Float64 × Option NumError :=
  if value = "" then (Float64.zero, none)
  else if metricType = "INT" ∨ metricType = "MILLISEC" then
    (float64 (ParseInt value).1, (ParseInt value).2)
  else if metricType = "FLOAT" ∨ metricType = "PERCENT" then ParseFloat value
  else if metricType = "RATING" then ParseFloat value
  else if metricType = "WORK_DUR" then
    (float64 (ParseInt value).1, (ParseInt value).2)
  else (Float64.zero, none)

/-- The map literal `numericTypes` of `getNumericMetricKeys`. -/
def numericTypes : GoMap Bool :=
  [("INT", true), ("FLOAT", true), ("PERCENT", true), ("RATING", true),
   ("MILLISEC", true), ("WORK_DUR", true)]

/-- The function `getNumericMetricKeys`. -/
def getNumericMetricKeys (metrics : List Metric) : List String :=
  metrics.foldl
    (fun keys metric =>
      if !metric.Hidden && ((numericTypes.get metric.Typ).getD false) then keys ++ [metric.Key]
      else keys)
    []

/-- The function `getOrCreateMetricDesc`: the descriptor returned and the collector
afterwards. -/
def getOrCreateMetricDesc (caseTable : Char → Char) (c : Collector) (metric : Metric) :
    Desc × Collector :=
  match c.metricDescs.get metric.Key with
  | some desc => (desc, c)
  | none =>
    let metricName := "sonarqube_" ++ sanitizeMetricName caseTable metric.Key
    let desc := NewDesc metricName metric.Description ["project_key", "project_name"]
      [("domain", metric.Domain)]
    (desc, { c with metricDescs := c.metricDescs.set metric.Key desc })

/-- A line written with `log.Printf`. -/
inductive LogEntry where
  | fetchingMetrics (err : String)
  | fetchingProjects (err : String)
  | fetchingMeasures (projectKey : String) (err : String)
  | parsingValue (metric : String) (err : NumError)
  deriving DecidableEq, Repr

/-- What a collection cycle acts on: the collector, the samples sent on the channel `ch`
so far (oldest first) and the lines logged so far. -/
structure CollectState where
  c : Collector
  ch : List Sample
  log : List LogEntry
  deriving DecidableEq, Repr

/-- The loop of `exportMeasure` that finds the metric definition: the first entry of
`allMetrics` with the key of the measure. -/
def findMetricDef (allMetrics : List Metric) (key : String) : Option Metric :=
  match allMetrics with
  | [] => none
  | m :: rest => if m.Key = key then some m else findMetricDef rest key

/-- The function `exportMeasure` in an execution in which the sample constructor does not
panic; `exportMeasureChecked` is the function with that branch. -/
def exportMeasure (caseTable : Char → Char) (st : CollectState) (projectKey projectName : String)
    (measure : Measure) (allMetrics : List Metric) : CollectState :=
  match findMetricDef allMetrics measure.Metric with
  | none => st
  | some metricDef =>
    match (parseMetricValue measure.Value metricDef.Typ).2 with
    | some err => { st with log := st.log ++ [.parsingValue measure.Metric err] }
    | none =>
      let r := getOrCreateMetricDesc caseTable st.c metricDef
      { st with
        c := r.2
        ch := st.ch ++ [MustNewConstMetric r.1 (parseMetricValue measure.Value metricDef.Typ).1
          [projectKey, projectName]] }

/-- The three calls `Collect` makes on its client, over the state `σ` of the world outside
the process (the server, the network): each call returns its result, `Except.error` for a
non-nil error, and the state afterwards. -/
structure Client (σ : Type) where
  GetMetrics : σ → Except String (List Metric) × σ
  GetProjects : σ → Except String (List Component) × σ
  GetProjectMeasures : String → List String → σ → Except String (List Measure) × σ

/-- The body of the loop over the projects in `Collect`, in an execution in which the
sample constructors do not panic; `collectProjectChecked` has that branch. -/
def collectProject {σ : Type} (caseTable : Char → Char) (client : Client σ)
    (numericMetricKeys : List String) (metrics : List Metric)
    (acc : CollectState × σ) (project : Component) : CollectState × σ :=
  let st := { acc.1 with
    ch := acc.1.ch ++ [MustNewConstMetric acc.1.c.projectInfo Float64.one
      [project.Key, project.Name, project.Qualifier, project.Visibility]] }
  let r := client.GetProjectMeasures project.Key numericMetricKeys acc.2
  match r.1 with
  | .error err => ({ st with log := st.log ++ [.fetchingMeasures project.Key err] }, r.2)
  | .ok measures =>
    (measures.foldl
      (fun st measure => exportMeasure caseTable st project.Key project.Name measure metrics) st,
     r.2)

/-- The function `Collect`, started with an empty channel and an empty log, in an
execution in which the sample constructors do not panic; `CollectChecked` is the function
with that branch, and returns this result whenever it returns one. -/
def Collect {σ : Type} (caseTable : Char → Char) (client : Client σ) (c : Collector) (w : σ) :
    CollectState × σ :=
  let r := client.GetMetrics w
  match r.1 with
  | .error err => (⟨c, [], [.fetchingMetrics err]⟩, r.2)
  | .ok metrics =>
    let numericMetricKeys := getNumericMetricKeys metrics
    let r' := client.GetProjects r.2
    match r'.1 with
    | .error err => (⟨c, [], [.fetchingProjects err]⟩, r'.2)
    | .ok projects =>
      projects.foldl (collectProject caseTable client numericMetricKeys metrics) (⟨c, [], []⟩, r'.2)

/-! ## internal/sonarqube/client.go

The HTTP exchanges of the client are a parameter, `Upstream`: each of the three endpoints
answers a request in a state of the world outside the process and leaves a new state. The
requests that `httpClient.Do` sends are recorded, in order, next to that state. -/

/-- The response of `/api/metrics/search`. -/
structure MetricsResponse where
  Metrics : List Metric
  Total : Int
  P : Int
  PS : Int
  deriving DecidableEq, Repr

/-- The pagination information of a response. -/
structure Paging where
  PageIndex : Int
  PageSize : Int
  Total : Int
  deriving DecidableEq, Repr

/-- The response of `/api/components/search_projects`. -/
structure ComponentsResponse where
  Paging : Paging
  Components : List Component
  deriving DecidableEq, Repr

/-- A component with its measures. -/
structure ComponentMeasures where
  Key : String
  Name : String
  Measures : List Measure
  deriving DecidableEq, Repr

/-- The response of `/api/measures/component`. -/
structure MeasuresResponse where
  Component : ComponentMeasures
  deriving DecidableEq, Repr

/-- A request of the client, by the endpoint and the parameters in its URL: `ps`, `p`,
`component` and `metricKeys`. -/
inductive Request where
  | metricsSearch (ps : Nat)
  | searchProjects (ps p : Nat)
  | measuresComponent (component metricKeys : String)
  deriving DecidableEq, Repr

/-- What an HTTP exchange comes to: `http.NewRequest` fails and nothing is sent;
`httpClient.Do` fails; or a response comes back, with its status code, its body as text
and what decoding the body as JSON into the response type gives. -/
inductive HttpResult (α : Type) where
  | requestError (err : String)
  | transportError (err : String)
  | response (statusCode : Nat) (body : String) (decoded : Except String α)

/-- The server and the network, as the client sees them through its three endpoints; `σ` is
the state of the world outside the process. -/
structure Upstream (σ : Type) where
  metricsSearch : Nat → σ → HttpResult MetricsResponse × σ
  searchProjects : Nat → Nat → σ → HttpResult ComponentsResponse × σ
  measuresComponent : String → String → σ → HttpResult MeasuresResponse × σ

/-- The world outside the process together with the requests sent so far, oldest first. -/
structure World (σ : Type) where
  upstream : σ
  requests : List Request
  deriving DecidableEq, Repr

/-- An exchange as seen from the world: the request is recorded and the state of the
upstream moves on, unless `http.NewRequest` failed and nothing was sent. -/
def exchange {σ α : Type} (req : Request) (r : HttpResult α × σ) (w : World σ) :
    HttpResult α × World σ :=
  match r.1 with
  | .requestError err => (.requestError err, w)
  | res => (res, ⟨r.2, w.requests ++ [req]⟩)

/-- What a client call returns after an exchange: the decoded response when the status is
200 and the body decodes, and otherwise the error of the call, worded as in the source,
with `fetching` and `decoding` the words of the call. -/
def checkResponse {α : Type} (fetching decoding : String) (res : HttpResult α) :
    Except String α :=
  match res with
  | .requestError err => .error ("failed to create request: " ++ err)
  | .transportError err => .error ("failed to fetch " ++ fetching ++ ": " ++ err)
  | .response statusCode body decoded =>
    if statusCode ≠ 200 then
      .error ("unexpected status code " ++ toString statusCode ++ ": " ++ body)
    else
      match decoded with
      | .error err => .error ("failed to decode " ++ decoding ++ " response: " ++ err)
      | .ok a => .ok a

/-- The function `GetMetrics`: the metrics and the error (`none` for `nil`), and the world
afterwards. -/
def GetMetrics {σ : Type} (up : Upstream σ) (w : World σ) :
    (List Metric × Option String) × World σ :=
  let r := exchange (.metricsSearch 500) (up.metricsSearch 500 w.upstream) w
  match checkResponse "metrics" "metrics" r.1 with
  | .error err => (([], some err), r.2)
  | .ok metricsResp => ((metricsResp.Metrics, none), r.2)

/-- The loop of `GetProjects`, for at most `fuel` page requests: `none` when the loop has
not come to its end by then. -/
def getProjectsLoop {σ : Type} (up : Upstream σ) :
    Nat → List Component → Nat → World σ → Option ((List Component × Option String) × World σ)
  | 0, _, _, _ => none
  | fuel + 1, allComponents, pageIndex, w =>
    let r := exchange (.searchProjects 500 pageIndex)
      (up.searchProjects 500 pageIndex w.upstream) w
    match checkResponse "projects" "components" r.1 with
    | .error err => some (([], some err), r.2)
    | .ok componentsResp =>
      if componentsResp.Paging.Total ≤ ((allComponents ++ componentsResp.Components).length : Int)
      then some ((allComponents ++ componentsResp.Components, none), r.2)
      else getProjectsLoop up fuel (allComponents ++ componentsResp.Components) (pageIndex + 1) r.2

/-- The function `GetProjects`, for at most `fuel` page requests. -/
def GetProjects {σ : Type} (up : Upstream σ) (fuel : Nat) (w : World σ) :
    Option ((List Component × Option String) × World σ) :=
  getProjectsLoop up fuel [] 1 w

/-- The loop of `GetProjectMeasures` that builds the `metricKeys` parameter; `i` is the
index of the first key of the list. -/
def metricsParamLoop : List String → Nat → String → String
  | [], _, metricsParam => metricsParam
  | key :: keys, i, metricsParam =>
    metricsParamLoop keys (i + 1) ((if 0 < i then metricsParam ++ "," else metricsParam) ++ key)

/-- The function `GetProjectMeasures`. -/
def GetProjectMeasures {σ : Type} (up : Upstream σ) (projectKey : String)
    (metricKeys : List String) (w : World σ) : (List Measure × Option String) × World σ :=
  if metricKeys.length = 0 then (([], none), w)
  else
    let metricsParam := metricsParamLoop metricKeys 0 ""
    let r := exchange (.measuresComponent projectKey metricsParam)
      (up.measuresComponent projectKey metricsParam w.upstream) w
    match checkResponse "project measures" "measures" r.1 with
    | .error err => (([], some err), r.2)
    | .ok measuresResp => ((measuresResp.Component.Measures, none), r.2)

/-- A Go result `(value, err)` as the `Except` that the model of `Collect` takes. -/
def toExcept {α : Type} (r : α × Option String) : Except String α :=
  match r.2 with
  | some err => .error err
  | none => .ok r.1

/-- The client of `Collect` over an upstream. Its `GetProjects` is the pagination loop with
`fuel` page requests; where the loop has not ended by then, the field holds an error that
`CollectHttp` never looks at. -/
def sonarClient {σ : Type} (up : Upstream σ) (fuel : Nat) : Client (World σ) where
  GetMetrics := fun w => (toExcept (GetMetrics up w).1, (GetMetrics up w).2)
  GetProjects := fun w =>
    match GetProjects up fuel w with
    | some r => (toExcept r.1, r.2)
    | none => (.error "", w)
  GetProjectMeasures := fun projectKey metricKeys w =>
    (toExcept (GetProjectMeasures up projectKey metricKeys w).1,
      (GetProjectMeasures up projectKey metricKeys w).2)

/-- The function `Collect` over an upstream: `none` when the pagination loop of
`GetProjects` has not ended within `fuel` page requests. -/
def CollectHttp {σ : Type} (caseTable : Char → Char) (up : Upstream σ) (fuel : Nat)
    (c : Collector) (w : World σ) : Option (CollectState × World σ) :=
  match (GetMetrics up w).1.2 with
  | some _ => some (Collect caseTable (sonarClient up fuel) c w)
  | none =>
    match GetProjects up fuel (GetMetrics up w).2 with
    | none => none
    | some _ => some (Collect caseTable (sonarClient up fuel) c w)

/-! ## The error branch of the sample constructors

`prometheus.MustNewConstMetric` panics when the descriptor carries an error or the label
values do not fit it. The definitions below are `exportMeasure` and `Collect` again with
that branch: `none` stands for the panic. The client library is not part of the program;
its check of a metric name is the parameter `validName`. Its other checks cannot fail in
this program: the label names are the literals of `NewCollector` and
`getOrCreateMetricDesc`, which are valid and distinct, and the strings of the model are
valid Unicode. -/

/-- The function `prometheus.MustNewConstMetric` with its error branch: it panics when
`prometheus.NewDesc` rejected the name of the descriptor, and when the number of label
values is not the number of variable labels of the descriptor. -/
def MustNewConstMetricChecked (validName : String → Bool) (desc : Desc) (value : Float64)
    (labelValues : List String) : Option Sample :=
  if validName desc.fqName = true ∧ labelValues.length = desc.variableLabels.length then
    some (MustNewConstMetric desc value labelValues)
  else none

/-- The function `exportMeasure` with the error branch of the sample constructor. -/
def exportMeasureChecked (validName : String → Bool) (caseTable : Char → Char)
    (st : CollectState) (projectKey projectName : String) (measure : Measure)
    (allMetrics : List Metric) : Option CollectState :=
  match findMetricDef allMetrics measure.Metric with
  | none => some st
  | some metricDef =>
    match (parseMetricValue measure.Value metricDef.Typ).2 with
    | some err => some { st with log := st.log ++ [.parsingValue measure.Metric err] }
    | none =>
      let r := getOrCreateMetricDesc caseTable st.c metricDef
      match MustNewConstMetricChecked validName r.1
          (parseMetricValue measure.Value metricDef.Typ).1 [projectKey, projectName] with
      | none => none
      | some sample => some { st with c := r.2, ch := st.ch ++ [sample] }

/-- The loop over the measures of a project, with the error branch. -/
def exportMeasuresChecked (validName : String → Bool) (caseTable : Char → Char)
    (projectKey projectName : String) (allMetrics : List Metric) :
    List Measure → CollectState → Option CollectState
  | [], st => some st
  | measure :: measures, st =>
    match exportMeasureChecked validName caseTable st projectKey projectName measure
        allMetrics with
    | none => none
    | some st' =>
      exportMeasuresChecked validName caseTable projectKey projectName allMetrics measures st'

/-- The body of the loop over the projects in `Collect`, with the error branch. -/
def collectProjectChecked {σ : Type} (validName : String → Bool) (caseTable : Char → Char)
    (client : Client σ) (numericMetricKeys : List String) (metrics : List Metric)
    (acc : CollectState × σ) (project : Component) : Option (CollectState × σ) :=
  match MustNewConstMetricChecked validName acc.1.c.projectInfo Float64.one
      [project.Key, project.Name, project.Qualifier, project.Visibility] with
  | none => none
  | some sample =>
    let st := { acc.1 with ch := acc.1.ch ++ [sample] }
    let r := client.GetProjectMeasures project.Key numericMetricKeys acc.2
    match r.1 with
    | .error err =>
      some ({ st with log := st.log ++ [.fetchingMeasures project.Key err] }, r.2)
    | .ok measures =>
      match exportMeasuresChecked validName caseTable project.Key project.Name metrics
          measures st with
      | none => none
      | some st' => some (st', r.2)

/-- The loop over the projects in `Collect`, with the error branch. -/
def collectProjectsChecked {σ : Type} (validName : String → Bool) (caseTable : Char → Char)
    (client : Client σ) (numericMetricKeys : List String) (metrics : List Metric) :
    List Component → CollectState × σ → Option (CollectState × σ)
  | [], acc => some acc
  | project :: projects, acc =>
    match collectProjectChecked validName caseTable client numericMetricKeys metrics acc
        project with
    | none => none
    | some acc' =>
      collectProjectsChecked validName caseTable client numericMetricKeys metrics projects acc'

/-- The function `Collect` with the error branch of the sample constructors: `none` when
one of them panics. -/
def CollectChecked {σ : Type} (validName : String → Bool) (caseTable : Char → Char)
    (client : Client σ) (c : Collector) (w : σ) : Option (CollectState × σ) :=
  let r := client.GetMetrics w
  match r.1 with
  | .error err => some (⟨c, [], [.fetchingMetrics err]⟩, r.2)
  | .ok metrics =>
    let numericMetricKeys := getNumericMetricKeys metrics
    let r' := client.GetProjects r.2
    match r'.1 with
    | .error err => some (⟨c, [], [.fetchingProjects err]⟩, r'.2)
    | .ok projects =>
      collectProjectsChecked validName caseTable client numericMetricKeys metrics projects
        (⟨c, [], []⟩, r'.2)

/-! ## The loop of `GetProjects`, iteration by iteration -/

/-- The variables of the loop of `GetProjects` and the world, between two iterations. -/
structure LoopState (σ : Type) where
  allComponents : List Component
  pageIndex : Nat
  world : World σ
  deriving DecidableEq, Repr

/-- One iteration of the loop of `GetProjects`: the result the function returns with
(`Sum.inl`), or the variables for the next iteration (`Sum.inr`). -/
def getProjectsStep {σ : Type} (up : Upstream σ) (s : LoopState σ) :
    ((List Component × Option String) × World σ) ⊕ LoopState σ :=
  let r := exchange (.searchProjects 500 s.pageIndex)
    (up.searchProjects 500 s.pageIndex s.world.upstream) s.world
  match checkResponse "projects" "components" r.1 with
  | .error err => .inl (([], some err), r.2)
  | .ok componentsResp =>
    if componentsResp.Paging.Total ≤
        ((s.allComponents ++ componentsResp.Components).length : Int) then
      .inl ((s.allComponents ++ componentsResp.Components, none), r.2)
    else .inr ⟨s.allComponents ++ componentsResp.Components, s.pageIndex + 1, r.2⟩

/-- The loop of `GetProjects` run for `n` iterations at most: the result, if the function
has returned by then, or the variables before the next iteration. -/
def getProjectsRun {σ : Type} (up : Upstream σ) :
    Nat → LoopState σ → ((List Component × Option String) × World σ) ⊕ LoopState σ
  | 0, s => .inr s
  | n + 1, s =>
    match getProjectsStep up s with
    | .inl r => .inl r
    | .inr s' => getProjectsRun up n s'

/-! ## Definitions used in the statements -/

/-- The number of entries of the map with the key `k`. -/
def GoMap.count {V : Type} (m : GoMap V) (k : String) : Nat :=
  (m.filter (fun e => decide (e.1 = k))).length

/-- A run of calls of `getOrCreateMetricDesc`, one per metric of the list. -/
def getOrCreateAll (caseTable : Char → Char) (c : Collector) (ms : List Metric) : Collector :=
  ms.foldl (fun c m => (getOrCreateMetricDesc caseTable c m).2) c

/-- The number written by a string of decimal digits. -/
def digitsValueFrom (n : Nat) (ds : List Char) : Nat :=
  ds.foldl (fun n c => n * 10 + (c.toNat - '0'.toNat)) n

/-- The number written by a string of decimal digits. -/
def digitsValue (ds : List Char) : Nat := digitsValueFrom 0 ds

/-- The string `s` is a base-10 integer literal, an optional `+` or `-` followed by one or
more digits, and `v` is the integer it writes. -/
def IsIntLiteral (s : String) (v : Int) : Prop :=
  ∃ ds : List Char, ds ≠ [] ∧ (∀ c ∈ ds, '0' ≤ c ∧ c ≤ '9') ∧
    ((s.data = ds ∧ v = digitsValue ds) ∨ (s.data = '+' :: ds ∧ v = digitsValue ds) ∨
      (s.data = '-' :: ds ∧ v = -(digitsValue ds : Int)))

/-- The character is a decimal digit. -/
def IsDigit (c : Char) : Prop := '0' ≤ c ∧ c ≤ '9'

instance (c : Char) : Decidable (IsDigit c) := inferInstanceAs (Decidable (_ ∧ _))

/-- The character is one of the letters `a` to `f`, in either case. -/
def IsHexLetter (c : Char) : Prop := ('a' ≤ c ∧ c ≤ 'f') ∨ ('A' ≤ c ∧ c ≤ 'F')

/-- The string is an optional sign: empty, `+` or `-`. -/
def IsSign (sg : List Char) : Prop := sg = [] ∨ sg = ['+'] ∨ sg = ['-']

/-- The string is a run of decimal digits. -/
def AllDigits (ds : List Char) : Prop := ∀ c ∈ ds, IsDigit c

/-- An exponent part: one of the letters `marks`, an optional sign, a digit, then digits
and underscores (where an underscore may stand is said by `SeparatesDigits`). -/
def IsExponent (marks : List Char) (ex : List Char) : Prop :=
  ∃ (e : Char) (sg : List Char) (d : Char) (rest : List Char),
    ex = e :: (sg ++ d :: rest) ∧ e ∈ marks ∧ IsSign sg ∧ IsDigit d ∧
      ∀ c ∈ rest, IsDigit c ∨ c = '_'

/-- A decimal number as the specification words it: an optional sign, one or more digits,
an optional fractional part (a point and digits) and an optional decimal exponent (`e` or
`E`, an optional sign, one or more digits). -/
def IsPlainDecimal (s : String) : Prop :=
  ∃ sg int frac ex : List Char,
    s.data = sg ++ int ++ frac ++ ex ∧ IsSign sg ∧ int ≠ [] ∧ AllDigits int ∧
      (frac = [] ∨ ∃ fd, frac = '.' :: fd ∧ AllDigits fd) ∧
      (ex = [] ∨ ∃ (e : Char) (esg ds : List Char),
        ex = e :: (esg ++ ds) ∧ (e = 'e' ∨ e = 'E') ∧ IsSign esg ∧ ds ≠ [] ∧ AllDigits ds)

/-- Every underscore of the string stands between two digits: the character right before
it and the character right after it are digits in the sense of `dig`. -/
def SeparatesDigits (dig : Char → Prop) (cs : List Char) : Prop :=
  ∀ pre post : List Char, cs = pre ++ '_' :: post →
    (∃ d ∈ pre.getLast?, dig d) ∧ (∃ d ∈ post.head?, dig d)

/-- A decimal floating-point number in the wider form `strconv.ParseFloat` reads: an
optional sign; digits with at most one point anywhere among them and at least one digit;
an optional exponent (`e` or `E`, an optional sign, one or more digits); and an underscore
may stand between two digits, of the mantissa or of the exponent, and nowhere else. -/
def IsGoDecimal (s : String) : Prop :=
  ∃ sg body ex : List Char,
    s.data = sg ++ body ++ ex ∧ IsSign sg ∧
      (∀ c ∈ body, IsDigit c ∨ c = '.' ∨ c = '_') ∧ (∃ c ∈ body, IsDigit c) ∧
      body.count '.' ≤ 1 ∧ (ex = [] ∨ IsExponent ['e', 'E'] ex) ∧
      SeparatesDigits IsDigit (body ++ ex)

/-- A hexadecimal floating-point number: an optional sign, `0x` or `0X`, hexadecimal digits
with at most one point and at least one digit, and a binary exponent (`p` or `P`, an
optional sign, one or more decimal digits), which is not optional; an underscore may stand
between two digits, or between the prefix and a digit, and nowhere else (the `0` put
before the digits stands for the prefix). -/
def IsGoHexFloat (s : String) : Prop :=
  ∃ (sg : List Char) (x : Char) (body ex : List Char),
    s.data = sg ++ '0' :: x :: (body ++ ex) ∧ IsSign sg ∧ (x = 'x' ∨ x = 'X') ∧
      (∀ c ∈ body, IsDigit c ∨ IsHexLetter c ∨ c = '.' ∨ c = '_') ∧
      (∃ c ∈ body, IsDigit c ∨ IsHexLetter c) ∧
      body.count '.' ≤ 1 ∧ IsExponent ['p', 'P'] ex ∧
      SeparatesDigits (fun c => IsDigit c ∨ IsHexLetter c) ('0' :: (body ++ ex))

/-- The lower-case form of an ASCII letter, other characters unchanged. -/
def asciiLower (c : Char) : Char :=
  if 'A' ≤ c ∧ c ≤ 'Z' then Char.ofNat (c.toNat + 32) else c

/-- One of the spellings of a special value: `inf` or `infinity` with an optional sign, or
`nan` without a sign, in any letter case. -/
def IsSpecialFloat (s : String) : Prop :=
  (∃ sg name : List Char, s.data = sg ++ name ∧ IsSign sg ∧
      (name.map asciiLower = "inf".data ∨ name.map asciiLower = "infinity".data)) ∨
    s.data.map asciiLower = "nan".data

/-- The identity sample of a project: value 1, labelled with key, name, qualifier and
visibility. -/
def identitySample (c : Collector) (p : Component) : Sample :=
  ⟨c.projectInfo, Float64.one, [p.Key, p.Name, p.Qualifier, p.Visibility]⟩

/-- The metric key of the measure is in the catalog and the value of the measure parses
under the declared type of the catalog entry of that key (the first one with the key). -/
def exportable (metrics : List Metric) (m : Measure) : Bool :=
  match findMetricDef metrics m.Metric with
  | none => false
  | some d => (parseMetricValue m.Value d.Typ).2.isNone

/-- The sample of a measure of the project with the given key and name, for a cycle that
started with the collector `c`: the parsed value, the project key and name as labels, and
the descriptor of the metric key, which is the cached one if `c` has one and a new one
otherwise. There is none when the measure is not exportable. -/
def measureSample (caseTable : Char → Char) (c : Collector) (metrics : List Metric)
    (projectKey projectName : String) (m : Measure) : Option Sample :=
  match findMetricDef metrics m.Metric with
  | none => none
  | some d =>
    if (parseMetricValue m.Value d.Typ).2 = none then
      some ⟨(getOrCreateMetricDesc caseTable c d).1, (parseMetricValue m.Value d.Typ).1,
        [projectKey, projectName]⟩
    else none

/-- The results of the measure fetches of a cycle, one per project, in the order of the
projects; `w` is the state of the world before the first of them. -/
def measureResponses {σ : Type} (client : Client σ) (numericMetricKeys : List String) :
    List Component → σ → List (Except String (List Measure))
  | [], _ => []
  | p :: ps, w =>
    (client.GetProjectMeasures p.Key numericMetricKeys w).1 ::
      measureResponses client numericMetricKeys ps
        (client.GetProjectMeasures p.Key numericMetricKeys w).2

/-- The state of the world after the measure fetches for the projects of the list. -/
def worldAfter {σ : Type} (client : Client σ) (numericMetricKeys : List String) :
    List Component → σ → σ
  | [], w => w
  | p :: ps, w =>
    worldAfter client numericMetricKeys ps
      (client.GetProjectMeasures p.Key numericMetricKeys w).2

/-- The measures a fetch returned: none when it failed. -/
def returnedMeasures : Except String (List Measure) → List Measure
  | .ok ms => ms
  | .error _ => []

/-- The samples the specification asks of a cycle: for each project in order, its identity
sample, then the samples of the measures returned for it, in the order returned. -/
def expectedSamples (caseTable : Char → Char) (c : Collector) (metrics : List Metric) :
    List Component → List (Except String (List Measure)) → List Sample
  | p :: ps, r :: rs =>
    identitySample c p ::
      ((returnedMeasures r).filterMap (measureSample caseTable c metrics p.Key p.Name) ++
        expectedSamples caseTable c metrics ps rs)
  | _, _ => []

/-- The number of exportable measures among the measures returned by the fetches. -/
def exportableCount (metrics : List Metric) : List (Except String (List Measure)) → Nat
  | [] => 0
  | r :: rs => ((returnedMeasures r).filter (exportable metrics)).length +
      exportableCount metrics rs

/-- The upstream of scenario A: two metrics, two projects, two measures each. -/
def scenarioA : Client Unit where
  GetMetrics := fun w =>
    (.ok [⟨"1", "bugs", "INT", "Bugs", "Number of bugs", "Reliability", 0, false, false⟩,
      ⟨"2", "coverage", "PERCENT", "Coverage", "Test coverage", "Coverage", 0, false, false⟩],
     w)
  GetProjects := fun w =>
    (.ok [⟨"project1", "Project 1", "TRK", false, "", ["tag1"], "private"⟩,
      ⟨"project2", "Project 2", "TRK", false, "", [], "public"⟩], w)
  GetProjectMeasures := fun component _ w =>
    (if component = "project1" then .ok [⟨"bugs", "5"⟩, ⟨"coverage", "80.5"⟩]
     else if component = "project2" then .ok [⟨"bugs", "10"⟩, ⟨"coverage", "65.0"⟩]
     else .ok [], w)

/-- The collector `c'` of a cycle in progress hands out, for every catalog entry, the
descriptor the collector `c` the cycle started with hands out. -/
def Agrees (caseTable : Char → Char) (metrics : List Metric) (c c' : Collector) : Prop :=
  c'.projectInfo = c.projectInfo ∧
    ∀ d, findMetricDef metrics d.Key = some d →
      (getOrCreateMetricDesc caseTable c' d).1 = (getOrCreateMetricDesc caseTable c d).1

/-- The client whose measure fetches that fail return an empty list of measures instead;
nothing else is changed. -/
def recoverMeasures {σ : Type} (client : Client σ) : Client σ :=
  { client with
    GetProjectMeasures := fun key keys w =>
      (match (client.GetProjectMeasures key keys w).1 with
        | .error _ => .ok []
        | .ok ms => .ok ms,
       (client.GetProjectMeasures key keys w).2) }

/-- The upstream of scenario B: the catalog fetch is refused. -/
def scenarioB : Client Unit where
  GetMetrics := fun w => (.error "unexpected status code 401: Unauthorized", w)
  GetProjects := fun w =>
    (.ok [⟨"project1", "Project 1", "TRK", false, "", [], "private"⟩], w)
  GetProjectMeasures := fun _ _ w => (.ok [⟨"bugs", "5"⟩], w)

/-- The upstream of scenario C: the catalog is fetched, the project list is refused. -/
def scenarioC : Client Unit where
  GetMetrics := fun w =>
    (.ok [⟨"1", "bugs", "INT", "Bugs", "Number of bugs", "Reliability", 0, false, false⟩], w)
  GetProjects := fun w => (.error "unexpected status code 401: Unauthorized", w)
  GetProjectMeasures := fun _ _ w => (.ok [⟨"bugs", "5"⟩], w)

/-- The upstream of scenario D: one metric, one project, and the measure fetch for the
project is answered with not found. -/
def scenarioD : Client Unit where
  GetMetrics := fun w =>
    (.ok [⟨"1", "bugs", "INT", "Bugs", "Number of bugs", "Reliability", 0, false, false⟩], w)
  GetProjects := fun w =>
    (.ok [⟨"project1", "Project 1", "TRK", false, "", [], "private"⟩], w)
  GetProjectMeasures := fun _ _ w => (.error "unexpected status code 404: Not found", w)

/-- A collector that has served a cycle before: its cache holds the descriptor of `bugs`. -/
def usedCollector : Collector :=
  { NewCollector with
    metricDescs := [("bugs", NewDesc "sonarqube_bugs" "Number of bugs"
      ["project_key", "project_name"] [("domain", "Reliability")])] }

/-- The measure fetches of the client, asked for the metric keys `keys`, return measures
of these keys only. -/
def HonoursKeys {σ : Type} (client : Client σ) (keys : List String) : Prop :=
  ∀ (key : String) (w : σ) (ms : List Measure),
    (client.GetProjectMeasures key keys w).1 = .ok ms → ∀ m ∈ ms, m.Metric ∈ keys

/-- The sample `s` is the sample of a measure, of one of the projects, whose metric key is
in the numeric allow list of the catalog `metrics`. -/
def AllowlistedSample (caseTable : Char → Char) (c : Collector) (metrics : List Metric)
    (projects : List Component) (s : Sample) : Prop :=
  ∃ p ∈ projects, ∃ (m : Measure) (d : Metric),
    m.Metric ∈ getNumericMetricKeys metrics ∧ findMetricDef metrics m.Metric = some d ∧
      (parseMetricValue m.Value d.Typ).2 = none ∧
      s = ⟨(getOrCreateMetricDesc caseTable c d).1, (parseMetricValue m.Value d.Typ).1,
        [p.Key, p.Name]⟩

/-- Every sample of the cycle is the identity sample of a project or the sample of a
measure whose metric key is in the numeric allow list of the cycle. -/
def OnlyAllowlisted {σ : Type} (caseTable : Char → Char) (client : Client σ) (c : Collector)
    (w : σ) : Prop :=
  ∀ (metrics : List Metric) (projects : List Component),
    (client.GetMetrics w).1 = .ok metrics →
    (client.GetProjects (client.GetMetrics w).2).1 = .ok projects →
    ∀ s ∈ (Collect caseTable client c w).1.ch,
      (∃ p ∈ projects, s = identitySample c p) ∨ AllowlistedSample caseTable c metrics projects s

/-- An upstream that answers a measure fetch with a measure nobody asked for: the catalog
has the numeric metric `bugs` and the metric `alert_status` of type LEVEL, and the measures
returned for the project are `alert_status = OK` and `bugs = 3`. -/
def scenarioUnrequested : Client Unit where
  GetMetrics := fun w =>
    (.ok [⟨"1", "bugs", "INT", "Bugs", "Number of bugs", "Reliability", 0, false, false⟩,
      ⟨"2", "alert_status", "LEVEL", "Alert status", "The project status",
        "Releasability", 0, true, false⟩], w)
  GetProjects := fun w =>
    (.ok [⟨"project1", "Project 1", "TRK", false, "", [], "private"⟩], w)
  GetProjectMeasures := fun _ _ w => (.ok [⟨"alert_status", "OK"⟩, ⟨"bugs", "3"⟩], w)

/-- The projects of the pages 1 to `k`, in order. -/
def pagesConcat (pages : Nat → ComponentsResponse) : Nat → List Component
  | 0 => []
  | k + 1 => pagesConcat pages k ++ (pages (k + 1)).Components

/-- The total that page `k` reports is reached by the projects of the pages 1 to `k`. -/
def StopsAt (pages : Nat → ComponentsResponse) (k : Nat) : Prop :=
  (pages k).Paging.Total ≤ ((pagesConcat pages k).length : Int)

instance (pages : Nat → ComponentsResponse) (k : Nat) : Decidable (StopsAt pages k) :=
  inferInstanceAs (Decidable (_ ≤ _))

/-- The total that the first page reports is reached by the projects of the pages 1 to
`k`. -/
def ReachesFirstTotal (pages : Nat → ComponentsResponse) (k : Nat) : Prop :=
  (pages 1).Paging.Total ≤ ((pagesConcat pages k).length : Int)

instance (pages : Nat → ComponentsResponse) (k : Nat) :
    Decidable (ReachesFirstTotal pages k) :=
  inferInstanceAs (Decidable (_ ≤ _))

/-- The requests for the pages 1 to `k` with page size 500, in order. -/
def pageRequests : Nat → List Request
  | 0 => []
  | k + 1 => pageRequests k ++ [.searchProjects 500 (k + 1)]

/-- The upstream answers every request for a page `p` of size 500 with status 200 and a
body that decodes to `pages p`. -/
def Serves {σ : Type} (up : Upstream σ) (pages : Nat → ComponentsResponse) : Prop :=
  ∀ (p : Nat) (s : σ), ∃ (body : String) (s' : σ),
    up.searchProjects 500 p s = (.response 200 body (.ok (pages p)), s')

/-- An upstream without state that answers the request for page `p` with `pages p`; the
other two endpoints are not reachable. -/
def pageServer (pages : Nat → HttpResult ComponentsResponse) : Upstream Unit where
  metricsSearch := fun _ s => (.transportError "connection refused", s)
  searchProjects := fun _ p s => (pages p, s)
  measuresComponent := fun _ _ s => (.transportError "connection refused", s)

/-- The pages of 500 of a list of projects: page `p` holds the projects from index
`(p - 1) * 500` on, 500 at most, and reports the length of the list as the total. -/
def pagesOf (projects : List Component) (p : Nat) : ComponentsResponse :=
  ⟨⟨p, 500, projects.length⟩, (projects.drop ((p - 1) * 500)).take 500⟩

/-- The upstream answers every request for a page from 1 to `k - 1` with status 200 and a
body that decodes to the page of `pages`. -/
def ServesBelow {σ : Type} (up : Upstream σ) (pages : Nat → ComponentsResponse) (k : Nat) :
    Prop :=
  ∀ (p : Nat) (s : σ), 1 ≤ p → p < k → ∃ (body : String) (s' : σ),
    up.searchProjects 500 p s = (.response 200 body (.ok (pages p)), s')

/-- The request for page `k` fails whatever the state of the world: the request cannot be
made, the transport fails, the status is not 200 or the body does not decode. -/
def FailsAt {σ : Type} (up : Upstream σ) (k : Nat) : Prop :=
  ∀ s : σ, ∃ err : String,
    checkResponse "projects" "components" (up.searchProjects 500 k s).1 = .error err

/-- Three projects for the examples. -/
def exampleProject (n : Nat) : Component :=
  if n = 1 then ⟨"project1", "Project 1", "TRK", false, "", ["tag1"], "private"⟩
  else if n = 2 then ⟨"project2", "Project 2", "TRK", false, "", [], "public"⟩
  else ⟨"project3", "Project 3", "TRK", false, "", [], "public"⟩

/-- Pages of one project each, for three projects: every page reports the total 3, except
the second page, which reports `total2`. -/
def pagesWithSecondTotal (total2 : Int) (p : Nat) : ComponentsResponse :=
  if p = 1 then ⟨⟨1, 500, 3⟩, [exampleProject 1]⟩
  else if p = 2 then ⟨⟨2, 500, total2⟩, [exampleProject 2]⟩
  else if p = 3 then ⟨⟨3, 500, 3⟩, [exampleProject 3]⟩
  else ⟨⟨p, 500, 3⟩, []⟩

/-- The upstream without state that answers every page request with status 200 and the
page of `pages`. -/
def okPageServer (pages : Nat → ComponentsResponse) : Upstream Unit :=
  pageServer (fun p => .response 200 "" (.ok (pages p)))

/-- The upstream of scenario E, without state: the catalog holds one metric, of type
`LEVEL`, so no numeric metric; there are two projects, served on one page; the measures
endpoint is not reachable. -/
def scenarioE : Upstream Unit where
  metricsSearch := fun _ s =>
    (.response 200 ""
      (.ok ⟨[⟨"1", "alert_status", "LEVEL", "Alert status", "The project status",
        "Releasability", 0, true, false⟩], 1, 1, 500⟩), s)
  searchProjects := fun _ p s =>
    (.response 200 "" (.ok (pagesOf [exampleProject 1, exampleProject 2] p)), s)
  measuresComponent := fun _ _ s => (.transportError "connection refused", s)

/-- What `sanitizeMetricName` needs of the case tables of the Go runtime, which are not
part of the program: the lower-case form of a rune above the ASCII range is its own
lower-case form, and it is neither `-` nor `.`. -/
def CaseTableOK (caseTable : Char → Char) : Prop :=
  ∀ r : Char, 127 < r.toNat →
    unicodeToLower caseTable (caseTable r) = caseTable r ∧
      caseTable r ≠ '-' ∧ caseTable r ≠ '.'

/-- The sanitization rule in the order of the specification: lower-case first, then
replace every `-` and every `.` with `_`. -/
def sanitizeReference (caseTable : Char → Char) (key : String) : String :=
  replaceAll (replaceAll (toLower caseTable key) '-' '_') '.' '_'

/-- A case table for the examples: `É` (U+00C9) has the lower-case form `é` (U+00E9), the
Kelvin sign (U+212A) has the lower-case form `k`, which is an ASCII letter, and the other
runes are their own. -/
def exampleCaseTable (r : Char) : Char :=
  if r = '\u00C9' then '\u00E9' else if r = '\u212A' then 'k' else r

/-- The first character of a metric name under the rule `[a-zA-Z_:][a-zA-Z0-9_:]*`. -/
def isNameStart (c : Char) : Bool :=
  ('a' ≤ c && c ≤ 'z') || ('A' ≤ c && c ≤ 'Z') || c = '_' || c = ':'

/-- A later character of a metric name under the rule `[a-zA-Z_:][a-zA-Z0-9_:]*`. -/
def isNameChar (c : Char) : Bool :=
  isNameStart c || ('0' ≤ c && c ≤ '9')

/-- The string matches `[a-zA-Z_:][a-zA-Z0-9_:]*`, the rule for metric names of the
Prometheus data model. -/
def IsValidMetricName (s : String) : Bool :=
  match s.data with
  | [] => false
  | c :: cs => isNameStart c && cs.all isNameChar

/-- What the two calls of `strings.ReplaceAll` in `sanitizeMetricName` do to one rune. -/
def replaceDashDot (c : Char) : Char :=
  if (if c = '-' then '_' else c) = '.' then '_' else (if c = '-' then '_' else c)

/-- The collector after the collection cycles that start in the worlds of the list, one
after the other. -/
def runCycles {σ : Type} (caseTable : Char → Char) (client : Client σ) :
    Collector → List σ → Collector
  | c, [] => c
  | c, w :: ws => runCycles caseTable client (Collect caseTable client c w).1.c ws

/-- The metric keys of the measure samples of a cycle over the catalog `metrics`, given the
results of its measure fetches: the keys of the returned measures that are found in the
catalog and whose value parses. -/
def emittedKeysOf (metrics : List Metric) : List (Except String (List Measure)) → List String
  | [] => []
  | r :: rs =>
    ((returnedMeasures r).filter (exportable metrics)).map (fun m => m.Metric) ++
      emittedKeysOf metrics rs

/-- The metric keys of the measure samples of the cycle that starts in the world `w`; a
cycle that aborts has none. -/
def cycleKeys {σ : Type} (client : Client σ) (w : σ) : List String :=
  match (client.GetMetrics w).1 with
  | .error _ => []
  | .ok metrics =>
    match (client.GetProjects (client.GetMetrics w).2).1 with
    | .error _ => []
    | .ok projects =>
      emittedKeysOf metrics
        (measureResponses client (getNumericMetricKeys metrics) projects
          (client.GetProjects (client.GetMetrics w).2).2)

/-- The metric keys of the measure samples of the cycles that start in the worlds of the
list. -/
def emittedKeys {σ : Type} (client : Client σ) : List σ → List String
  | [] => []
  | w :: ws => cycleKeys client w ++ emittedKeys client ws

/-- The name check accepts every name that starts with `sonarqube_`, as a check that
accepts every non-empty name of valid encoding does. -/
def AcceptsPrefixed (validName : String → Bool) : Prop :=
  ∀ x : String, validName ("sonarqube_" ++ x) = true

/-- The descriptors of the collector have names the check accepts, four variable labels
for the project information and two for every cached descriptor. -/
def CollectorOK (validName : String → Bool) (c : Collector) : Prop :=
  (validName c.projectInfo.fqName = true ∧ c.projectInfo.variableLabels.length = 4) ∧
    ∀ (k : String) (d : Desc), c.metricDescs.get k = some d →
      validName d.fqName = true ∧ d.variableLabels.length = 2

/-- The name check that accepts every non-empty name (the strings of the model are of valid
encoding). -/
def nonEmptyName (s : String) : Bool :=
  !s.data.isEmpty

/-- An upstream with a metric whose key holds a space: the catalog has the metric
`code smells` of type `INT`, there is one project, and its measure of that metric is 7. -/
def scenarioSpace : Client Unit where
  GetMetrics := fun w =>
    (.ok [⟨"1", "code smells", "INT", "Code smells", "Number of code smells",
      "Maintainability", 0, false, false⟩], w)
  GetProjects := fun w =>
    (.ok [⟨"project1", "Project 1", "TRK", false, "", [], "private"⟩], w)
  GetProjectMeasures := fun _ _ w => (.ok [⟨"code smells", "7"⟩], w)

/-- An upstream without state whose first page of projects is served, with one project and
the total 3, and whose every other page request is answered with status 500. -/
def failingSecondPage : Upstream Unit :=
  pageServer (fun p =>
    if p = 1 then .response 200 "" (.ok (pagesWithSecondTotal 3 1))
    else .response 500 "Internal Server Error" (.error "unexpected end of JSON input"))

/-- Pages without projects that report the total 1. -/
def emptyPages (p : Nat) : ComponentsResponse :=
  ⟨⟨p, 500, 1⟩, []⟩

/-- The upstream without state that answers every page request with status 200 and a page
without projects that reports the total 1. -/
def emptyPageServer : Upstream Unit :=
  okPageServer emptyPages

/-- The catalog entry with the key `key`, of type `INT`, for the examples. -/
def exampleMetric (key : String) : Metric :=
  ⟨"1", key, "INT", "Name", "Description", "Domain", 0, false, false⟩

/-- The sample constructor of the client library accepts the sample: the name check
accepts the name of the descriptor, and there are as many label values as the descriptor
has variable labels. -/
def SampleOK (validName : String → Bool) (s : Sample) : Prop :=
  validName s.desc.fqName = true ∧ s.labelValues.length = s.desc.variableLabels.length

instance (validName : String → Bool) (s : Sample) : Decidable (SampleOK validName s) :=
  inferInstanceAs (Decidable (_ ∧ _))

/-- The sample constructor accepts every sample of the list. -/
def AllOK (validName : String → Bool) (samples : List Sample) : Prop :=
  ∀ s ∈ samples, SampleOK validName s

instance (validName : String → Bool) (samples : List Sample) :
    Decidable (AllOK validName samples) :=
  inferInstanceAs (Decidable (∀ s ∈ samples, _))

/-- The name check accepts the exposed name, `sonarqube_` followed by the sanitized key,
of every entry of the catalog. -/
def NamesOK (validName : String → Bool) (caseTable : Char → Char) (metrics : List Metric) :
    Prop :=
  ∀ d ∈ metrics, validName ("sonarqube_" ++ sanitizeMetricName caseTable d.Key) = true

/-- The collector after the collection cycles that start in the worlds of the list, one
after the other, with the error branch of the sample constructors: `none` when one of the
cycles panics. -/
def runCyclesChecked {σ : Type} (validName : String → Bool) (caseTable : Char → Char)
    (client : Client σ) : Collector → List σ → Option Collector
  | c, [] => some c
  | c, w :: ws =>
    match CollectChecked validName caseTable client c w with
    | none => none
    | some r => runCyclesChecked validName caseTable client r.1.c ws

/-! ## Theorems -/

/-- The table of `TestParseMetricValue`: the model of `parseMetricValue` returns the value
each case of the unit test expects, as the binary64 nearest to the decimal written in the
test, and an error where the test expects one. -/
theorem parseMetricValue_test_table :
    parseMetricValue "42" "INT" = (.finite false (42 * 2 ^ 47) (-47), none) ∧
      parseMetricValue "3.14" "FLOAT" = (.finite false 7070651414971679 (-51), none) ∧
      parseMetricValue "85.5" "PERCENT" = (.finite false (171 * 2 ^ 45) (-46), none) ∧
      parseMetricValue "2.0" "RATING" = (.finite false (2 ^ 52) (-51), none) ∧
      parseMetricValue "1000" "MILLISEC" = (.finite false (1000 * 2 ^ 43) (-43), none) ∧
      parseMetricValue "120" "WORK_DUR" = (.finite false (120 * 2 ^ 46) (-46), none) ∧
      (parseMetricValue "not-a-number" "INT").2 = some .ErrSyntax ∧
      (parseMetricValue "not-a-number" "FLOAT").2 = some .ErrSyntax ∧
      parseMetricValue "" "INT" = (Float64.zero, none) ∧
      parseMetricValue "" "PERCENT" = (Float64.zero, none) := by
  decide

/-- The table of `TestSanitizeMetricName`. -/
theorem sanitizeMetricName_test_table (caseTable : Char → Char) :
    sanitizeMetricName caseTable "new_bugs" = "new_bugs" ∧
      sanitizeMetricName caseTable "code-smells" = "code_smells" ∧
      sanitizeMetricName caseTable "CXX-public_api" = "cxx_public_api" ∧
      sanitizeMetricName caseTable "sqale.index" = "sqale_index" :=
  ⟨rfl, rfl, rfl, rfl⟩

/-- Some values of `strconv.ParseFloat`: rounding to nearest, signed zero, underscores,
the special values, and forms that are no numbers. -/
theorem ParseFloat_examples :
    ParseFloat "0.1" = (.finite false 0x1999999999999a (-56), none) ∧
      ParseFloat "-0" = (.finite true 0 (-1074), none) ∧
      ParseFloat "1_0" = (.finite false (5 * 2 ^ 50) (-49), none) ∧
      ParseFloat ".5" = (.finite false (2 ^ 52) (-53), none) ∧
      ParseFloat "-infinity" = (.inf true, none) ∧
      (ParseFloat "1__0").2 = some .ErrSyntax ∧
      (ParseFloat "+nan").2 = some .ErrSyntax ∧
      (ParseFloat "infinit").2 = some .ErrSyntax ∧
      (ParseFloat "1e").2 = some .ErrSyntax ∧
      (ParseFloat "1 ").2 = some .ErrSyntax := by
  decide

/-- The ends of the range of `strconv.ParseFloat`: the largest finite value, the overflow
just above it, which is a range error, and the smallest positive value. -/
theorem ParseFloat_range_examples :
    ParseFloat "1.7976931348623157e308" = (.finite false (2 ^ 53 - 1) 971, none) ∧
      ParseFloat "1.7976931348623159e308" = (.inf false, some .ErrRange) ∧
      ParseFloat "5e-324" = (.finite false 1 (-1074), none) ∧
      ParseFloat "2e-324" = (.finite false 0 (-1074), none) := by
  decide!

/-- The catalog of `TestGetNumericMetricKeys`: five keys, without the metric that is not
numeric and without the hidden one. -/
theorem getNumericMetricKeys_test_table :
    getNumericMetricKeys
        [⟨"", "bugs", "INT", "", "", "", 0, false, false⟩,
          ⟨"", "coverage", "PERCENT", "", "", "", 0, false, false⟩,
          ⟨"", "ncloc", "INT", "", "", "", 0, false, false⟩,
          ⟨"", "description", "STRING", "", "", "", 0, false, false⟩,
          ⟨"", "hidden_metric", "INT", "", "", "", 0, false, true⟩,
          ⟨"", "sqale_index", "WORK_DUR", "", "", "", 0, false, false⟩,
          ⟨"", "complexity", "INT", "", "", "", 0, false, false⟩] =
      ["bugs", "coverage", "ncloc", "sqale_index", "complexity"] := by
  decide

theorem numericTypes_get (t : String) :
    (numericTypes.get t).getD false = true ↔
      t ∈ ["INT", "FLOAT", "PERCENT", "RATING", "MILLISEC", "WORK_DUR"] := by
  simp only [numericTypes, GoMap.get]
  split_ifs <;> simp_all [eq_comm]

theorem mem_foldl_numeric (k : String) (metrics : List Metric) (acc : List String) :
    k ∈ metrics.foldl
      (fun keys metric =>
        if !metric.Hidden && ((numericTypes.get metric.Typ).getD false) then keys ++ [metric.Key]
        else keys) acc ↔
    k ∈ acc ∨ ∃ m ∈ metrics, m.Key = k ∧
      m.Typ ∈ ["INT", "FLOAT", "PERCENT", "RATING", "MILLISEC", "WORK_DUR"] ∧ m.Hidden = false := by
  induction metrics generalizing acc with
  | nil => simp
  | cons m ms ih =>
    rw [List.foldl_cons, ih]
    by_cases h : (!m.Hidden && ((numericTypes.get m.Typ).getD false)) = true
    · rw [if_pos h]
      have h' := h
      rw [Bool.and_eq_true, numericTypes_get] at h'
      simp only [Bool.not_eq_true'] at h'
      constructor
      · rintro (hk | ⟨m', hm', h1⟩)
        · rcases List.mem_append.1 hk with hk | hk
          · exact Or.inl hk
          · exact Or.inr ⟨m, List.mem_cons_self _ _, (List.mem_singleton.1 hk).symm, h'.2, h'.1⟩
        · exact Or.inr ⟨m', List.mem_cons_of_mem _ hm', h1⟩
      · rintro (hk | ⟨m', hm', h1⟩)
        · exact Or.inl (List.mem_append_left _ hk)
        · rcases List.mem_cons.1 hm' with rfl | hm'
          · exact Or.inl (List.mem_append_right _ (List.mem_singleton.2 h1.1.symm))
          · exact Or.inr ⟨m', hm', h1⟩
    · rw [if_neg h]
      constructor
      · rintro (hk | ⟨m', hm', h1⟩)
        · exact Or.inl hk
        · exact Or.inr ⟨m', List.mem_cons_of_mem _ hm', h1⟩
      · rintro (hk | ⟨m', hm', h1⟩)
        · exact Or.inl hk
        · rcases List.mem_cons.1 hm' with rfl | hm'
          · exfalso
            apply h
            rw [Bool.and_eq_true, numericTypes_get]
            simp only [Bool.not_eq_true']
            exact ⟨h1.2.2, h1.2.1⟩
          · exact Or.inr ⟨m', hm', h1⟩

/-- C5: a key is in the result of `getNumericMetricKeys` exactly when some catalog entry
with that key has a type among INT, FLOAT, PERCENT, RATING, MILLISEC, WORK_DUR and is not
hidden. -/
theorem getNumericMetricKeys_mem_iff (metrics : List Metric) (k : String) :
    k ∈ getNumericMetricKeys metrics ↔
      ∃ m ∈ metrics, m.Key = k ∧
        m.Typ ∈ ["INT", "FLOAT", "PERCENT", "RATING", "MILLISEC", "WORK_DUR"] ∧
        m.Hidden = false := by
  unfold getNumericMetricKeys
  rw [mem_foldl_numeric]
  simp

/-- C8: for every declared type, the empty raw value parses to the number 0 with no
error. -/
theorem parseMetricValue_empty (T : String) :
    parseMetricValue "" T = (Float64.zero, none) ∧ Float64.zero.toRat = some 0 := by
  constructor
  · simp [parseMetricValue]
  · simp [Float64.zero, Float64.toRat]

namespace GoMap

variable {V : Type}

theorem get_set_self (m : GoMap V) (k : String) (v : V) : (m.set k v).get k = some v := by
  induction m with
  | nil => simp [set, get]
  | cons e rest ih =>
    obtain ⟨k', v'⟩ := e
    by_cases h : k' = k
    · simp [set, get, h]
    · simp [set, get, h, ih]

theorem get_set_ne (m : GoMap V) (k k' : String) (v : V) (h : k' ≠ k) :
    (m.set k v).get k' = m.get k' := by
  induction m with
  | nil => simp [set, get, h.symm]
  | cons e rest ih =>
    obtain ⟨k0, v0⟩ := e
    by_cases h0 : k0 = k
    · subst h0
      simp [set, get, h.symm]
    · by_cases h1 : k0 = k'
      · subst h1
        simp [set, get, h]
      · simp [set, get, h0, h1, ih]

theorem keys_set_of_get_none (m : GoMap V) (k : String) (v : V) (h : m.get k = none) :
    m.set k v = m ++ [(k, v)] := by
  induction m with
  | nil => simp [set]
  | cons e rest ih =>
    obtain ⟨k0, v0⟩ := e
    by_cases h0 : k0 = k
    · simp [get, h0] at h
    · simp only [get, h0, if_false] at h
      simp [set, h0, ih h]

theorem count_eq_zero_of_get_none (m : GoMap V) (k : String) (h : m.get k = none) :
    m.count k = 0 := by
  induction m with
  | nil => simp [count]
  | cons e rest ih =>
    obtain ⟨k0, v0⟩ := e
    by_cases h0 : k0 = k
    · simp [get, h0] at h
    · simp only [get, h0, if_false] at h
      have := ih h
      simp only [count] at this ⊢
      simp [List.filter_cons, h0, this]

theorem not_mem_keys_of_get_none (m : GoMap V) (k : String) (h : m.get k = none) :
    k ∉ m.map Prod.fst := by
  induction m with
  | nil => simp
  | cons e rest ih =>
    obtain ⟨k0, v0⟩ := e
    by_cases h0 : k0 = k
    · simp [get, h0] at h
    · simp only [get, h0, if_false] at h
      simp only [List.map_cons, List.mem_cons, not_or]
      exact ⟨fun hk => h0 hk.symm, ih h⟩

theorem count_eq_zero_of_not_mem (m : GoMap V) (k : String) (h : k ∉ m.map Prod.fst) :
    m.count k = 0 := by
  induction m with
  | nil => simp [count]
  | cons e rest ih =>
    obtain ⟨k0, v0⟩ := e
    simp only [List.map_cons, List.mem_cons, not_or] at h
    have := ih h.2
    simp only [count] at this ⊢
    have h0 : ¬ k0 = k := fun hk => h.1 hk.symm
    simp [List.filter_cons, h0, this]

theorem count_eq_one_of_get_some (m : GoMap V) (k : String) (v : V) (hwf : m.WF)
    (h : m.get k = some v) : m.count k = 1 := by
  induction m with
  | nil => simp [get] at h
  | cons e rest ih =>
    obtain ⟨k0, v0⟩ := e
    have hnd : k0 ∉ rest.map Prod.fst ∧ (rest.map Prod.fst).Nodup := by
      simpa [WF] using hwf
    by_cases h0 : k0 = k
    · subst h0
      have := count_eq_zero_of_not_mem rest k0 hnd.1
      simp only [count] at this ⊢
      simp [List.filter_cons, this]
    · simp only [get, h0, if_false] at h
      have := ih hnd.2 h
      simp only [count] at this ⊢
      simp [List.filter_cons, h0, this]

theorem wf_set_of_get_none (m : GoMap V) (k : String) (v : V) (hwf : m.WF)
    (h : m.get k = none) : (m.set k v).WF := by
  rw [keys_set_of_get_none m k v h]
  have hk := not_mem_keys_of_get_none m k h
  simp only [WF] at hwf ⊢
  rw [List.map_append, List.nodup_append]
  refine ⟨hwf, by simp, ?_⟩
  intro a ha hb
  simp at hb
  exact hk (hb ▸ ha)

end GoMap

theorem getOrCreate_of_get_some (lo : Char → Char) (c : Collector) (m : Metric) (d : Desc)
    (h : c.metricDescs.get m.Key = some d) : getOrCreateMetricDesc lo c m = (d, c) := by
  simp [getOrCreateMetricDesc, h]

theorem getOrCreate_get (lo : Char → Char) (c : Collector) (m : Metric) :
    (getOrCreateMetricDesc lo c m).2.metricDescs.get m.Key =
      some (getOrCreateMetricDesc lo c m).1 := by
  cases h : c.metricDescs.get m.Key with
  | some d => simp [getOrCreateMetricDesc, h]
  | none => simp [getOrCreateMetricDesc, h, GoMap.get_set_self]

theorem getOrCreate_get_ne (lo : Char → Char) (c : Collector) (m : Metric) (k : String)
    (hk : k ≠ m.Key) :
    (getOrCreateMetricDesc lo c m).2.metricDescs.get k = c.metricDescs.get k := by
  cases h : c.metricDescs.get m.Key with
  | some d => simp [getOrCreateMetricDesc, h]
  | none => simp [getOrCreateMetricDesc, h, GoMap.get_set_ne _ _ _ _ hk]

theorem getOrCreate_wf (lo : Char → Char) (c : Collector) (m : Metric)
    (hwf : c.metricDescs.WF) : (getOrCreateMetricDesc lo c m).2.metricDescs.WF := by
  cases h : c.metricDescs.get m.Key with
  | some d => simpa [getOrCreateMetricDesc, h] using hwf
  | none =>
    simpa [getOrCreateMetricDesc, h] using GoMap.wf_set_of_get_none _ _ _ hwf h

theorem getOrCreate_projectInfo (lo : Char → Char) (c : Collector) (m : Metric) :
    (getOrCreateMetricDesc lo c m).2.projectInfo = c.projectInfo := by
  cases h : c.metricDescs.get m.Key with
  | some d => simp [getOrCreateMetricDesc, h]
  | none => simp [getOrCreateMetricDesc, h]

theorem getOrCreateAll_same_key (lo : Char → Char) (ms : List Metric) (c : Collector) (k : String)
    (d : Desc) (h : c.metricDescs.get k = some d) (hms : ∀ m ∈ ms, m.Key = k) :
    getOrCreateAll lo c ms = c := by
  induction ms with
  | nil => rfl
  | cons m ms ih =>
    have hm : m.Key = k := hms m (List.mem_cons_self _ _)
    have h1 : getOrCreateMetricDesc lo c m = (d, c) :=
      getOrCreate_of_get_some lo c m d (hm ▸ h)
    simp only [getOrCreateAll, List.foldl_cons, h1]
    exact ih (fun m' hm' => hms m' (List.mem_cons_of_mem _ hm'))

/-- C10: `getOrCreateMetricDesc` is write-once per metric key. On a well-formed cache and
for two metric definitions with the same key, the second call returns the descriptor the
first call returned and leaves the cache as the first call left it; the first call keeps an
entry that was there and the entry of every other key; and after any number of calls with
that key the cache holds exactly one entry for it. -/
theorem getOrCreateMetricDesc_write_once (caseTable : Char → Char) (c : Collector)
    (m1 m2 : Metric) (ms : List Metric) (hwf : c.metricDescs.WF) (hkey : m2.Key = m1.Key)
    (hms : ∀ m ∈ ms, m.Key = m1.Key) :
    (getOrCreateMetricDesc caseTable (getOrCreateMetricDesc caseTable c m1).2 m2).1 =
        (getOrCreateMetricDesc caseTable c m1).1 ∧
      (getOrCreateMetricDesc caseTable (getOrCreateMetricDesc caseTable c m1).2 m2).2 =
        (getOrCreateMetricDesc caseTable c m1).2 ∧
      (∀ d, c.metricDescs.get m1.Key = some d →
        getOrCreateMetricDesc caseTable c m1 = (d, c)) ∧
      (∀ k, k ≠ m1.Key →
        (getOrCreateMetricDesc caseTable c m1).2.metricDescs.get k = c.metricDescs.get k) ∧
      (getOrCreateMetricDesc caseTable c m1).2.metricDescs.WF ∧
      (getOrCreateAll caseTable c (m1 :: ms)).metricDescs.count m1.Key = 1 ∧
      (getOrCreateAll caseTable c (m1 :: ms)).metricDescs.get m1.Key =
        some (getOrCreateMetricDesc caseTable c m1).1 := by
  have hget := getOrCreate_get caseTable c m1
  have hwf1 := getOrCreate_wf caseTable c m1 hwf
  have h2 := getOrCreate_of_get_some caseTable (getOrCreateMetricDesc caseTable c m1).2 m2 _
    (hkey ▸ hget)
  have hall : getOrCreateAll caseTable c (m1 :: ms) = (getOrCreateMetricDesc caseTable c m1).2 := by
    simp only [getOrCreateAll, List.foldl_cons]
    exact getOrCreateAll_same_key caseTable ms _ m1.Key _ hget hms
  refine ⟨by rw [h2], by rw [h2], ?_, ?_, hwf1, ?_, ?_⟩
  · intro d hd
    exact getOrCreate_of_get_some caseTable c m1 d hd
  · intro k hk
    exact getOrCreate_get_ne caseTable c m1 k hk
  · rw [hall]
    exact GoMap.count_eq_one_of_get_some _ _ _ hwf1 hget
  · rw [hall]
    exact hget

/-- C10 at a concrete cache: the key `bugs` is looked up twice, the second time with another
domain and description. -/
theorem getOrCreateMetricDesc_write_once_witness :
    (getOrCreateMetricDesc id (getOrCreateMetricDesc id NewCollector
        ⟨"1", "bugs", "INT", "Bugs", "Number of bugs", "Reliability", 0, false, false⟩).2
        ⟨"1", "bugs", "INT", "Bugs", "Other", "Security", 0, false, false⟩).1 =
      NewDesc "sonarqube_bugs" "Number of bugs" ["project_key", "project_name"]
        [("domain", "Reliability")] :=
  (getOrCreateMetricDesc_write_once id NewCollector
    ⟨"1", "bugs", "INT", "Bugs", "Number of bugs", "Reliability", 0, false, false⟩
    ⟨"1", "bugs", "INT", "Bugs", "Other", "Security", 0, false, false⟩ []
    (by simp [GoMap.WF, NewCollector]) rfl (by simp)).1.trans (by decide)

theorem digit_toNat (c : Char) (h : '0' ≤ c ∧ c ≤ '9') : 48 ≤ c.toNat ∧ c.toNat ≤ 57 := h

theorem le_digitsValueFrom (ds : List Char) (n : Nat) : n ≤ digitsValueFrom n ds := by
  induction ds generalizing n with
  | nil => exact Nat.le_refl _
  | cons c cs ih =>
    have := ih (n * 10 + (c.toNat - '0'.toNat))
    simp only [digitsValueFrom, List.foldl_cons] at this ⊢
    omega

theorem parseUintLoop_digit (c : Char) (cs : List Char) (n : Nat) (hd : '0' ≤ c ∧ c ≤ '9') :
    parseUintLoop (c :: cs) n =
      if maxUint64 / 10 + 1 ≤ n then (maxUint64, some .ErrRange)
      else if (n * 10 + (c.toNat - '0'.toNat)) % 2 ^ 64 < n * 10 ∨
          maxUint64 < (n * 10 + (c.toNat - '0'.toNat)) % 2 ^ 64 then
        (maxUint64, some .ErrRange)
      else parseUintLoop cs ((n * 10 + (c.toNat - '0'.toNat)) % 2 ^ 64) := by
  have hc := digit_toNat c hd
  have h48 : '0'.toNat = 48 := rfl
  have hd10 : ¬ 10 ≤ c.toNat - '0'.toNat := by rw [h48]; omega
  rw [parseUintLoop]
  simp only [hd, and_self, if_true]
  rw [if_neg hd10]

theorem parseUintLoop_not_digit (c : Char) (cs : List Char) (n : Nat)
    (hd : ¬ ('0' ≤ c ∧ c ≤ '9')) : parseUintLoop (c :: cs) n = (0, some .ErrSyntax) := by
  rw [parseUintLoop, if_neg hd]
  by_cases hl : 'a'.toNat ≤ lower c ∧ lower c ≤ 'z'.toNat
  · have h10 : 10 ≤ lower c - 'a'.toNat + 10 := by omega
    rw [if_pos hl]
    simp only [h10, if_true]
  · rw [if_neg hl]

theorem parseUintLoop_spec (cs : List Char) (n : Nat) (hn : n < 2 ^ 64) :
    ((parseUintLoop cs n).2 = none ↔
        (∀ c ∈ cs, '0' ≤ c ∧ c ≤ '9') ∧ digitsValueFrom n cs < 2 ^ 64) ∧
      ((parseUintLoop cs n).2 = none → (parseUintLoop cs n).1 = digitsValueFrom n cs) ∧
      ((parseUintLoop cs n).2 = some .ErrRange → (parseUintLoop cs n).1 = maxUint64) := by
  induction cs generalizing n with
  | nil =>
    refine ⟨⟨fun _ => ⟨by simp, hn⟩, fun _ => rfl⟩, fun _ => rfl, fun h => ?_⟩
    simp [parseUintLoop] at h
  | cons c cs ih =>
    have hge := le_digitsValueFrom cs (n * 10 + (c.toNat - '0'.toNat))
    have hval : digitsValueFrom n (c :: cs) =
        digitsValueFrom (n * 10 + (c.toNat - '0'.toNat)) cs := rfl
    have h48 : '0'.toNat = 48 := rfl
    have hmax : maxUint64 = 2 ^ 64 - 1 := rfl
    by_cases hd : '0' ≤ c ∧ c ≤ '9'
    · have hc := digit_toNat c hd
      rw [parseUintLoop_digit c cs n hd]
      by_cases hcut : maxUint64 / 10 + 1 ≤ n
      · have hbig : ¬ digitsValueFrom n (c :: cs) < 2 ^ 64 := by
          rw [hval]
          rw [hmax] at hcut
          omega
        rw [if_pos hcut]
        exact ⟨⟨fun h => by simp at h, fun h => absurd h.2 hbig⟩, fun h => by simp at h,
          fun _ => rfl⟩
      · rw [if_neg hcut]
        have hsmall : n * 10 < 2 ^ 64 := by
          rw [hmax] at hcut
          omega
        by_cases hlt : n * 10 + (c.toNat - '0'.toNat) < 2 ^ 64
        · have hmod : (n * 10 + (c.toNat - '0'.toNat)) % 2 ^ 64 =
              n * 10 + (c.toNat - '0'.toNat) := Nat.mod_eq_of_lt hlt
          have hov : ¬ ((n * 10 + (c.toNat - '0'.toNat)) % 2 ^ 64 < n * 10 ∨
              maxUint64 < (n * 10 + (c.toNat - '0'.toNat)) % 2 ^ 64) := by
            rw [hmod, hmax]
            omega
          rw [if_neg hov, hmod, hval]
          have ih' := ih (n * 10 + (c.toNat - '0'.toNat)) hlt
          refine ⟨?_, ih'.2.1, ih'.2.2⟩
          rw [ih'.1]
          constructor
          · rintro ⟨h1, h2⟩
            refine ⟨fun c' hc' => ?_, h2⟩
            rcases List.mem_cons.1 hc' with rfl | hc'
            · exact hd
            · exact h1 c' hc'
          · rintro ⟨h1, h2⟩
            exact ⟨fun c' hc' => h1 c' (List.mem_cons_of_mem _ hc'), h2⟩
        · have hmod : (n * 10 + (c.toNat - '0'.toNat)) % 2 ^ 64 =
              n * 10 + (c.toNat - '0'.toNat) - 2 ^ 64 := by
            rw [Nat.mod_eq_sub_mod (by omega), Nat.mod_eq_of_lt (by omega)]
          have hov : (n * 10 + (c.toNat - '0'.toNat)) % 2 ^ 64 < n * 10 ∨
              maxUint64 < (n * 10 + (c.toNat - '0'.toNat)) % 2 ^ 64 := by
            left
            rw [hmod]
            omega
          have hbig : ¬ digitsValueFrom n (c :: cs) < 2 ^ 64 := by
            rw [hval]
            omega
          rw [if_pos hov]
          exact ⟨⟨fun h => by simp at h, fun h => absurd h.2 hbig⟩, fun h => by simp at h,
            fun _ => rfl⟩
    · rw [parseUintLoop_not_digit c cs n hd]
      refine ⟨⟨fun h => by simp at h, fun h => absurd (h.1 c (List.mem_cons_self _ _)) hd⟩,
        fun h => by simp at h, fun h => by simp at h⟩


theorem ParseUint_spec (ds : List Char) :
    ((ParseUint ds).2 = none ↔
        ds ≠ [] ∧ (∀ c ∈ ds, '0' ≤ c ∧ c ≤ '9') ∧ digitsValue ds < 2 ^ 64) ∧
      ((ParseUint ds).2 = none → (ParseUint ds).1 = digitsValue ds) ∧
      ((ParseUint ds).2 = some .ErrRange → (ParseUint ds).1 = maxUint64) := by
  by_cases h : ds = []
  · subst h
    simp [ParseUint]
  · have hl := parseUintLoop_spec ds 0 (by norm_num)
    have hP : ParseUint ds = parseUintLoop ds 0 := by simp [ParseUint, h]
    rw [hP]
    refine ⟨?_, hl.2.1, hl.2.2⟩
    rw [hl.1]
    simp [h, digitsValue]

theorem parseIntUnsigned_spec (neg : Bool) (ds : List Char) :
    ((parseIntUnsigned neg ds).2 = none ↔
        ds ≠ [] ∧ (∀ c ∈ ds, '0' ≤ c ∧ c ≤ '9') ∧
          (if neg then digitsValue ds ≤ 2 ^ 63 else digitsValue ds < 2 ^ 63)) ∧
      ((parseIntUnsigned neg ds).2 = none →
        (parseIntUnsigned neg ds).1 =
          if neg then -(digitsValue ds : Int) else (digitsValue ds : Int)) := by
  obtain ⟨h1, h2, h3⟩ := ParseUint_spec ds
  have hmax : maxUint64 = 2 ^ 64 - 1 := rfl
  cases hr : (ParseUint ds).2 with
  | some e =>
    have hno : ¬ (ds ≠ [] ∧ (∀ c ∈ ds, '0' ≤ c ∧ c ≤ '9') ∧ digitsValue ds < 2 ^ 64) := by
      rw [← h1, hr]
      simp
    cases e with
    | ErrSyntax =>
      have hv : parseIntUnsigned neg ds = (0, some .ErrSyntax) := by
        simp [parseIntUnsigned, hr]
      rw [hv]
      refine ⟨⟨fun h => by simp at h, fun h => ?_⟩, fun h => by simp at h⟩
      -- a digit string whose value is at least 2^64 is a range error
      exfalso
      have hl := (parseUintLoop_spec ds 0 (by norm_num)).1
      have hP : ParseUint ds = parseUintLoop ds 0 := by simp [ParseUint, h.1]
      rw [hP] at hr
      revert hr
      clear hv hno h1 h2 h3
      have : ∀ (cs : List Char) (n : Nat), (∀ c ∈ cs, '0' ≤ c ∧ c ≤ '9') →
          (parseUintLoop cs n).2 ≠ some .ErrSyntax := by
        intro cs
        induction cs with
        | nil => intro n _; simp [parseUintLoop]
        | cons c cs ih =>
          intro n hall
          rw [parseUintLoop_digit c cs n (hall c (List.mem_cons_self _ _))]
          split_ifs
          · simp
          · simp
          · exact ih _ (fun c' hc' => hall c' (List.mem_cons_of_mem _ hc'))
      exact this ds 0 h.2.1
    | ErrRange =>
      have hu := h3 hr
      have hv : (parseIntUnsigned neg ds).2 = some .ErrRange := by
        cases neg <;> simp [parseIntUnsigned, hr, hu, hmax]
      rw [hv]
      refine ⟨⟨fun h => by simp at h, fun h => ?_⟩, fun h => by simp at h⟩
      exfalso
      apply hno
      refine ⟨h.1, h.2.1, ?_⟩
      have := h.2.2
      cases neg
      · simp only [Bool.false_eq_true, if_false] at this
        omega
      · simp only [if_true] at this
        omega
  | none =>
    have hu := h2 hr
    obtain ⟨hne, hall, hlt⟩ := h1.1 hr
    cases neg
    · by_cases hb : 2 ^ 63 ≤ digitsValue ds
      · have hv : parseIntUnsigned false ds = (2 ^ 63 - 1, some .ErrRange) := by
          simp [parseIntUnsigned, hr, hu]
          omega
        rw [hv]
        refine ⟨⟨fun h => by simp at h, fun h => ?_⟩, fun h => by simp at h⟩
        have := h.2.2
        simp only [Bool.false_eq_true, if_false] at this
        omega
      · have hv : parseIntUnsigned false ds = (int64 (digitsValue ds), none) := by
          simp [parseIntUnsigned, hr, hu]
          omega
        have hi : int64 (digitsValue ds) = (digitsValue ds : Int) := by
          simp only [int64]
          omega
        rw [hv, hi]
        refine ⟨⟨fun _ => ⟨hne, hall, ?_⟩, fun _ => rfl⟩, fun _ => ?_⟩
        · simp only [Bool.false_eq_true, if_false]
          omega
        · simp
    · by_cases hb : 2 ^ 63 < digitsValue ds
      · have hv : parseIntUnsigned true ds = (-(2 ^ 63), some .ErrRange) := by
          simp [parseIntUnsigned, hr, hu]
          omega
        rw [hv]
        refine ⟨⟨fun h => by simp at h, fun h => ?_⟩, fun h => by simp at h⟩
        have := h.2.2
        simp only [if_true] at this
        omega
      · have hv : parseIntUnsigned true ds =
            (int64 (-(int64 (digitsValue ds))), none) := by
          simp [parseIntUnsigned, hr, hu]
          omega
        have hi : int64 (-(int64 (digitsValue ds))) = -(digitsValue ds : Int) := by
          simp only [int64]
          omega
        rw [hv, hi]
        refine ⟨⟨fun _ => ⟨hne, hall, ?_⟩, fun _ => rfl⟩, fun _ => ?_⟩
        · simp only [if_true]
          omega
        · simp

theorem ilog2Loop_spec (fuel n : Nat) (h : n ≤ fuel) (hpos : 0 < n) :
    2 ^ ilog2Loop fuel n ≤ n ∧ n < 2 ^ (ilog2Loop fuel n + 1) := by
  induction fuel generalizing n with
  | zero => omega
  | succ f ih =>
    by_cases h2 : n < 2
    · have : n = 1 := by omega
      subst this
      simp [ilog2Loop]
    · have ih' := ih (n / 2) (by omega) (by omega)
      simp only [ilog2Loop, h2, if_false]
      rw [pow_succ, pow_succ]
      rw [pow_succ] at ih'
      omega

theorem ilog2_spec (n : Nat) (hpos : 0 < n) : 2 ^ ilog2 n ≤ n ∧ n < 2 ^ (ilog2 n + 1) :=
  ilog2Loop_spec n n (Nat.le_refl _) hpos

theorem scaleBy_one_neg (n k : Nat) : scaleBy n 1 (-(k : Int)) = (n * 2 ^ k, 1) := by
  cases k with
  | zero => simp [scaleBy]
  | succ k =>
    have : ¬ (0 : Int) ≤ -((k + 1 : Nat) : Int) := by omega
    simp only [scaleBy, this, if_false, neg_neg, Int.toNat_ofNat]

theorem roundBinary64_small (neg : Bool) (n : Nat) (hpos : 0 < n) (hlt : n < 2 ^ 53) :
    roundBinary64 neg n 1 =
      (.finite neg (n * 2 ^ (52 - ilog2 n)) (-((52 - ilog2 n : Nat) : Int)), false) := by
  obtain ⟨hlo, hhi⟩ := ilog2_spec n hpos
  have hL : ilog2 n ≤ 52 := by
    by_contra hc
    have : 2 ^ 53 ≤ 2 ^ ilog2 n := Nat.pow_le_pow_right (by norm_num) (by omega)
    omega
  have h1 : ilog2 1 = 0 := rfl
  have he0 : (ilog2 n : Int) - (ilog2 1 : Int) - 52 = -((52 - ilog2 n : Nat) : Int) := by
    rw [h1]
    omega
  have hsplit : 2 ^ ilog2 n * 2 ^ (52 - ilog2 n) = 2 ^ 52 := by
    rw [← pow_add]
    congr 1
    omega
  have hsplit' : 2 ^ (ilog2 n + 1) * 2 ^ (52 - ilog2 n) = 2 ^ 53 := by
    rw [← pow_add]
    congr 1
    omega
  have hk : 0 < 2 ^ (52 - ilog2 n) := Nat.two_pow_pos _
  have ha1 : 2 ^ 52 ≤ n * 2 ^ (52 - ilog2 n) := by
    rw [← hsplit]
    exact Nat.mul_le_mul_right _ hlo
  have ha2 : n * 2 ^ (52 - ilog2 n) < 2 ^ 53 := by
    rw [← hsplit']
    exact Nat.mul_lt_mul_of_pos_right hhi hk
  have hn0 : n ≠ 0 := by omega
  have c1 : ¬ (n * 2 ^ (52 - ilog2 n) < 2 ^ 52 * 1) := by omega
  have c2 : ¬ (-((52 - ilog2 n : Nat) : Int) < -1074) := by omega
  have c3 : ¬ (1 < 2 * 0 ∨ (2 * 0 = 1 ∧ n * 2 ^ (52 - ilog2 n) % 2 = 1)) := by omega
  have c4 : ¬ (n * 2 ^ (52 - ilog2 n) = 2 ^ 53) := by omega
  have c5 : ¬ ((971 : Int) < -((52 - ilog2 n : Nat) : Int)) := by omega
  simp only [roundBinary64, hn0, if_false, he0, scaleBy_one_neg, c1, c2, Nat.div_one,
    Nat.mod_one, c3, c4, c5]

theorem roundBinary64_two_pow_53 (neg : Bool) :
    roundBinary64 neg (2 ^ 53) 1 = (.finite neg (2 ^ 52) 1, false) := by
  cases neg <;> decide

theorem float64_exact (v : Int) (h : v.natAbs ≤ 2 ^ 53) :
    (float64 v).toRat = some (v : ℚ) := by
  have hsign : (if decide (v < 0) = true then (-1 : ℚ) else 1) * ((v.natAbs : ℕ) : ℚ) = (v : ℚ) := by
    by_cases hv : v < 0
    · have : ((v.natAbs : ℕ) : ℤ) = -v := by omega
      have h2 : ((v.natAbs : ℕ) : ℚ) = -(v : ℚ) := by
        rw [← Int.cast_natCast, this, Int.cast_neg]
      simp [hv, h2]
    · have : ((v.natAbs : ℕ) : ℤ) = v := by omega
      have h2 : ((v.natAbs : ℕ) : ℚ) = (v : ℚ) := by
        rw [← Int.cast_natCast, this]
      simp [hv, h2]
  by_cases h0 : v.natAbs = 0
  · have hv : v = 0 := by omega
    subst hv
    simp [float64, roundBinary64, Float64.toRat]
  by_cases h53 : v.natAbs = 2 ^ 53
  · simp only [float64, h53, roundBinary64_two_pow_53, Float64.toRat]
    rw [← hsign, h53]
    norm_num
  · have hlt : v.natAbs < 2 ^ 53 := by omega
    simp only [float64, roundBinary64_small _ _ (Nat.pos_of_ne_zero h0) hlt, Float64.toRat]
    rw [← hsign]
    congr 1
    rw [mul_assoc]
    congr 1
    push_cast
    rw [mul_assoc, zpow_neg, zpow_natCast]
    have : ((2 : ℚ) ^ (52 - ilog2 v.natAbs)) ≠ 0 := by positivity
    field_simp

theorem isIntLiteral_plus (s : String) (cs : List Char) (v : Int) (h : s.data = '+' :: cs) :
    IsIntLiteral s v ↔
      cs ≠ [] ∧ (∀ c ∈ cs, '0' ≤ c ∧ c ≤ '9') ∧ v = (digitsValue cs : Int) := by
  constructor
  · rintro ⟨ds, hne, hall, h1 | h1 | h1⟩
    · exfalso
      have hmem : '+' ∈ ds := by
        rw [← h1.1, h]
        exact List.mem_cons_self _ _
      exact absurd (hall _ hmem).1 (by decide)
    · have : ds = cs := by
        have := h1.1
        rw [h] at this
        exact (List.cons.inj this).2.symm
      subst this
      exact ⟨hne, hall, h1.2⟩
    · exfalso
      have := h1.1
      rw [h] at this
      exact absurd (List.cons.inj this).1 (by decide)
  · rintro ⟨hne, hall, hv⟩
    exact ⟨cs, hne, hall, Or.inr (Or.inl ⟨h, hv⟩)⟩

theorem isIntLiteral_minus (s : String) (cs : List Char) (v : Int) (h : s.data = '-' :: cs) :
    IsIntLiteral s v ↔
      cs ≠ [] ∧ (∀ c ∈ cs, '0' ≤ c ∧ c ≤ '9') ∧ v = -(digitsValue cs : Int) := by
  constructor
  · rintro ⟨ds, hne, hall, h1 | h1 | h1⟩
    · exfalso
      have hmem : '-' ∈ ds := by
        rw [← h1.1, h]
        exact List.mem_cons_self _ _
      exact absurd (hall _ hmem).1 (by decide)
    · exfalso
      have := h1.1
      rw [h] at this
      exact absurd (List.cons.inj this).1 (by decide)
    · have : ds = cs := by
        have := h1.1
        rw [h] at this
        exact (List.cons.inj this).2.symm
      subst this
      exact ⟨hne, hall, h1.2⟩
  · rintro ⟨hne, hall, hv⟩
    exact ⟨cs, hne, hall, Or.inr (Or.inr ⟨h, hv⟩)⟩

theorem isIntLiteral_unsigned (s : String) (c : Char) (cs : List Char) (v : Int)
    (h : s.data = c :: cs) (hp : c ≠ '+') (hm : c ≠ '-') :
    IsIntLiteral s v ↔
      (∀ c' ∈ c :: cs, '0' ≤ c' ∧ c' ≤ '9') ∧ v = (digitsValue (c :: cs) : Int) := by
  constructor
  · rintro ⟨ds, _, hall, h1 | h1 | h1⟩
    · have : ds = c :: cs := by rw [← h1.1, h]
      subst this
      exact ⟨hall, h1.2⟩
    · exfalso
      have := h1.1
      rw [h] at this
      exact hp (List.cons.inj this).1
    · exfalso
      have := h1.1
      rw [h] at this
      exact hm (List.cons.inj this).1
  · rintro ⟨hall, hv⟩
    exact ⟨c :: cs, by simp, hall, Or.inl ⟨h, hv⟩⟩

theorem ParseInt_spec (s : String) :
    ((ParseInt s).2 = none ↔ ∃ v : Int, IsIntLiteral s v ∧ -(2 ^ 63) ≤ v ∧ v < 2 ^ 63) ∧
      (∀ v : Int, IsIntLiteral s v → -(2 ^ 63) ≤ v → v < 2 ^ 63 → ParseInt s = (v, none)) := by
  cases hdata : s.data with
  | nil =>
    have hP : ParseInt s = (0, some .ErrSyntax) := by simp [ParseInt, hdata]
    have hno : ∀ v, ¬ IsIntLiteral s v := by
      rintro v ⟨ds, hne, _, h1 | h1 | h1⟩
      · exact hne (by rw [← h1.1, hdata])
      · rw [hdata] at h1
        exact absurd h1.1 (by simp)
      · rw [hdata] at h1
        exact absurd h1.1 (by simp)
    rw [hP]
    exact ⟨⟨fun h => by simp at h, fun ⟨v, hv, _⟩ => absurd hv (hno v)⟩,
      fun v hv => absurd hv (hno v)⟩
  | cons c cs =>
    by_cases hp : c = '+'
    · subst hp
      have hP : ParseInt s = parseIntUnsigned false cs := by simp [ParseInt, hdata]
      obtain ⟨k1, k2⟩ := parseIntUnsigned_spec false cs
      simp only [Bool.false_eq_true, if_false] at k1 k2
      rw [hP]
      constructor
      · rw [k1]
        constructor
        · rintro ⟨hne, hall, hlt⟩
          exact ⟨(digitsValue cs : Int), (isIntLiteral_plus s cs _ hdata).2 ⟨hne, hall, rfl⟩,
            by omega, by omega⟩
        · rintro ⟨v, hv, _, hhi⟩
          obtain ⟨hne, hall, rfl⟩ := (isIntLiteral_plus s cs _ hdata).1 hv
          exact ⟨hne, hall, by omega⟩
      · intro v hv _ hhi
        obtain ⟨hne, hall, rfl⟩ := (isIntLiteral_plus s cs _ hdata).1 hv
        have hok := k1.2 ⟨hne, hall, by omega⟩
        exact Prod.ext (k2 hok) hok
    · by_cases hm : c = '-'
      · subst hm
        have hP : ParseInt s = parseIntUnsigned true cs := by simp [ParseInt, hdata]
        obtain ⟨k1, k2⟩ := parseIntUnsigned_spec true cs
        simp only [if_true] at k1 k2
        rw [hP]
        constructor
        · rw [k1]
          constructor
          · rintro ⟨hne, hall, hlt⟩
            exact ⟨-(digitsValue cs : Int),
              (isIntLiteral_minus s cs _ hdata).2 ⟨hne, hall, rfl⟩, by omega, by omega⟩
          · rintro ⟨v, hv, hlo, _⟩
            obtain ⟨hne, hall, rfl⟩ := (isIntLiteral_minus s cs _ hdata).1 hv
            exact ⟨hne, hall, by omega⟩
        · intro v hv hlo _
          obtain ⟨hne, hall, rfl⟩ := (isIntLiteral_minus s cs _ hdata).1 hv
          have hok := k1.2 ⟨hne, hall, by omega⟩
          exact Prod.ext (k2 hok) hok
      · have hP : ParseInt s = parseIntUnsigned false (c :: cs) := by
          simp [ParseInt, hdata, hp, hm]
        obtain ⟨k1, k2⟩ := parseIntUnsigned_spec false (c :: cs)
        simp only [Bool.false_eq_true, if_false] at k1 k2
        rw [hP]
        constructor
        · rw [k1]
          constructor
          · rintro ⟨_, hall, hlt⟩
            exact ⟨(digitsValue (c :: cs) : Int),
              (isIntLiteral_unsigned s c cs _ hdata hp hm).2 ⟨hall, rfl⟩, by omega, by omega⟩
          · rintro ⟨v, hv, _, hhi⟩
            obtain ⟨hall, rfl⟩ := (isIntLiteral_unsigned s c cs _ hdata hp hm).1 hv
            exact ⟨by simp, hall, by omega⟩
        · intro v hv _ hhi
          obtain ⟨hall, rfl⟩ := (isIntLiteral_unsigned s c cs _ hdata hp hm).1 hv
          have hok := k1.2 ⟨by simp, hall, by omega⟩
          exact Prod.ext (k2 hok) hok

theorem parseMetricValue_of_integer_type (s T : String)
    (hT : T = "INT" ∨ T = "MILLISEC" ∨ T = "WORK_DUR") (hs : s ≠ "") :
    parseMetricValue s T = (float64 (ParseInt s).1, (ParseInt s).2) := by
  rcases hT with rfl | rfl | rfl <;> simp [parseMetricValue, hs]

/-- C6: for the declared types INT, MILLISEC and WORK_DUR and a non-empty raw value `s`,
`parseMetricValue` returns no error exactly when `s` is a base-10 integer literal (an
optional sign, then one or more digits) of a value that fits a signed 64-bit integer; the
number returned is then that integer converted to `float64`, which is the integer itself
when its magnitude is at most `2^53`. The values `not-a-number`, `3.5`, ` 5` and
`9223372036854775808` are rejected. -/
theorem parseMetricValue_integer (s T : String)
    (hT : T = "INT" ∨ T = "MILLISEC" ∨ T = "WORK_DUR") (hs : s ≠ "") :
    ((parseMetricValue s T).2 = none ↔
        ∃ v : Int, IsIntLiteral s v ∧ -(2 ^ 63) ≤ v ∧ v < 2 ^ 63) ∧
      (∀ v : Int, IsIntLiteral s v → -(2 ^ 63) ≤ v → v < 2 ^ 63 →
        parseMetricValue s T = (float64 v, none) ∧
          (v.natAbs ≤ 2 ^ 53 → (parseMetricValue s T).1.toRat = some (v : ℚ))) ∧
      (parseMetricValue "not-a-number" T).2 = some .ErrSyntax ∧
      (parseMetricValue "3.5" T).2 = some .ErrSyntax ∧
      (parseMetricValue " 5" T).2 = some .ErrSyntax ∧
      (parseMetricValue "9223372036854775808" T).2 = some .ErrRange := by
  obtain ⟨k1, k2⟩ := ParseInt_spec s
  refine ⟨?_, ?_, ?_, ?_, ?_, ?_⟩
  · rw [parseMetricValue_of_integer_type s T hT hs]
    exact k1
  · intro v hv hlo hhi
    rw [parseMetricValue_of_integer_type s T hT hs, k2 v hv hlo hhi]
    exact ⟨rfl, fun hsmall => float64_exact v hsmall⟩
  · rw [parseMetricValue_of_integer_type _ T hT (by decide)]
    decide
  · rw [parseMetricValue_of_integer_type _ T hT (by decide)]
    decide
  · rw [parseMetricValue_of_integer_type _ T hT (by decide)]
    decide
  · rw [parseMetricValue_of_integer_type _ T hT (by decide)]
    decide

/-- C6 at the raw value `-42` of type WORK_DUR: it is an integer literal, no error is
returned and the number is -42. -/
theorem parseMetricValue_integer_witness :
    (parseMetricValue "-42" "WORK_DUR").2 = none ∧
      (parseMetricValue "-42" "WORK_DUR").1.toRat = some (-42 : ℚ) :=
  have hlit : IsIntLiteral "-42" (-42) :=
    ⟨['4', '2'], by decide, by decide, Or.inr (Or.inr ⟨rfl, by decide⟩)⟩
  have h := parseMetricValue_integer "-42" "WORK_DUR" (Or.inr (Or.inr rfl)) (by decide)
  ⟨h.1.2 ⟨-42, hlit, by decide, by decide⟩,
    by simpa using (h.2.1 (-42) hlit (by decide) (by decide)).2 (by decide)⟩

theorem le_lower (c : Char) : c.toNat ≤ lower c := by
  apply Nat.le_of_testBit
  intro i h
  show (c.toNat ||| 0x20).testBit i = true
  rw [Nat.testBit_or, h]
  rfl

theorem lower_hex_letter (c : Char) (h : 'a'.toNat ≤ lower c ∧ lower c ≤ 'f'.toNat) :
    IsHexLetter c := by
  have h102 : c.toNat ≤ 102 := le_trans (le_lower c) h.2
  have key : ∀ n : Nat, n ≤ 102 → 97 ≤ n ||| 32 → n ||| 32 ≤ 102 →
      (97 ≤ n ∧ n ≤ 102) ∨ (65 ≤ n ∧ n ≤ 70) := by decide
  exact key c.toNat h102 h.1 h.2

theorem char_eq_of_toNat (c d : Char) (h : c.toNat = d.toNat) : c = d := by
  apply Char.ext
  apply UInt32.ext
  exact h

theorem lower_eq_e (c : Char) (h : lower c = 'e'.toNat) : c = 'e' ∨ c = 'E' := by
  have hle : c.toNat ≤ 101 := le_of_le_of_eq (le_lower c) h
  have key : ∀ n : Nat, n ≤ 101 → n ||| 32 = 101 → n = 101 ∨ n = 69 := by decide
  rcases key c.toNat hle h with h1 | h1
  · exact Or.inl (char_eq_of_toNat _ _ h1)
  · exact Or.inr (char_eq_of_toNat _ _ h1)

theorem lower_eq_p (c : Char) (h : lower c = 'p'.toNat) : c = 'p' ∨ c = 'P' := by
  have hle : c.toNat ≤ 112 := le_of_le_of_eq (le_lower c) h
  have key : ∀ n : Nat, n ≤ 112 → n ||| 32 = 112 → n = 112 ∨ n = 80 := by decide
  rcases key c.toNat hle h with h1 | h1
  · exact Or.inl (char_eq_of_toNat _ _ h1)
  · exact Or.inr (char_eq_of_toNat _ _ h1)

theorem lower_eq_x (c : Char) (h : lower c = 'x'.toNat) : c = 'x' ∨ c = 'X' := by
  have hle : c.toNat ≤ 120 := le_of_le_of_eq (le_lower c) h
  have key : ∀ n : Nat, n ≤ 120 → n ||| 32 = 120 → n = 120 ∨ n = 88 := by decide
  rcases key c.toNat hle h with h1 | h1
  · exact Or.inl (char_eq_of_toNat _ _ h1)
  · exact Or.inr (char_eq_of_toNat _ _ h1)

/-- What the mantissa loop of `readFloat` takes off the input. -/
theorem readMantissa_sound (hex : Bool) (cs : List Char) (st : MantState) :
    ∃ body : List Char,
      cs = body ++ (readMantissa hex cs st).2 ∧
      (∀ c ∈ body, IsDigit c ∨ (hex = true ∧ IsHexLetter c) ∨ c = '.' ∨ c = '_') ∧
      ((readMantissa hex cs st).1.sawdigits = true →
        st.sawdigits = true ∨ ∃ c ∈ body, IsDigit c ∨ (hex = true ∧ IsHexLetter c)) ∧
      body.count '.' ≤ 1 ∧
      (st.sawdot = true → body.count '.' = 0) := by
  induction cs generalizing st with
  | nil =>
    exact ⟨[], by simp [readMantissa], by simp, by simp [readMantissa], by simp, by simp⟩
  | cons c cs ih =>
    by_cases hu : c = '_'
    · subst hu
      obtain ⟨body, h1, h2, h3, h4, h5⟩ := ih { st with underscores := true }
      have hstep : readMantissa hex ('_' :: cs) st =
          readMantissa hex cs { st with underscores := true } := by
        rw [readMantissa]
        simp
      rw [hstep]
      refine ⟨'_' :: body, by rw [List.cons_append, ← h1], ?_, ?_, ?_, ?_⟩
      · intro c hc
        rcases List.mem_cons.1 hc with rfl | hc
        · exact Or.inr (Or.inr (Or.inr rfl))
        · exact h2 c hc
      · intro hs
        rcases h3 hs with h | ⟨c, hc, hd⟩
        · exact Or.inl h
        · exact Or.inr ⟨c, List.mem_cons_of_mem _ hc, hd⟩
      · have : ('_' :: body).count '.' = body.count '.' := by
          rw [List.count_cons_of_ne (by decide)]
        rw [this]
        exact h4
      · intro hs
        rw [List.count_cons_of_ne (by decide)]
        exact h5 hs
    · by_cases hdot : c = '.'
      · subst hdot
        by_cases hsd : st.sawdot = true
        · have hstep : readMantissa hex ('.' :: cs) st = (st, '.' :: cs) := by
            rw [readMantissa]
            simp [hsd]
          rw [hstep]
          exact ⟨[], by simp, by simp, fun h => Or.inl h, by simp, by simp⟩
        · obtain ⟨body, h1, h2, h3, h4, h5⟩ := ih { st with sawdot := true, dp := st.nd }
          have hstep : readMantissa hex ('.' :: cs) st =
              readMantissa hex cs { st with sawdot := true, dp := st.nd } := by
            rw [readMantissa]
            simp [hsd]
          rw [hstep]
          have h0 := h5 rfl
          refine ⟨'.' :: body, by rw [List.cons_append, ← h1], ?_, ?_, ?_, ?_⟩
          · intro c hc
            rcases List.mem_cons.1 hc with rfl | hc
            · exact Or.inr (Or.inr (Or.inl rfl))
            · exact h2 c hc
          · intro hs
            rcases h3 hs with h | ⟨c, hc, hd⟩
            · exact Or.inl h
            · exact Or.inr ⟨c, List.mem_cons_of_mem _ hc, hd⟩
          · rw [List.count_cons_self, h0]
          · intro hs
            exact absurd hs hsd
      · by_cases hd : '0' ≤ c ∧ c ≤ '9'
        · have hgen : ∃ st', readMantissa hex (c :: cs) st = readMantissa hex cs st' ∧
              st'.sawdot = st.sawdot := by
            by_cases hz : c = '0' ∧ st.nd = 0
            · refine ⟨{ st with sawdigits := true, dp := st.dp - 1 }, ?_, rfl⟩
              rw [readMantissa]
              simp [hu, hdot, hd, hz]
            · refine ⟨{ st with
                  sawdigits := true, nd := st.nd + 1,
                  mantissa := st.mantissa * (if hex then 16 else 10) + (c.toNat - '0'.toNat) },
                ?_, rfl⟩
              rw [readMantissa]
              simp only [hu, hdot, hd, hz, if_false, if_true, and_self]
          obtain ⟨st', hstep, hsd'⟩ := hgen
          obtain ⟨body, h1, h2, h3, h4, h5⟩ := ih st'
          rw [hstep]
          refine ⟨c :: body, by rw [List.cons_append, ← h1], ?_, ?_, ?_, ?_⟩
          · intro c' hc
            rcases List.mem_cons.1 hc with rfl | hc
            · exact Or.inl hd
            · exact h2 c' hc
          · intro _
            exact Or.inr ⟨c, List.mem_cons_self _ _, Or.inl hd⟩
          · rw [List.count_cons_of_ne (fun h => hdot h.symm)]
            exact h4
          · intro hs
            rw [List.count_cons_of_ne (fun h => hdot h.symm)]
            exact h5 (hsd' ▸ hs)
        · by_cases hh : hex = true ∧ 'a'.toNat ≤ lower c ∧ lower c ≤ 'f'.toNat
          · obtain ⟨body, h1, h2, h3, h4, h5⟩ := ih { st with
              sawdigits := true, nd := st.nd + 1,
              mantissa := st.mantissa * 16 + (lower c - 'a'.toNat + 10) }
            have hstep : readMantissa hex (c :: cs) st = readMantissa hex cs { st with
                sawdigits := true, nd := st.nd + 1,
                mantissa := st.mantissa * 16 + (lower c - 'a'.toNat + 10) } := by
              rw [readMantissa]
              simp only [hu, hdot, hd, hh, if_false, if_true, and_self]
            rw [hstep]
            have hl := lower_hex_letter c hh.2
            refine ⟨c :: body, by rw [List.cons_append, ← h1], ?_, ?_, ?_, ?_⟩
            · intro c' hc
              rcases List.mem_cons.1 hc with rfl | hc
              · exact Or.inr (Or.inl ⟨hh.1, hl⟩)
              · exact h2 c' hc
            · intro _
              exact Or.inr ⟨c, List.mem_cons_self _ _, Or.inr ⟨hh.1, hl⟩⟩
            · rw [List.count_cons_of_ne (fun h => hdot h.symm)]
              exact h4
            · intro hs
              rw [List.count_cons_of_ne (fun h => hdot h.symm)]
              exact h5 hs
          · have hstep : readMantissa hex (c :: cs) st = (st, c :: cs) := by
              rw [readMantissa]
              simp only [hu, hdot, hd, hh, if_false]
            rw [hstep]
            exact ⟨[], by simp, by simp, fun h => Or.inl h, by simp, by simp⟩

theorem readExpDigits_sound (cs : List Char) (e : Nat) (us : Bool) :
    ∃ ds : List Char, cs = ds ++ (readExpDigits cs e us).2.2 ∧
      ∀ c ∈ ds, IsDigit c ∨ c = '_' := by
  induction cs generalizing e us with
  | nil => exact ⟨[], by simp [readExpDigits], by simp⟩
  | cons c cs ih =>
    by_cases hu : c = '_'
    · obtain ⟨ds, h1, h2⟩ := ih e true
      have hstep : readExpDigits (c :: cs) e us = readExpDigits cs e true := by
        rw [readExpDigits]
        simp [hu]
      rw [hstep]
      refine ⟨c :: ds, by rw [List.cons_append, ← h1], ?_⟩
      intro c' hc
      rcases List.mem_cons.1 hc with rfl | hc
      · exact Or.inr hu
      · exact h2 c' hc
    · by_cases hd : '0' ≤ c ∧ c ≤ '9'
      · obtain ⟨ds, h1, h2⟩ :=
          ih (if e < 10000 then e * 10 + (c.toNat - '0'.toNat) else e) us
        have hstep : readExpDigits (c :: cs) e us =
            readExpDigits cs (if e < 10000 then e * 10 + (c.toNat - '0'.toNat) else e) us := by
          rw [readExpDigits]
          simp only [hu, hd, if_false, if_true, and_self]
        rw [hstep]
        refine ⟨c :: ds, by rw [List.cons_append, ← h1], ?_⟩
        intro c' hc
        rcases List.mem_cons.1 hc with rfl | hc
        · exact Or.inl hd
        · exact h2 c' hc
      · have hstep : readExpDigits (c :: cs) e us = (e, us, c :: cs) := by
          rw [readExpDigits]
          simp only [hu, hd, if_false]
        rw [hstep]
        exact ⟨[], by simp, by simp⟩

theorem underscoreScan_after (hex : Bool) (rest : List Char)
    (h : underscoreScan hex rest '_' = true) :
    ∃ d ∈ rest.head?, IsDigit d ∨ (hex = true ∧ IsHexLetter d) := by
  cases rest with
  | nil => simp [underscoreScan] at h
  | cons d r =>
    refine ⟨d, rfl, ?_⟩
    unfold underscoreScan at h
    by_cases hd : ('0' ≤ d ∧ d ≤ '9') ∨ (hex = true ∧ 'a'.toNat ≤ lower d ∧ lower d ≤ 'f'.toNat)
    · rcases hd with hd | ⟨hx, hd⟩
      · exact Or.inl hd
      · exact Or.inr ⟨hx, lower_hex_letter d hd⟩
    · rw [if_neg hd] at h
      by_cases hu : d = '_'
      · rw [if_pos hu] at h
        simp at h
      · rw [if_neg hu] at h
        simp at h

theorem underscore_not_digit (hex : Bool) :
    ¬ (('0' ≤ '_' ∧ '_' ≤ '9') ∨
      (hex = true ∧ 'a'.toNat ≤ lower '_' ∧ lower '_' ≤ 'f'.toNat)) := by
  rintro (h | ⟨_, h⟩)
  · exact absurd h (by decide)
  · exact absurd h (by decide)

/-- What `underscoreScan` checks: an underscore at the start needs the scan to come from a
digit, every other underscore has a digit right before it, and every underscore has a
digit right after it. -/
theorem underscoreScan_sound (hex : Bool) (cs : List Char) :
    ∀ (saw : Char), underscoreScan hex cs saw = true →
      ∀ pre post : List Char, cs = pre ++ '_' :: post →
        (pre = [] → saw = '0') ∧
          (∀ d ∈ pre.getLast?, IsDigit d ∨ (hex = true ∧ IsHexLetter d)) ∧
          (∃ d ∈ post.head?, IsDigit d ∨ (hex = true ∧ IsHexLetter d)) := by
  induction cs with
  | nil =>
    intro saw _ pre post hcs
    exact absurd hcs (by simp)
  | cons c rest ih =>
    intro saw h pre post hcs
    cases pre with
    | nil =>
      rw [List.nil_append] at hcs
      obtain ⟨hc, hrest⟩ := List.cons.inj hcs
      subst hc
      unfold underscoreScan at h
      rw [if_neg (underscore_not_digit hex), if_pos rfl] at h
      by_cases hs : saw = '0'
      · rw [if_neg (fun hne => hne hs)] at h
        rw [← hrest]
        exact ⟨fun _ => hs, fun d hd => by simp at hd, underscoreScan_after hex rest h⟩
      · rw [if_pos hs] at h
        exact absurd h (by simp)
    | cons p pre' =>
      rw [List.cons_append] at hcs
      obtain ⟨hc, hrest⟩ := List.cons.inj hcs
      subst hc
      have hlast : ∀ (saw' : Char), underscoreScan hex rest saw' = true →
          (saw' = '0' → IsDigit c ∨ (hex = true ∧ IsHexLetter c)) →
          (c :: pre' = [] → saw = '0') ∧
            (∀ d ∈ (c :: pre').getLast?, IsDigit d ∨ (hex = true ∧ IsHexLetter d)) ∧
            (∃ d ∈ post.head?, IsDigit d ∨ (hex = true ∧ IsHexLetter d)) := by
        intro saw' hscan hdig
        obtain ⟨k1, k2, k3⟩ := ih saw' hscan pre' post hrest
        refine ⟨fun e => absurd e (by simp), ?_, k3⟩
        cases pre' with
        | nil =>
          intro d hd
          have : d = c := by simpa using hd.symm
          rw [this]
          exact hdig (k1 rfl)
        | cons q pre'' =>
          intro d hd
          rw [List.getLast?_cons_cons] at hd
          exact k2 d hd
      unfold underscoreScan at h
      by_cases hd : ('0' ≤ c ∧ c ≤ '9') ∨
          (hex = true ∧ 'a'.toNat ≤ lower c ∧ lower c ≤ 'f'.toNat)
      · rw [if_pos hd] at h
        refine hlast '0' h (fun _ => ?_)
        rcases hd with hd | ⟨hx, hd⟩
        · exact Or.inl hd
        · exact Or.inr ⟨hx, lower_hex_letter c hd⟩
      · rw [if_neg hd] at h
        by_cases hu : c = '_'
        · rw [if_pos hu] at h
          by_cases hs : saw = '0'
          · rw [if_neg (fun hne => hne hs)] at h
            exact hlast '_' h (fun e => absurd e (by decide))
          · rw [if_pos hs] at h
            exact absurd h (by simp)
        · rw [if_neg hu] at h
          by_cases hs : saw = '_'
          · rw [if_pos hs] at h
            exact absurd h (by simp)
          · rw [if_neg hs] at h
            exact hlast '!' h (fun e => absurd e (by decide))

theorem separatesDigits_of_no_underscore (dig : Char → Prop) (cs : List Char)
    (h : '_' ∉ cs) : SeparatesDigits dig cs := by
  intro pre post hcs
  exact absurd (by rw [hcs]; simp) h

theorem readMantissa_underscores (hex : Bool) (cs : List Char) (st : MantState) :
    ∃ body : List Char,
      cs = body ++ (readMantissa hex cs st).2 ∧
      ((readMantissa hex cs st).1.underscores = false →
        st.underscores = false ∧ '_' ∉ body) := by
  induction cs generalizing st with
  | nil => exact ⟨[], by simp [readMantissa], fun h => ⟨by simpa [readMantissa] using h, by simp⟩⟩
  | cons c cs ih =>
    by_cases hu : c = '_'
    · subst hu
      obtain ⟨body, h1, h2⟩ := ih { st with underscores := true }
      have hstep : readMantissa hex ('_' :: cs) st =
          readMantissa hex cs { st with underscores := true } := by
        rw [readMantissa]
        simp
      rw [hstep]
      exact ⟨'_' :: body, by rw [List.cons_append, ← h1],
        fun hf => absurd (h2 hf).1 (by simp)⟩
    · have hne : ∀ body : List Char, '_' ∉ body → '_' ∉ c :: body := by
        intro body hb hmem
        rcases List.mem_cons.1 hmem with h | h
        · exact hu h.symm
        · exact hb h
      by_cases hdot : c = '.'
      · by_cases hsd : st.sawdot = true
        · have hstep : readMantissa hex (c :: cs) st = (st, c :: cs) := by
            rw [readMantissa]
            simp [hu, hdot, hsd]
          rw [hstep]
          exact ⟨[], by simp, fun hf => ⟨hf, by simp⟩⟩
        · obtain ⟨body, h1, h2⟩ := ih { st with sawdot := true, dp := st.nd }
          have hstep : readMantissa hex (c :: cs) st =
              readMantissa hex cs { st with sawdot := true, dp := st.nd } := by
            rw [readMantissa]
            simp [hu, hdot, hsd]
          rw [hstep]
          exact ⟨c :: body, by rw [List.cons_append, ← h1],
            fun hf => ⟨(h2 hf).1, hne body (h2 hf).2⟩⟩
      · by_cases hd : '0' ≤ c ∧ c ≤ '9'
        · have hgen : ∃ st', readMantissa hex (c :: cs) st = readMantissa hex cs st' ∧
              st'.underscores = st.underscores := by
            by_cases hz : c = '0' ∧ st.nd = 0
            · refine ⟨{ st with sawdigits := true, dp := st.dp - 1 }, ?_, rfl⟩
              rw [readMantissa]
              simp [hu, hdot, hd, hz]
            · refine ⟨{ st with
                  sawdigits := true, nd := st.nd + 1,
                  mantissa := st.mantissa * (if hex then 16 else 10) + (c.toNat - '0'.toNat) },
                ?_, rfl⟩
              rw [readMantissa]
              simp only [hu, hdot, hd, hz, if_false, if_true, and_self]
          obtain ⟨st', hstep, hus⟩ := hgen
          obtain ⟨body, h1, h2⟩ := ih st'
          rw [hstep]
          exact ⟨c :: body, by rw [List.cons_append, ← h1],
            fun hf => ⟨hus ▸ (h2 hf).1, hne body (h2 hf).2⟩⟩
        · by_cases hh : hex = true ∧ 'a'.toNat ≤ lower c ∧ lower c ≤ 'f'.toNat
          · obtain ⟨body, h1, h2⟩ := ih { st with
              sawdigits := true, nd := st.nd + 1,
              mantissa := st.mantissa * 16 + (lower c - 'a'.toNat + 10) }
            have hstep : readMantissa hex (c :: cs) st = readMantissa hex cs { st with
                sawdigits := true, nd := st.nd + 1,
                mantissa := st.mantissa * 16 + (lower c - 'a'.toNat + 10) } := by
              rw [readMantissa]
              simp only [hu, hdot, hd, hh, if_false, if_true, and_self]
            rw [hstep]
            exact ⟨c :: body, by rw [List.cons_append, ← h1],
              fun hf => ⟨(h2 hf).1, hne body (h2 hf).2⟩⟩
          · have hstep : readMantissa hex (c :: cs) st = (st, c :: cs) := by
              rw [readMantissa]
              simp only [hu, hdot, hd, hh, if_false]
            rw [hstep]
            exact ⟨[], by simp, fun hf => ⟨hf, by simp⟩⟩

theorem readExpDigits_underscores (cs : List Char) (e : Nat) (us : Bool) :
    ∃ ds : List Char, cs = ds ++ (readExpDigits cs e us).2.2 ∧
      ((readExpDigits cs e us).2.1 = false → us = false ∧ '_' ∉ ds) := by
  induction cs generalizing e us with
  | nil => exact ⟨[], by simp [readExpDigits], fun h => ⟨by simpa [readExpDigits] using h, by simp⟩⟩
  | cons c cs ih =>
    by_cases hu : c = '_'
    · obtain ⟨ds, h1, h2⟩ := ih e true
      have hstep : readExpDigits (c :: cs) e us = readExpDigits cs e true := by
        rw [readExpDigits]
        simp [hu]
      rw [hstep]
      exact ⟨c :: ds, by rw [List.cons_append, ← h1], fun hf => absurd (h2 hf).1 (by simp)⟩
    · by_cases hd : '0' ≤ c ∧ c ≤ '9'
      · obtain ⟨ds, h1, h2⟩ :=
          ih (if e < 10000 then e * 10 + (c.toNat - '0'.toNat) else e) us
        have hstep : readExpDigits (c :: cs) e us =
            readExpDigits cs (if e < 10000 then e * 10 + (c.toNat - '0'.toNat) else e) us := by
          rw [readExpDigits]
          simp only [hu, hd, if_false, if_true, and_self]
        rw [hstep]
        refine ⟨c :: ds, by rw [List.cons_append, ← h1], fun hf => ⟨(h2 hf).1, ?_⟩⟩
        intro hmem
        rcases List.mem_cons.1 hmem with h | h
        · exact hu h.symm
        · exact (h2 hf).2 h
      · have hstep : readExpDigits (c :: cs) e us = (e, us, c :: cs) := by
          rw [readExpDigits]
          simp only [hu, hd, if_false]
        rw [hstep]
        exact ⟨[], by simp, fun hf => ⟨hf, by simp⟩⟩

theorem not_of_ite_none {α : Type} {p : Prop} [Decidable p] {a r : α}
    (h : (if p then none else some a) = some r) : ¬ p := by
  intro hp
  rw [if_pos hp] at h
  exact absurd h (by simp)

theorem underscores_of_check (s : List Char) (us : Bool) (rest : List Char) (hr : rest = [])
    (h : ¬ (us = true ∧ underscoreOK (s.take (s.length - rest.length)) = false)) :
    us = false ∨ underscoreOK s = true := by
  subst hr
  rw [List.length_nil, Nat.sub_zero, List.take_length] at h
  cases us with
  | false => exact Or.inl rfl
  | true =>
    right
    cases hk : underscoreOK s with
    | true => rfl
    | false => exact absurd ⟨rfl, hk⟩ h

theorem lower_digit_not_base (c : Char) (h : IsDigit c) :
    ¬ (lower c = 'b'.toNat ∨ lower c = 'o'.toNat ∨ lower c = 'x'.toNat) := by
  have h1 : 48 ≤ c.toNat := h.1
  have h2 : c.toNat ≤ 57 := h.2
  have key : ∀ n : Nat, n ≤ 57 → 48 ≤ n →
      ¬ (n ||| 32 = 98 ∨ n ||| 32 = 111 ∨ n ||| 32 = 120) := by decide
  exact key c.toNat h2 h1

theorem underscoreOK_of_decimal_start (sg : List Char) (c0 : Char) (t : List Char)
    (hsg : IsSign sg) (hp : c0 ≠ '+') (hm : c0 ≠ '-')
    (hb : ∀ c1 cs, t = c1 :: cs →
      ¬ (c0 = '0' ∧ (lower c1 = 'b'.toNat ∨ lower c1 = 'o'.toNat ∨ lower c1 = 'x'.toNat))) :
    underscoreOK (sg ++ c0 :: t) = underscoreScan false (c0 :: t) '^' := by
  have hcore : (match (c0 :: t : List Char) with
      | c0 :: c1 :: cs =>
        if c0 = '0' ∧ (lower c1 = 'b'.toNat ∨ lower c1 = 'o'.toNat ∨ lower c1 = 'x'.toNat) then
          underscoreScan (decide (lower c1 = 'x'.toNat)) cs '0'
        else underscoreScan false (c0 :: c1 :: cs) '^'
      | cs => underscoreScan false cs '^') = underscoreScan false (c0 :: t) '^' := by
    cases t with
    | nil => rfl
    | cons c1 cs =>
      simp only
      rw [if_neg (hb c1 cs rfl)]
  rcases hsg with rfl | rfl | rfl
  · unfold underscoreOK
    simp only [List.nil_append]
    rw [if_neg (by rintro (h | h); exact hm h; exact hp h)]
    exact hcore
  · unfold underscoreOK
    simp only [List.cons_append, List.nil_append, or_true, if_true]
    exact hcore
  · unfold underscoreOK
    simp only [List.cons_append, List.nil_append, true_or, if_true]
    exact hcore

theorem underscoreOK_of_hex_start (sg : List Char) (x : Char) (t : List Char)
    (hsg : IsSign sg) (hx : lower x = 'x'.toNat) :
    underscoreOK (sg ++ '0' :: x :: t) = underscoreScan true t '0' := by
  have hfin : (if True ∧ (lower x = 'b'.toNat ∨ lower x = 'o'.toNat ∨ lower x = 'x'.toNat) then
        underscoreScan (decide (lower x = 'x'.toNat)) t '0'
      else underscoreScan false ('0' :: x :: t) '^') = underscoreScan true t '0' := by
    rw [if_pos ⟨trivial, Or.inr (Or.inr hx)⟩]
    simp only [hx, decide_True]
  rcases hsg with rfl | rfl | rfl
  · unfold underscoreOK
    simp only [List.nil_append]
    rw [if_neg (by decide)]
    simp only [true_and]
    simpa only [true_and] using hfin
  · unfold underscoreOK
    simp only [List.cons_append, List.nil_append, or_true, if_true]
    exact hfin
  · unfold underscoreOK
    simp only [List.cons_append, List.nil_append, true_or, if_true]
    exact hfin

theorem separatesDigits_decimal (sg body ex : List Char) (hsg : IsSign sg)
    (hb : ∀ c ∈ body, IsDigit c ∨ c = '.' ∨ c = '_') (hd : ∃ c ∈ body, IsDigit c)
    (hex : ex = [] ∨ IsExponent ['e', 'E'] ex)
    (h : underscoreOK (sg ++ body ++ ex) = true) : SeparatesDigits IsDigit (body ++ ex) := by
  have hclass : ∀ c, (IsDigit c ∨ c = '.' ∨ c = '_') →
      c ≠ '+' ∧ c ≠ '-' ∧
        ¬ (lower c = 'b'.toNat ∨ lower c = 'o'.toNat ∨ lower c = 'x'.toNat) := by
    intro c hc
    rcases hc with hc | rfl | rfl
    · refine ⟨?_, ?_, lower_digit_not_base c hc⟩
      · intro e
        rw [e] at hc
        exact absurd hc (by decide)
      · intro e
        rw [e] at hc
        exact absurd hc (by decide)
    · exact ⟨by decide, by decide, by decide⟩
    · exact ⟨by decide, by decide, by decide⟩
  cases body with
  | nil =>
    obtain ⟨c, hc, _⟩ := hd
    simp at hc
  | cons c0 body' =>
    obtain ⟨hp, hm, _⟩ := hclass c0 (hb c0 (List.mem_cons_self _ _))
    have hsecond : ∀ c1 cs, body' ++ ex = c1 :: cs →
        ¬ (c0 = '0' ∧
          (lower c1 = 'b'.toNat ∨ lower c1 = 'o'.toNat ∨ lower c1 = 'x'.toNat)) := by
      intro c1 cs ht hcon
      cases body' with
      | nil =>
        rw [List.nil_append] at ht
        rcases hex with hex | ⟨e, esg, d, rest, hexeq, he, _⟩
        · rw [hex] at ht
          exact absurd ht (by simp)
        · rw [hexeq] at ht
          have hce : c1 = e := (List.cons.inj ht).1.symm
          rw [hce] at hcon
          have he' : e = 'e' ∨ e = 'E' := by simpa using he
          rcases he' with rfl | rfl
          · exact absurd hcon.2 (by decide)
          · exact absurd hcon.2 (by decide)
      | cons b body'' =>
        rw [List.cons_append] at ht
        have hcb : c1 = b := (List.cons.inj ht).1.symm
        rw [hcb] at hcon
        exact (hclass b (hb b (by simp))).2.2 hcon.2
    rw [List.append_assoc, List.cons_append,
      underscoreOK_of_decimal_start sg c0 (body' ++ ex) hsg hp hm hsecond] at h
    intro pre post hcs
    rw [List.cons_append] at hcs
    obtain ⟨k1, k2, k3⟩ := underscoreScan_sound false _ '^' h pre post hcs
    constructor
    · cases hgl : pre.getLast? with
      | none =>
        have hnil : pre = [] := by
          cases pre with
          | nil => rfl
          | cons a l => simp [List.getLast?_cons] at hgl
        exact absurd (k1 hnil) (by decide)
      | some d =>
        rcases k2 d hgl with hdg | ⟨hf, _⟩
        · exact ⟨d, rfl, hdg⟩
        · exact absurd hf (by decide)
    · obtain ⟨d, hdm, hdd⟩ := k3
      rcases hdd with hdg | ⟨hf, _⟩
      · exact ⟨d, hdm, hdg⟩
      · exact absurd hf (by decide)

theorem separatesDigits_hex (sg : List Char) (x : Char) (t : List Char) (hsg : IsSign sg)
    (hx : lower x = 'x'.toNat) (h : underscoreOK (sg ++ '0' :: x :: t) = true) :
    SeparatesDigits (fun c => IsDigit c ∨ IsHexLetter c) ('0' :: t) := by
  rw [underscoreOK_of_hex_start sg x t hsg hx] at h
  intro pre post hcs
  cases pre with
  | nil =>
    rw [List.nil_append] at hcs
    exact absurd (List.cons.inj hcs).1 (by decide)
  | cons p pre' =>
    rw [List.cons_append] at hcs
    obtain ⟨hp, ht⟩ := List.cons.inj hcs
    obtain ⟨_, k2, k3⟩ := underscoreScan_sound true t '0' h pre' post ht
    have hstrip : ∀ d, (IsDigit d ∨ (true = true ∧ IsHexLetter d)) →
        IsDigit d ∨ IsHexLetter d := by
      rintro d (hd | ⟨_, hd⟩)
      · exact Or.inl hd
      · exact Or.inr hd
    constructor
    · cases pre' with
      | nil =>
        refine ⟨p, rfl, Or.inl ?_⟩
        rw [← hp]
        decide
      | cons q pre'' =>
        cases hgl : (q :: pre'').getLast? with
        | none => simp [List.getLast?_cons] at hgl
        | some d =>
          refine ⟨d, ?_, hstrip d (k2 d hgl)⟩
          rw [List.getLast?_cons_cons]
          exact hgl
    · obtain ⟨d, hdm, hdd⟩ := k3
      exact ⟨d, hdm, hstrip d hdd⟩

theorem some_of_ite_none {α : Type} {p : Prop} [Decidable p] {a r : α}
    (h : (if p then none else some a) = some r) : a = r := by
  split_ifs at h
  exact Option.some.inj h

theorem expDigits_flag (s ds : List Char) (us0 : Bool)
    (hrest : (readExpDigits ds 0 us0).2.2 = [])
    (hnp : ¬ ((readExpDigits ds 0 us0).2.1 = true ∧
      underscoreOK (s.take (s.length - (readExpDigits ds 0 us0).2.2.length)) = false)) :
    (us0 = false ∧ '_' ∉ ds) ∨ underscoreOK s = true := by
  rcases underscores_of_check s _ _ hrest hnp with hf | hk
  · obtain ⟨ds', h1, h2⟩ := readExpDigits_underscores ds 0 us0
    rw [hrest, List.append_nil] at h1
    obtain ⟨ha, hb⟩ := h2 hf
    exact Or.inl ⟨ha, h1 ▸ hb⟩
  · exact Or.inr hk

theorem mark_ne_underscore (hex : Bool) (c : Char)
    (hc : c ∈ (if hex = true then ['p', 'P'] else ['e', 'E'])) : c ≠ '_' := by
  intro e
  rw [e] at hc
  cases hex with
  | true => exact absurd hc (by decide)
  | false => exact absurd hc (by decide)

theorem readFloatTail_sound (s : List Char) (neg hex : Bool) (st : MantState)
    (rest : List Char) (r : ReadFloat) (h : readFloatTail s neg hex st rest = some r)
    (hr : r.rest = []) :
    st.sawdigits = true ∧ r.hex = hex ∧
      ((rest = [] ∧ hex = false) ∨
        IsExponent (if hex then ['p', 'P'] else ['e', 'E']) rest) ∧
      ((st.underscores = false ∧ '_' ∉ rest) ∨ underscoreOK s = true) := by
  unfold readFloatTail at h
  by_cases hsd : st.sawdigits = false
  · simp [hsd] at h
  · have hsd' : st.sawdigits = true := by simpa using hsd
    simp only [hsd, if_false] at h
    refine ⟨hsd', ?_⟩
    cases rest with
    | nil =>
      cases hex with
      | true => simp at h
      | false =>
        simp only [Bool.false_eq_true, if_false] at h
        have hq := some_of_ite_none h
        refine ⟨(congrArg ReadFloat.hex hq).symm, Or.inl ⟨rfl, rfl⟩, ?_⟩
        rcases underscores_of_check s st.underscores [] rfl (not_of_ite_none h) with hf | hk
        · exact Or.inl ⟨hf, by simp⟩
        · exact Or.inr hk
    | cons c rs =>
      simp only at h
      by_cases hmark : lower c = (if hex = true then 'p'.toNat else 'e'.toNat)
      · simp only [hmark, if_true] at h
        have hc : c ∈ (if hex then ['p', 'P'] else ['e', 'E']) := by
          cases hex with
          | true =>
            simp only [if_true] at hmark ⊢
            rcases lower_eq_p c hmark with h1 | h1 <;> simp [h1]
          | false =>
            simp only [Bool.false_eq_true, if_false] at hmark ⊢
            rcases lower_eq_e c hmark with h1 | h1 <;> simp [h1]
        cases rs with
        | nil => simp at h
        | cons c1 r1 =>
          simp only at h
          by_cases hsg : c1 = '+' ∨ c1 = '-'
          · simp only [hsg, if_true] at h
            cases r1 with
            | nil => simp at h
            | cons c2 r3 =>
              simp only at h
              by_cases hnd : c2 < '0' ∨ '9' < c2
              · simp [hnd] at h
              · simp only [hnd, if_false] at h
                have hq := some_of_ite_none h
                have hrest : (readExpDigits (c2 :: r3) 0 st.underscores).2.2 = r.rest :=
                  congrArg ReadFloat.rest hq
                rw [hr] at hrest
                obtain ⟨ds, hds, hall⟩ := readExpDigits_sound (c2 :: r3) 0 st.underscores
                rw [hrest, List.append_nil] at hds
                refine ⟨(congrArg ReadFloat.hex hq).symm,
                  Or.inr ⟨c, [c1], c2, r3, rfl, hc, ?_, ?_, ?_⟩, ?_⟩
                · rcases hsg with h1 | h1
                  · exact Or.inr (Or.inl (by rw [h1]))
                  · exact Or.inr (Or.inr (by rw [h1]))
                · simp only [not_or, not_lt] at hnd
                  exact hnd
                · intro c' hc'
                  exact hall c' (hds ▸ List.mem_cons_of_mem _ hc')
                · rcases expDigits_flag s (c2 :: r3) st.underscores hrest
                    (not_of_ite_none h) with ⟨hf, hno⟩ | hk
                  · refine Or.inl ⟨hf, ?_⟩
                    intro hmem
                    rcases List.mem_cons.1 hmem with e1 | hmem
                    · exact mark_ne_underscore hex c hc e1.symm
                    · rcases List.mem_cons.1 hmem with e2 | hmem
                      · rcases hsg with h1 | h1
                        · rw [h1] at e2
                          exact absurd e2 (by decide)
                        · rw [h1] at e2
                          exact absurd e2 (by decide)
                      · exact hno hmem
                  · exact Or.inr hk
          · simp only [hsg, if_false] at h
            by_cases hnd : c1 < '0' ∨ '9' < c1
            · simp [hnd] at h
            · simp only [hnd, if_false] at h
              have hq := some_of_ite_none h
              have hrest : (readExpDigits (c1 :: r1) 0 st.underscores).2.2 = r.rest :=
                congrArg ReadFloat.rest hq
              rw [hr] at hrest
              obtain ⟨ds, hds, hall⟩ := readExpDigits_sound (c1 :: r1) 0 st.underscores
              rw [hrest, List.append_nil] at hds
              refine ⟨(congrArg ReadFloat.hex hq).symm,
                Or.inr ⟨c, [], c1, r1, rfl, hc, Or.inl rfl, ?_, ?_⟩, ?_⟩
              · simp only [not_or, not_lt] at hnd
                exact hnd
              · intro c' hc'
                exact hall c' (hds ▸ List.mem_cons_of_mem _ hc')
              · rcases expDigits_flag s (c1 :: r1) st.underscores hrest
                  (not_of_ite_none h) with ⟨hf, hno⟩ | hk
                · refine Or.inl ⟨hf, ?_⟩
                  intro hmem
                  rcases List.mem_cons.1 hmem with e1 | hmem
                  · exact mark_ne_underscore hex c hc e1.symm
                  · exact hno hmem
                · exact Or.inr hk
      · simp only [hmark, if_false] at h
        cases hex with
        | true => simp at h
        | false =>
          simp only [Bool.false_eq_true, if_false] at h
          have hq := some_of_ite_none h
          have hrest : c :: rs = r.rest := congrArg ReadFloat.rest hq
          rw [hr] at hrest
          exact absurd hrest (List.cons_ne_nil _ _)

theorem readFloat_decimal_sound (s sg s1 : List Char) (neg : Bool) (r : ReadFloat)
    (hs : s = sg ++ s1) (hsg : IsSign sg)
    (h : readFloatTail s neg false (readMantissa false s1 ⟨0, 0, 0, false, false, false⟩).1
      (readMantissa false s1 ⟨0, 0, 0, false, false, false⟩).2 = some r)
    (hr : r.rest = []) :
    ∃ body ex : List Char,
      s = sg ++ body ++ ex ∧ IsSign sg ∧
        (∀ c ∈ body, IsDigit c ∨ c = '.' ∨ c = '_') ∧ (∃ c ∈ body, IsDigit c) ∧
        body.count '.' ≤ 1 ∧ (ex = [] ∨ IsExponent ['e', 'E'] ex) ∧
        SeparatesDigits IsDigit (body ++ ex) := by
  obtain ⟨body, h1, h2, h3, h4, _⟩ :=
    readMantissa_sound false s1 ⟨0, 0, 0, false, false, false⟩
  obtain ⟨k1, _, k3, k4⟩ := readFloatTail_sound s neg false _ _ r h hr
  have hbody : ∀ c ∈ body, IsDigit c ∨ c = '.' ∨ c = '_' := by
    intro c hc
    rcases h2 c hc with hd | hd | hd
    · exact Or.inl hd
    · exact absurd hd.1 (by simp)
    · exact Or.inr hd
  have hdigit : ∃ c ∈ body, IsDigit c := by
    rcases h3 k1 with hd | ⟨c, hc, hd⟩
    · simp at hd
    · rcases hd with hd | hd
      · exact ⟨c, hc, hd⟩
      · exact absurd hd.1 (by simp)
  have hexp : (readMantissa false s1 ⟨0, 0, 0, false, false, false⟩).2 = [] ∨
      IsExponent ['e', 'E'] (readMantissa false s1 ⟨0, 0, 0, false, false, false⟩).2 := by
    rcases k3 with ⟨k, _⟩ | k
    · exact Or.inl k
    · exact Or.inr (by simpa using k)
  have hseq : s = sg ++ body ++ (readMantissa false s1 ⟨0, 0, 0, false, false, false⟩).2 := by
    rw [List.append_assoc, ← h1, hs]
  refine ⟨body, (readMantissa false s1 ⟨0, 0, 0, false, false, false⟩).2, hseq, hsg, hbody,
    hdigit, h4, hexp, ?_⟩
  rcases k4 with ⟨hf, hno⟩ | hk
  · obtain ⟨body', e1, e2⟩ :=
      readMantissa_underscores false s1 ⟨0, 0, 0, false, false, false⟩
    have hbb : body' = body := List.append_cancel_right (e1.symm.trans h1)
    apply separatesDigits_of_no_underscore
    intro hmem
    rcases List.mem_append.1 hmem with hm | hm
    · exact (e2 hf).2 (hbb ▸ hm)
    · exact hno hm
  · rw [hseq] at hk
    exact separatesDigits_decimal sg body _ hsg hbody hdigit hexp hk

theorem readFloat_hex_sound (s sg rest : List Char) (x : Char) (neg : Bool) (r : ReadFloat)
    (hs : s = sg ++ '0' :: x :: rest) (hsg : IsSign sg) (hx : lower x = 'x'.toNat)
    (h : readFloatTail s neg true (readMantissa true rest ⟨0, 0, 0, false, false, false⟩).1
      (readMantissa true rest ⟨0, 0, 0, false, false, false⟩).2 = some r)
    (hr : r.rest = []) :
    ∃ (body ex : List Char),
      s = sg ++ '0' :: x :: (body ++ ex) ∧ IsSign sg ∧ (x = 'x' ∨ x = 'X') ∧
        (∀ c ∈ body, IsDigit c ∨ IsHexLetter c ∨ c = '.' ∨ c = '_') ∧
        (∃ c ∈ body, IsDigit c ∨ IsHexLetter c) ∧
        body.count '.' ≤ 1 ∧ IsExponent ['p', 'P'] ex ∧
        SeparatesDigits (fun c => IsDigit c ∨ IsHexLetter c) ('0' :: (body ++ ex)) := by
  obtain ⟨body, h1, h2, h3, h4, _⟩ :=
    readMantissa_sound true rest ⟨0, 0, 0, false, false, false⟩
  obtain ⟨k1, _, k3, k4⟩ := readFloatTail_sound s neg true _ _ r h hr
  have hund : SeparatesDigits (fun c => IsDigit c ∨ IsHexLetter c)
      ('0' :: (body ++ (readMantissa true rest ⟨0, 0, 0, false, false, false⟩).2)) := by
    rcases k4 with ⟨hf, hno⟩ | hk
    · obtain ⟨body', e1, e2⟩ :=
        readMantissa_underscores true rest ⟨0, 0, 0, false, false, false⟩
      have hbb : body' = body := List.append_cancel_right (e1.symm.trans h1)
      apply separatesDigits_of_no_underscore
      intro hmem
      rcases List.mem_cons.1 hmem with hm | hm
      · exact absurd hm (by decide)
      · rcases List.mem_append.1 hm with hm | hm
        · exact (e2 hf).2 (hbb ▸ hm)
        · exact hno hm
    · rw [hs] at hk
      rw [← h1]
      exact separatesDigits_hex sg x rest hsg hx hk
  refine ⟨body, (readMantissa true rest ⟨0, 0, 0, false, false, false⟩).2, ?_, hsg,
    lower_eq_x x hx, ?_, ?_, h4, ?_, hund⟩
  · rw [← h1, hs]
  · intro c hc
    rcases h2 c hc with hd | hd | hd
    · exact Or.inl hd
    · exact Or.inr (Or.inl hd.2)
    · exact Or.inr (Or.inr hd)
  · rcases h3 k1 with hd | ⟨c, hc, hd⟩
    · simp at hd
    · rcases hd with hd | hd
      · exact ⟨c, hc, Or.inl hd⟩
      · exact ⟨c, hc, Or.inr hd.2⟩
  · rcases k3 with ⟨_, k⟩ | k
    · simp at k
    · simpa using k

theorem readFloatUnsigned_sound (s sg s1 : List Char) (neg : Bool) (r : ReadFloat)
    (hs : s = sg ++ s1) (hsg : IsSign sg) (h : readFloatUnsigned s neg s1 = some r)
    (hr : r.rest = []) :
    (∃ body ex : List Char,
      s = sg ++ body ++ ex ∧ IsSign sg ∧
        (∀ c ∈ body, IsDigit c ∨ c = '.' ∨ c = '_') ∧ (∃ c ∈ body, IsDigit c) ∧
        body.count '.' ≤ 1 ∧ (ex = [] ∨ IsExponent ['e', 'E'] ex) ∧
        SeparatesDigits IsDigit (body ++ ex)) ∨
    (∃ (x : Char) (body ex : List Char),
      s = sg ++ '0' :: x :: (body ++ ex) ∧ IsSign sg ∧ (x = 'x' ∨ x = 'X') ∧
        (∀ c ∈ body, IsDigit c ∨ IsHexLetter c ∨ c = '.' ∨ c = '_') ∧
        (∃ c ∈ body, IsDigit c ∨ IsHexLetter c) ∧
        body.count '.' ≤ 1 ∧ IsExponent ['p', 'P'] ex ∧
        SeparatesDigits (fun c => IsDigit c ∨ IsHexLetter c) ('0' :: (body ++ ex))) := by
  rcases s1 with _ | ⟨c0, _ | ⟨c1, _ | ⟨c2, rr⟩⟩⟩
  · exact Or.inl (readFloat_decimal_sound s sg _ neg r hs hsg h hr)
  · exact Or.inl (readFloat_decimal_sound s sg _ neg r hs hsg h hr)
  · exact Or.inl (readFloat_decimal_sound s sg _ neg r hs hsg h hr)
  · simp only [readFloatUnsigned] at h
    by_cases hx : c0 = '0' ∧ lower c1 = 'x'.toNat
    · rw [if_pos hx] at h
      right
      obtain ⟨body, ex, k⟩ := readFloat_hex_sound s sg (c2 :: rr) c1 neg r
        (by rw [hs, hx.1]) hsg hx.2 h hr
      exact ⟨c1, body, ex, k⟩
    · rw [if_neg hx] at h
      exact Or.inl (readFloat_decimal_sound s sg _ neg r hs hsg h hr)

theorem readFloat_sound (s : String) (r : ReadFloat) (h : readFloat s.data = some r)
    (hr : r.rest = []) : IsGoDecimal s ∨ IsGoHexFloat s := by
  have key : ∀ (sg s1 : List Char) (neg : Bool), s.data = sg ++ s1 → IsSign sg →
      readFloatUnsigned s.data neg s1 = some r → IsGoDecimal s ∨ IsGoHexFloat s := by
    intro sg s1 neg hs hsg h'
    rcases readFloatUnsigned_sound s.data sg s1 neg r hs hsg h' hr with
      ⟨body, ex, k⟩ | ⟨x, body, ex, k⟩
    · exact Or.inl ⟨sg, body, ex, k⟩
    · exact Or.inr ⟨sg, x, body, ex, k⟩
  cases hdata : s.data with
  | nil =>
    rw [hdata] at h
    simp [readFloat] at h
  | cons c cs =>
    rw [hdata] at h key
    unfold readFloat at h
    simp only at h
    by_cases hp : c = '+'
    · rw [if_pos hp] at h
      exact key [c] cs _ rfl (Or.inr (Or.inl (by rw [hp]))) h
    · rw [if_neg hp] at h
      by_cases hm : c = '-'
      · rw [if_pos hm] at h
        exact key [c] cs _ rfl (Or.inr (Or.inr (by rw [hm]))) h
      · rw [if_neg hm] at h
        exact key [] (c :: cs) _ rfl (Or.inl rfl) h

theorem commonPrefixLen_le (cs p : List Char) :
    commonPrefixLenIgnoreCase cs p ≤ cs.length := by
  induction cs generalizing p with
  | nil => simp [commonPrefixLenIgnoreCase]
  | cons c cs ih =>
    cases p with
    | nil => simp [commonPrefixLenIgnoreCase]
    | cons q qs =>
      simp only [commonPrefixLenIgnoreCase]
      by_cases hc : (if 'A' ≤ c ∧ c ≤ 'Z' then Char.ofNat (c.toNat + 32) else c) ≠ q
      · rw [if_pos hc]
        exact Nat.zero_le _
      · rw [if_neg hc]
        have := ih qs
        simp only [List.length_cons]
        omega

theorem commonPrefixLen_full (cs p : List Char)
    (h : commonPrefixLenIgnoreCase cs p = cs.length) :
    cs.map asciiLower = p.take cs.length := by
  induction cs generalizing p with
  | nil => simp
  | cons c cs ih =>
    cases p with
    | nil => simp [commonPrefixLenIgnoreCase] at h
    | cons q qs =>
      simp only [commonPrefixLenIgnoreCase] at h
      by_cases hc : (if 'A' ≤ c ∧ c ≤ 'Z' then Char.ofNat (c.toNat + 32) else c) ≠ q
      · rw [if_pos hc] at h
        simp at h
      · rw [if_neg hc] at h
        have hq : asciiLower c = q := by
          simpa [asciiLower] using hc
        have hlen : commonPrefixLenIgnoreCase cs qs = cs.length := by
          simp only [List.length_cons] at h
          omega
        simp only [List.map_cons, List.length_cons, List.take_succ_cons, hq, ih qs hlen]

theorem infinityLen_full (cs : List Char) (h : infinityLen cs = cs.length)
    (h38 : infinityLen cs = 3 ∨ infinityLen cs = 8) :
    cs.map asciiLower = "inf".data ∨ cs.map asciiLower = "infinity".data := by
  have hle := commonPrefixLen_le cs "infinity".data
  unfold infinityLen at h h38
  simp only at h h38
  by_cases hmid : 3 < commonPrefixLenIgnoreCase cs "infinity".data ∧
      commonPrefixLenIgnoreCase cs "infinity".data < 8
  · rw [if_pos hmid] at h
    omega
  · rw [if_neg hmid] at h h38
    have hfull := commonPrefixLen_full cs "infinity".data h
    rcases h38 with h3 | h8
    · left
      rw [hfull, ← h, h3]
      rfl
    · right
      rw [hfull, ← h, h8]
      rfl

theorem special_sound (s : String) (f : Float64) (n : Nat) (h : special s.data = some (f, n))
    (hn : n = s.data.length) : IsSpecialFloat s := by
  cases hdata : s.data with
  | nil =>
    rw [hdata] at h
    simp [special] at h
  | cons c cs =>
    rw [hdata] at h hn
    unfold special at h
    simp only at h
    by_cases hsg : c = '+' ∨ c = '-'
    · rw [if_pos hsg] at h
      by_cases h38 : infinityLen cs = 3 ∨ infinityLen cs = 8
      · rw [if_pos h38] at h
        have hn' : 1 + infinityLen cs = n := by
          have := Option.some.inj h
          exact (Prod.mk.inj this).2
        have hlen : infinityLen cs = cs.length := by
          simp only [List.length_cons] at hn
          omega
        refine Or.inl ⟨[c], cs, by simp [hdata], ?_, infinityLen_full cs hlen h38⟩
        rcases hsg with h1 | h1
        · exact Or.inr (Or.inl (by rw [h1]))
        · exact Or.inr (Or.inr (by rw [h1]))
      · rw [if_neg h38] at h
        simp at h
    · rw [if_neg hsg] at h
      by_cases hi : c = 'i' ∨ c = 'I'
      · rw [if_pos hi] at h
        by_cases h38 : infinityLen (c :: cs) = 3 ∨ infinityLen (c :: cs) = 8
        · rw [if_pos h38] at h
          have hn' : infinityLen (c :: cs) = n := by
            have := Option.some.inj h
            exact (Prod.mk.inj this).2
          refine Or.inl ⟨[], c :: cs, by simp [hdata], Or.inl rfl,
            infinityLen_full (c :: cs) (hn' ▸ hn) h38⟩
        · rw [if_neg h38] at h
          simp at h
      · rw [if_neg hi] at h
        by_cases hnn : c = 'n' ∨ c = 'N'
        · rw [if_pos hnn] at h
          by_cases h3 : commonPrefixLenIgnoreCase (c :: cs) "nan".data = 3
          · rw [if_pos h3] at h
            have hn' : 3 = n := by
              have := Option.some.inj h
              exact (Prod.mk.inj this).2
            have hlen : commonPrefixLenIgnoreCase (c :: cs) "nan".data = (c :: cs).length := by
              rw [h3, ← hn, hn']
            have hfull := commonPrefixLen_full (c :: cs) "nan".data hlen
            right
            rw [hdata, hfull, ← hn, ← hn']
            rfl
          · rw [if_neg h3] at h
            simp at h
        · rw [if_neg hnn] at h
          simp at h

theorem ParseFloat_sound (s : String) (h : (ParseFloat s).2 = none) :
    IsGoDecimal s ∨ IsGoHexFloat s ∨ IsSpecialFloat s := by
  unfold ParseFloat at h
  cases hsp : special s.data with
  | some fn =>
    obtain ⟨f, n⟩ := fn
    rw [hsp] at h
    simp only at h
    by_cases hn : n ≠ s.data.length
    · rw [if_pos hn] at h
      simp at h
    · exact Or.inr (Or.inr (special_sound s f n hsp (not_not.1 hn)))
  | none =>
    rw [hsp] at h
    simp only at h
    cases hrf : readFloat s.data with
    | none =>
      rw [hrf] at h
      simp at h
    | some r =>
      rw [hrf] at h
      simp only at h
      by_cases hrest : r.rest ≠ []
      · rw [if_pos hrest] at h
        simp at h
      · rcases readFloat_sound s r hrf (not_not.1 hrest) with k | k
        · exact Or.inl k
        · exact Or.inr (Or.inl k)

theorem allDigits_count_dot (ds : List Char) (h : AllDigits ds) : ds.count '.' = 0 := by
  rw [List.count_eq_zero]
  intro hmem
  exact absurd (h _ hmem) (by decide)

theorem isGoDecimal_of_isPlainDecimal (s : String) (h : IsPlainDecimal s) : IsGoDecimal s := by
  obtain ⟨sg, int, frac, ex, hs, hsg, hne, hint, hfrac, hex⟩ := h
  refine ⟨sg, int ++ frac, ex, by rw [hs, List.append_assoc sg int frac], hsg, ?_, ?_, ?_, ?_,
    ?_⟩
  · intro c hc
    rcases List.mem_append.1 hc with hc | hc
    · exact Or.inl (hint c hc)
    · rcases hfrac with rfl | ⟨fd, rfl, hfd⟩
      · simp at hc
      · rcases List.mem_cons.1 hc with rfl | hc
        · exact Or.inr (Or.inl rfl)
        · exact Or.inl (hfd c hc)
  · cases int with
    | nil => exact absurd rfl hne
    | cons d ds => exact ⟨d, by simp, hint d (List.mem_cons_self _ _)⟩
  · rw [List.count_append, allDigits_count_dot int hint]
    rcases hfrac with rfl | ⟨fd, rfl, hfd⟩
    · simp
    · rw [List.count_cons_self, allDigits_count_dot fd hfd]
  · rcases hex with rfl | ⟨e, esg, ds, rfl, he, hesg, hds, hall⟩
    · exact Or.inl rfl
    · right
      cases ds with
      | nil => exact absurd rfl hds
      | cons d rest =>
        refine ⟨e, esg, d, rest, rfl, ?_, hesg, hall d (List.mem_cons_self _ _), ?_⟩
        · rcases he with rfl | rfl <;> simp
        · intro c hc
          exact Or.inl (hall c (List.mem_cons_of_mem _ hc))
  · apply separatesDigits_of_no_underscore
    have hdig : ∀ ds : List Char, AllDigits ds → '_' ∉ ds :=
      fun ds hds hmem => absurd (hds _ hmem) (by decide)
    intro hmem
    rcases List.mem_append.1 hmem with hm | hm
    · rcases List.mem_append.1 hm with hm | hm
      · exact hdig int hint hm
      · rcases hfrac with rfl | ⟨fd, rfl, hfd⟩
        · simp at hm
        · rcases List.mem_cons.1 hm with e | hm
          · exact absurd e (by decide)
          · exact hdig fd hfd hm
    · rcases hex with rfl | ⟨e, esg, ds, rfl, he, hesg, _, hall⟩
      · simp at hm
      · rcases List.mem_cons.1 hm with e1 | hm
        · rcases he with rfl | rfl
          · exact absurd e1 (by decide)
          · exact absurd e1 (by decide)
        · rcases List.mem_append.1 hm with hm | hm
          · rcases hesg with rfl | rfl | rfl
            · simp at hm
            · exact absurd hm (by decide)
            · exact absurd hm (by decide)
          · exact hdig ds hall hm

theorem isGoDecimal_misplaced_underscore :
    ¬ IsGoDecimal "_1" ∧ ¬ IsGoDecimal "1_" := by
  have hsign : ∀ (sg t : List Char) (c : Char), IsSign sg → c ≠ '+' → c ≠ '-' →
      ∀ l, c :: l = sg ++ t → t = c :: l := by
    intro sg t c hsg hp hm l h
    rcases hsg with rfl | rfl | rfl
    · exact h.symm
    · exact absurd (List.cons.inj h).1 hp
    · exact absurd (List.cons.inj h).1 hm
  constructor
  · rintro ⟨sg, body, ex, hs, hsg, _, _, _, _, hsep⟩
    rw [List.append_assoc] at hs
    have ht := hsign sg (body ++ ex) '_' hsg (by decide) (by decide) ['1'] hs
    obtain ⟨⟨d, hd, _⟩, _⟩ := hsep [] ['1'] ht
    simp at hd
  · rintro ⟨sg, body, ex, hs, hsg, _, _, _, _, hsep⟩
    rw [List.append_assoc] at hs
    have ht := hsign sg (body ++ ex) '1' hsg (by decide) (by decide) ['_'] hs
    obtain ⟨_, ⟨d, hd, _⟩⟩ := hsep ['1'] [] ht
    simp at hd

theorem isGoDecimal_has_digit (s : String) (h : IsGoDecimal s) : ∃ c ∈ s.data, IsDigit c := by
  obtain ⟨sg, body, ex, hs, _, _, ⟨c, hc, hd⟩, _⟩ := h
  exact ⟨c, by rw [hs]; simp [hc], hd⟩

theorem isGoHexFloat_has_zero (s : String) (h : IsGoHexFloat s) : '0' ∈ s.data := by
  obtain ⟨sg, x, body, ex, hs, _⟩ := h
  rw [hs]
  simp

theorem isSpecialFloat_length (s : String) (h : IsSpecialFloat s) : s.data.length ≤ 9 := by
  rcases h with ⟨sg, name, hs, hsg, hname⟩ | h
  · have h1 : sg.length ≤ 1 := by
      rcases hsg with rfl | rfl | rfl <;> simp
    have h2 : name.length ≤ 8 := by
      rcases hname with h | h
      · have := congrArg List.length h
        rw [List.length_map] at this
        rw [this]
        decide
      · have := congrArg List.length h
        rw [List.length_map] at this
        rw [this]
        decide
    rw [hs, List.length_append]
    omega
  · have := congrArg List.length h
    rw [List.length_map] at this
    rw [this]
    decide

theorem isSpecialFloat_min_length (s : String) (h : IsSpecialFloat s) :
    3 ≤ s.data.length := by
  rcases h with ⟨sg, name, hs, _, hname⟩ | h
  · have h2 : 3 ≤ name.length := by
      rcases hname with h | h
      · have := congrArg List.length h
        rw [List.length_map] at this
        rw [this]
        decide
      · have := congrArg List.length h
        rw [List.length_map] at this
        rw [this]
        decide
    rw [hs, List.length_append]
    omega
  · have := congrArg List.length h
    rw [List.length_map] at this
    rw [this]
    decide

theorem parseMetricValue_of_float_type (s T : String)
    (hT : T = "FLOAT" ∨ T = "PERCENT" ∨ T = "RATING") (hs : s ≠ "") :
    parseMetricValue s T = ParseFloat s := by
  rcases hT with rfl | rfl | rfl <;> simp [parseMetricValue, hs]

/-- C7, as the specification states it, fails: the raw value `NaN` is not empty and is not a
decimal number, and `parseMetricValue` returns the value NaN for it with no error under the
declared type FLOAT. -/
theorem parseMetricValue_float_accepts_nan :
    "NaN" ≠ "" ∧ ¬ IsPlainDecimal "NaN" ∧
      parseMetricValue "NaN" "FLOAT" = (Float64.nan, none) := by
  refine ⟨by decide, ?_, by decide⟩
  intro h
  obtain ⟨c, hc, hd⟩ := isGoDecimal_has_digit _ (isGoDecimal_of_isPlainDecimal _ h)
  have : ∀ c ∈ "NaN".data, ¬ IsDigit c := by decide
  exact this c hc hd

/-- C7, amended: for the declared types FLOAT, PERCENT and RATING, `parseMetricValue`
returns an error for every non-empty raw value that is none of a decimal number (in the
wider form of `IsGoDecimal`, which holds of every decimal number of the specification and
lets an underscore stand between two digits only), a hexadecimal floating-point number
with its binary exponent, and a spelling of infinity or NaN. The values `not-a-number`,
`0x10`, `_1`, `1_` and `1e_5` are rejected; `NaN`, `Inf`, `0x10p0`, `1_000.5` and `1e1_0`
are accepted. -/
theorem parseMetricValue_float_rejects (s T : String)
    (hT : T = "FLOAT" ∨ T = "PERCENT" ∨ T = "RATING") (hs : s ≠ "")
    (hdec : ¬ IsGoDecimal s) (hhex : ¬ IsGoHexFloat s) (hspecial : ¬ IsSpecialFloat s) :
    (parseMetricValue s T).2 ≠ none ∧
      (∀ s' : String, IsPlainDecimal s' → IsGoDecimal s') ∧
      (parseMetricValue "not-a-number" T).2 = some .ErrSyntax ∧
      (parseMetricValue "0x10" T).2 = some .ErrSyntax ∧
      parseMetricValue "NaN" T = (Float64.nan, none) ∧
      parseMetricValue "Inf" T = (Float64.inf false, none) ∧
      parseMetricValue "0x10p0" T = (Float64.finite false (2 ^ 52) (-48), none) ∧
      (¬ IsGoDecimal "_1" ∧ (parseMetricValue "_1" T).2 = some .ErrSyntax) ∧
      (¬ IsGoDecimal "1_" ∧ (parseMetricValue "1_" T).2 = some .ErrSyntax) ∧
      (parseMetricValue "1e_5" T).2 = some .ErrSyntax ∧
      (parseMetricValue "1_000.5" T).2 = none ∧
      (parseMetricValue "1e1_0" T).2 = none := by
  refine ⟨?_, isGoDecimal_of_isPlainDecimal, ?_, ?_, ?_, ?_, ?_,
    ⟨isGoDecimal_misplaced_underscore.1, ?_⟩, ⟨isGoDecimal_misplaced_underscore.2, ?_⟩,
    ?_, ?_, ?_⟩
  · rw [parseMetricValue_of_float_type s T hT hs]
    intro h
    rcases ParseFloat_sound s h with k | k | k
    · exact hdec k
    · exact hhex k
    · exact hspecial k
  all_goals
    rw [parseMetricValue_of_float_type _ T hT (by decide)]
    decide

/-- C7, amended, at the raw value `not-a-number` of type PERCENT: it has no digit, so it
is no number of either base, it is longer than the spellings of the special values, and it
is rejected. And at the raw value `1_` of type FLOAT: its underscore has no digit after it,
it has no `0`, it is shorter than the spellings of the special values, and it is
rejected. -/
theorem parseMetricValue_float_rejects_witness :
    (parseMetricValue "not-a-number" "PERCENT").2 ≠ none ∧
      (parseMetricValue "1_" "FLOAT").2 ≠ none :=
  ⟨(parseMetricValue_float_rejects "not-a-number" "PERCENT" (Or.inr (Or.inl rfl)) (by decide)
    (fun h => by
      obtain ⟨c, hc, hd⟩ := isGoDecimal_has_digit _ h
      have : ∀ c ∈ "not-a-number".data, ¬ IsDigit c := by decide
      exact this c hc hd)
    (fun h => absurd (isGoHexFloat_has_zero _ h) (by decide))
    (fun h => absurd (isSpecialFloat_length _ h) (by decide))).1,
   (parseMetricValue_float_rejects "1_" "FLOAT" (Or.inl rfl) (by decide)
    isGoDecimal_misplaced_underscore.2
    (fun h => absurd (isGoHexFloat_has_zero _ h) (by decide))
    (fun h => absurd (isSpecialFloat_min_length _ h) (by decide))).1⟩
theorem findMetricDef_some (metrics : List Metric) (k : String) (d : Metric)
    (h : findMetricDef metrics k = some d) : d ∈ metrics ∧ d.Key = k := by
  induction metrics with
  | nil => simp [findMetricDef] at h
  | cons m rest ih =>
    by_cases hk : m.Key = k
    · simp only [findMetricDef, hk, if_true, Option.some.injEq] at h
      subst h
      exact ⟨List.mem_cons_self _ _, hk⟩
    · simp only [findMetricDef, hk, if_false] at h
      exact ⟨List.mem_cons_of_mem _ (ih h).1, (ih h).2⟩

theorem findMetricDef_none (metrics : List Metric) (k : String) :
    findMetricDef metrics k = none ↔ ∀ d ∈ metrics, d.Key ≠ k := by
  induction metrics with
  | nil => simp [findMetricDef]
  | cons m rest ih =>
    by_cases hk : m.Key = k
    · simp [findMetricDef, hk]
    · simp [findMetricDef, hk, ih]

theorem getOrCreate_fst_congr (lo : Char → Char) (c c' : Collector) (d : Metric)
    (h : c'.metricDescs.get d.Key = c.metricDescs.get d.Key) :
    (getOrCreateMetricDesc lo c' d).1 = (getOrCreateMetricDesc lo c d).1 := by
  unfold getOrCreateMetricDesc
  rw [h]
  cases c.metricDescs.get d.Key <;> rfl

theorem agrees_refl (lo : Char → Char) (metrics : List Metric) (c : Collector) :
    Agrees lo metrics c c := ⟨rfl, fun _ _ => rfl⟩

theorem agrees_getOrCreate (lo : Char → Char) (metrics : List Metric) (c c' : Collector)
    (d0 : Metric) (h0 : findMetricDef metrics d0.Key = some d0) (h : Agrees lo metrics c c') :
    Agrees lo metrics c (getOrCreateMetricDesc lo c' d0).2 := by
  refine ⟨(getOrCreate_projectInfo lo c' d0).trans h.1, ?_⟩
  intro d hd
  by_cases hk : d.Key = d0.Key
  · have hdd : d = d0 := by
      rw [hk, h0] at hd
      exact (Option.some.inj hd).symm
    subst hdd
    have h1 := getOrCreate_get lo c' d
    rw [getOrCreate_of_get_some lo _ d _ h1]
    exact h.2 d hd
  · rw [getOrCreate_fst_congr lo c' _ d (getOrCreate_get_ne lo c' d0 d.Key hk)]
    exact h.2 d hd

theorem exportMeasure_of_not_found (lo : Char → Char) (st : CollectState) (pk pn : String)
    (m : Measure) (metrics : List Metric) (hf : findMetricDef metrics m.Metric = none) :
    exportMeasure lo st pk pn m metrics = st := by
  simp only [exportMeasure, hf]

theorem exportMeasure_of_parse_error (lo : Char → Char) (st : CollectState) (pk pn : String)
    (m : Measure) (metrics : List Metric) (d : Metric) (e : NumError)
    (hf : findMetricDef metrics m.Metric = some d)
    (hp : (parseMetricValue m.Value d.Typ).2 = some e) :
    exportMeasure lo st pk pn m metrics =
      { st with log := st.log ++ [.parsingValue m.Metric e] } := by
  simp only [exportMeasure, hf, hp]

theorem exportMeasure_of_parsed (lo : Char → Char) (st : CollectState) (pk pn : String)
    (m : Measure) (metrics : List Metric) (d : Metric)
    (hf : findMetricDef metrics m.Metric = some d)
    (hp : (parseMetricValue m.Value d.Typ).2 = none) :
    exportMeasure lo st pk pn m metrics =
      { st with
        c := (getOrCreateMetricDesc lo st.c d).2
        ch := st.ch ++ [⟨(getOrCreateMetricDesc lo st.c d).1,
          (parseMetricValue m.Value d.Typ).1, [pk, pn]⟩] } := by
  simp only [exportMeasure, hf, hp, MustNewConstMetric]

theorem measureSample_of_not_found (lo : Char → Char) (c : Collector) (metrics : List Metric)
    (pk pn : String) (m : Measure) (hf : findMetricDef metrics m.Metric = none) :
    measureSample lo c metrics pk pn m = none := by
  simp only [measureSample, hf]

theorem measureSample_of_parse_error (lo : Char → Char) (c : Collector)
    (metrics : List Metric) (pk pn : String) (m : Measure) (d : Metric) (e : NumError)
    (hf : findMetricDef metrics m.Metric = some d)
    (hp : (parseMetricValue m.Value d.Typ).2 = some e) :
    measureSample lo c metrics pk pn m = none := by
  simp [measureSample, hf, hp]

theorem measureSample_of_parsed (lo : Char → Char) (c : Collector) (metrics : List Metric)
    (pk pn : String) (m : Measure) (d : Metric)
    (hf : findMetricDef metrics m.Metric = some d)
    (hp : (parseMetricValue m.Value d.Typ).2 = none) :
    measureSample lo c metrics pk pn m =
      some ⟨(getOrCreateMetricDesc lo c d).1, (parseMetricValue m.Value d.Typ).1, [pk, pn]⟩ := by
  simp [measureSample, hf, hp]

theorem exportMeasure_ch (lo : Char → Char) (metrics : List Metric) (c : Collector)
    (st : CollectState) (pk pn : String) (m : Measure) (h : Agrees lo metrics c st.c) :
    (exportMeasure lo st pk pn m metrics).ch =
        st.ch ++ (measureSample lo c metrics pk pn m).toList ∧
      Agrees lo metrics c (exportMeasure lo st pk pn m metrics).c := by
  rcases hf : findMetricDef metrics m.Metric with _ | d
  · rw [exportMeasure_of_not_found lo st pk pn m metrics hf,
      measureSample_of_not_found lo c metrics pk pn m hf]
    exact ⟨by simp, h⟩
  · have hd := findMetricDef_some metrics _ d hf
    have hfd : findMetricDef metrics d.Key = some d := by rw [hd.2, hf]
    rcases hp : (parseMetricValue m.Value d.Typ).2 with _ | e
    · rw [exportMeasure_of_parsed lo st pk pn m metrics d hf hp,
        measureSample_of_parsed lo c metrics pk pn m d hf hp]
      refine ⟨?_, agrees_getOrCreate lo metrics c st.c d hfd h⟩
      simp only [Option.toList, h.2 d hfd]
    · rw [exportMeasure_of_parse_error lo st pk pn m metrics d e hf hp,
        measureSample_of_parse_error lo c metrics pk pn m d e hf hp]
      exact ⟨by simp, h⟩

theorem exportMeasures_ch (lo : Char → Char) (metrics : List Metric) (c : Collector)
    (pk pn : String) (ms : List Measure) (st : CollectState) (h : Agrees lo metrics c st.c) :
    (ms.foldl (fun st m => exportMeasure lo st pk pn m metrics) st).ch =
        st.ch ++ ms.filterMap (measureSample lo c metrics pk pn) ∧
      Agrees lo metrics c (ms.foldl (fun st m => exportMeasure lo st pk pn m metrics) st).c := by
  induction ms generalizing st with
  | nil => simpa using h
  | cons m ms ih =>
    obtain ⟨h1, h2⟩ := exportMeasure_ch lo metrics c st pk pn m h
    obtain ⟨k1, k2⟩ := ih (exportMeasure lo st pk pn m metrics) h2
    rw [List.foldl_cons]
    refine ⟨?_, k2⟩
    rw [k1, h1, List.append_assoc]
    congr 1
    cases hm : measureSample lo c metrics pk pn m <;> simp [List.filterMap_cons, hm]

theorem collectProject_of_error {σ : Type} (lo : Char → Char) (client : Client σ)
    (keys : List String) (metrics : List Metric) (st : CollectState) (w : σ) (p : Component)
    (e : String) (hr : (client.GetProjectMeasures p.Key keys w).1 = .error e) :
    collectProject lo client keys metrics (st, w) p =
      ({ st with
          ch := st.ch ++ [identitySample st.c p]
          log := st.log ++ [.fetchingMeasures p.Key e] },
        (client.GetProjectMeasures p.Key keys w).2) := by
  simp only [collectProject, hr, MustNewConstMetric, identitySample]

theorem collectProject_of_ok {σ : Type} (lo : Char → Char) (client : Client σ)
    (keys : List String) (metrics : List Metric) (st : CollectState) (w : σ) (p : Component)
    (ms : List Measure) (hr : (client.GetProjectMeasures p.Key keys w).1 = .ok ms) :
    collectProject lo client keys metrics (st, w) p =
      (ms.foldl (fun st m => exportMeasure lo st p.Key p.Name m metrics)
          { st with ch := st.ch ++ [identitySample st.c p] },
        (client.GetProjectMeasures p.Key keys w).2) := by
  simp only [collectProject, hr, MustNewConstMetric, identitySample]

theorem collectProject_ch {σ : Type} (lo : Char → Char) (client : Client σ)
    (keys : List String) (metrics : List Metric) (c : Collector) (st : CollectState) (w : σ)
    (p : Component) (h : Agrees lo metrics c st.c) :
    (collectProject lo client keys metrics (st, w) p).1.ch =
        st.ch ++ identitySample c p ::
          (returnedMeasures (client.GetProjectMeasures p.Key keys w).1).filterMap
            (measureSample lo c metrics p.Key p.Name) ∧
      Agrees lo metrics c (collectProject lo client keys metrics (st, w) p).1.c ∧
      (collectProject lo client keys metrics (st, w) p).2 =
        (client.GetProjectMeasures p.Key keys w).2 := by
  have hid : identitySample st.c p = identitySample c p := by
    simp only [identitySample, h.1]
  rcases hr : (client.GetProjectMeasures p.Key keys w).1 with e | ms
  · rw [collectProject_of_error lo client keys metrics st w p e hr, hid]
    exact ⟨by simp [returnedMeasures], h, rfl⟩
  · rw [collectProject_of_ok lo client keys metrics st w p ms hr, hid]
    obtain ⟨k1, k2⟩ := exportMeasures_ch lo metrics c p.Key p.Name ms
      { st with ch := st.ch ++ [identitySample c p] } h
    refine ⟨?_, k2, rfl⟩
    rw [k1]
    simp only [returnedMeasures, List.append_assoc, List.singleton_append]

theorem collectProjects_ch {σ : Type} (lo : Char → Char) (client : Client σ)
    (keys : List String) (metrics : List Metric) (c : Collector) (ps : List Component)
    (st : CollectState) (w : σ) (h : Agrees lo metrics c st.c) :
    (ps.foldl (collectProject lo client keys metrics) (st, w)).1.ch =
      st.ch ++ expectedSamples lo c metrics ps (measureResponses client keys ps w) := by
  induction ps generalizing st w with
  | nil => simp [expectedSamples]
  | cons p ps ih =>
    obtain ⟨h1, h2, h3⟩ := collectProject_ch lo client keys metrics c st w p h
    rw [List.foldl_cons]
    have hsplit : collectProject lo client keys metrics (st, w) p =
        ((collectProject lo client keys metrics (st, w) p).1,
          (client.GetProjectMeasures p.Key keys w).2) := Prod.ext rfl h3
    rw [hsplit, ih _ _ h2, h1]
    simp only [measureResponses, expectedSamples, List.append_assoc, List.cons_append]

theorem Collect_ok {σ : Type} (lo : Char → Char) (client : Client σ) (c : Collector) (w : σ)
    (metrics : List Metric) (projects : List Component)
    (hm : (client.GetMetrics w).1 = .ok metrics)
    (hp : (client.GetProjects (client.GetMetrics w).2).1 = .ok projects) :
    Collect lo client c w =
      projects.foldl (collectProject lo client (getNumericMetricKeys metrics) metrics)
        (⟨c, [], []⟩, (client.GetProjects (client.GetMetrics w).2).2) := by
  unfold Collect
  simp only [hm, hp]

theorem measureSample_isSome (lo : Char → Char) (c : Collector) (metrics : List Metric)
    (pk pn : String) (m : Measure) :
    (measureSample lo c metrics pk pn m).isSome = exportable metrics m := by
  rcases hf : findMetricDef metrics m.Metric with _ | d
  · simp [measureSample, exportable, hf]
  · rcases hp : (parseMetricValue m.Value d.Typ).2 with _ | e
    · simp [measureSample, exportable, hf, hp]
    · simp [measureSample, exportable, hf, hp]

theorem expectedSamples_length (lo : Char → Char) (c : Collector) (metrics : List Metric)
    (ps : List Component) (rs : List (Except String (List Measure)))
    (hlen : rs.length = ps.length) :
    (expectedSamples lo c metrics ps rs).length = ps.length + exportableCount metrics rs := by
  induction ps generalizing rs with
  | nil =>
    cases rs with
    | nil => simp [expectedSamples, exportableCount]
    | cons r rs => simp at hlen
  | cons p ps ih =>
    cases rs with
    | nil => simp at hlen
    | cons r rs =>
      have hlen' : rs.length = ps.length := by simpa using hlen
      have hfm : ((returnedMeasures r).filterMap (measureSample lo c metrics p.Key p.Name)).length =
          ((returnedMeasures r).filter (exportable metrics)).length := by
        induction returnedMeasures r with
        | nil => rfl
        | cons m ms ihm =>
          have hiff := measureSample_isSome lo c metrics p.Key p.Name m
          cases hms : measureSample lo c metrics p.Key p.Name m with
          | none =>
            rw [hms] at hiff
            simp only [Option.isSome_none] at hiff
            simp [List.filterMap_cons, hms, List.filter_cons, ← hiff, ihm]
          | some s =>
            rw [hms] at hiff
            simp only [Option.isSome_some] at hiff
            simp [List.filterMap_cons, hms, List.filter_cons, ← hiff, ihm]
      simp only [expectedSamples, exportableCount, List.length_cons, List.length_append, hfm,
        ih rs hlen']
      omega

theorem measureResponses_length {σ : Type} (client : Client σ) (keys : List String)
    (ps : List Component) (w : σ) : (measureResponses client keys ps w).length = ps.length := by
  induction ps generalizing w with
  | nil => rfl
  | cons p ps ih => simp [measureResponses, ih]

/-- The samples of a cycle in which no sample constructor panics, when the catalog and the
project list are fetched. -/
theorem Collect_ch_expected {σ : Type} (caseTable : Char → Char) (client : Client σ)
    (c : Collector) (w : σ) (metrics : List Metric) (projects : List Component)
    (hm : (client.GetMetrics w).1 = .ok metrics)
    (hp : (client.GetProjects (client.GetMetrics w).2).1 = .ok projects) :
    (Collect caseTable client c w).1.ch =
        expectedSamples caseTable c metrics projects
          (measureResponses client (getNumericMetricKeys metrics) projects
            (client.GetProjects (client.GetMetrics w).2).2) ∧
      (Collect caseTable client c w).1.ch.length =
        projects.length +
          exportableCount metrics
            (measureResponses client (getNumericMetricKeys metrics) projects
              (client.GetProjects (client.GetMetrics w).2).2) := by
  have h1 : (Collect caseTable client c w).1.ch =
      expectedSamples caseTable c metrics projects
        (measureResponses client (getNumericMetricKeys metrics) projects
          (client.GetProjects (client.GetMetrics w).2).2) := by
    rw [Collect_ok caseTable client c w metrics projects hm hp,
      collectProjects_ch caseTable client _ metrics c projects ⟨c, [], []⟩ _
        (agrees_refl caseTable metrics c)]
    rfl
  refine ⟨h1, ?_⟩
  rw [h1, expectedSamples_length _ _ _ _ _ (measureResponses_length _ _ _ _)]

/-- C2: if the catalog fetch fails, or it succeeds and the project list fetch fails,
`Collect` sends no sample at all and leaves the descriptor cache (the whole collector) as
it was. -/
theorem Collect_abort {σ : Type} (caseTable : Char → Char) (client : Client σ) (c : Collector)
    (w : σ)
    (h : (∃ e, (client.GetMetrics w).1 = .error e) ∨
      (∃ metrics e, (client.GetMetrics w).1 = .ok metrics ∧
        (client.GetProjects (client.GetMetrics w).2).1 = .error e)) :
    (Collect caseTable client c w).1.ch = [] ∧ (Collect caseTable client c w).1.c = c := by
  rcases h with ⟨e, he⟩ | ⟨metrics, e, hm, he⟩
  · simp only [Collect, he]
    exact ⟨trivial, trivial⟩
  · simp only [Collect, hm, he]
    exact ⟨trivial, trivial⟩

/-- C2 in scenarios B and C, with a cache that already holds a descriptor: when the
catalog fetch is refused, and when the catalog is fetched and the project list is refused,
nothing is sent and the collector is as before. -/
theorem Collect_abort_witness :
    ((Collect id scenarioB usedCollector ()).1.ch = [] ∧
        (Collect id scenarioB usedCollector ()).1.c = usedCollector) ∧
      (Collect id scenarioC usedCollector ()).1.ch = [] ∧
      (Collect id scenarioC usedCollector ()).1.c = usedCollector :=
  ⟨Collect_abort id scenarioB usedCollector () (Or.inl ⟨_, rfl⟩),
    Collect_abort id scenarioC usedCollector () (Or.inr ⟨_, _, rfl, rfl⟩)⟩

theorem exportMeasure_congr (lo : Char → Char) (st st' : CollectState) (pk pn : String)
    (m : Measure) (metrics : List Metric) (hc : st.c = st'.c) (hch : st.ch = st'.ch) :
    (exportMeasure lo st pk pn m metrics).c = (exportMeasure lo st' pk pn m metrics).c ∧
      (exportMeasure lo st pk pn m metrics).ch = (exportMeasure lo st' pk pn m metrics).ch := by
  rcases hf : findMetricDef metrics m.Metric with _ | d
  · rw [exportMeasure_of_not_found lo st pk pn m metrics hf,
      exportMeasure_of_not_found lo st' pk pn m metrics hf]
    exact ⟨hc, hch⟩
  · rcases hp : (parseMetricValue m.Value d.Typ).2 with _ | e
    · rw [exportMeasure_of_parsed lo st pk pn m metrics d hf hp,
        exportMeasure_of_parsed lo st' pk pn m metrics d hf hp]
      simp only [hc, hch, and_self]
    · rw [exportMeasure_of_parse_error lo st pk pn m metrics d e hf hp,
        exportMeasure_of_parse_error lo st' pk pn m metrics d e hf hp]
      exact ⟨hc, hch⟩

theorem exportMeasures_congr (lo : Char → Char) (pk pn : String) (metrics : List Metric)
    (ms : List Measure) (st st' : CollectState) (hc : st.c = st'.c) (hch : st.ch = st'.ch) :
    (ms.foldl (fun st m => exportMeasure lo st pk pn m metrics) st).c =
        (ms.foldl (fun st m => exportMeasure lo st pk pn m metrics) st').c ∧
      (ms.foldl (fun st m => exportMeasure lo st pk pn m metrics) st).ch =
        (ms.foldl (fun st m => exportMeasure lo st pk pn m metrics) st').ch := by
  induction ms generalizing st st' with
  | nil => exact ⟨hc, hch⟩
  | cons m ms ih =>
    obtain ⟨h1, h2⟩ := exportMeasure_congr lo st st' pk pn m metrics hc hch
    simp only [List.foldl_cons]
    exact ih _ _ h1 h2

theorem collectProject_recover {σ : Type} (lo : Char → Char) (client : Client σ)
    (keys : List String) (metrics : List Metric) (st st' : CollectState) (w : σ)
    (p : Component) (hc : st.c = st'.c) (hch : st.ch = st'.ch) :
    (collectProject lo client keys metrics (st, w) p).1.c =
        (collectProject lo (recoverMeasures client) keys metrics (st', w) p).1.c ∧
      (collectProject lo client keys metrics (st, w) p).1.ch =
        (collectProject lo (recoverMeasures client) keys metrics (st', w) p).1.ch ∧
      (collectProject lo client keys metrics (st, w) p).2 =
        (collectProject lo (recoverMeasures client) keys metrics (st', w) p).2 := by
  rcases hr : (client.GetProjectMeasures p.Key keys w).1 with e | ms
  · have hr' : ((recoverMeasures client).GetProjectMeasures p.Key keys w).1 = .ok [] := by
      simp only [recoverMeasures, hr]
    rw [collectProject_of_error lo client keys metrics st w p e hr,
      collectProject_of_ok lo (recoverMeasures client) keys metrics st' w p [] hr']
    simp only [List.foldl_nil, hc, hch, true_and]
    rfl
  · have hr' : ((recoverMeasures client).GetProjectMeasures p.Key keys w).1 = .ok ms := by
      simp only [recoverMeasures, hr]
    rw [collectProject_of_ok lo client keys metrics st w p ms hr,
      collectProject_of_ok lo (recoverMeasures client) keys metrics st' w p ms hr']
    obtain ⟨h1, h2⟩ := exportMeasures_congr lo p.Key p.Name metrics ms
      { st with ch := st.ch ++ [identitySample st.c p] }
      { st' with ch := st'.ch ++ [identitySample st'.c p] } hc (by simp only [hc, hch])
    exact ⟨h1, h2, rfl⟩

theorem collectProjects_recover {σ : Type} (lo : Char → Char) (client : Client σ)
    (keys : List String) (metrics : List Metric) (ps : List Component)
    (st st' : CollectState) (w : σ) (hc : st.c = st'.c) (hch : st.ch = st'.ch) :
    (ps.foldl (collectProject lo client keys metrics) (st, w)).1.c =
        (ps.foldl (collectProject lo (recoverMeasures client) keys metrics) (st', w)).1.c ∧
      (ps.foldl (collectProject lo client keys metrics) (st, w)).1.ch =
        (ps.foldl (collectProject lo (recoverMeasures client) keys metrics) (st', w)).1.ch ∧
      (ps.foldl (collectProject lo client keys metrics) (st, w)).2 =
        (ps.foldl (collectProject lo (recoverMeasures client) keys metrics) (st', w)).2 := by
  induction ps generalizing st st' w with
  | nil => exact ⟨hc, hch, rfl⟩
  | cons p ps ih =>
    obtain ⟨h1, h2, h3⟩ := collectProject_recover lo client keys metrics st st' w p hc hch
    simp only [List.foldl_cons]
    have e1 : collectProject lo client keys metrics (st, w) p =
        ((collectProject lo client keys metrics (st, w) p).1,
          (collectProject lo client keys metrics (st, w) p).2) := rfl
    have e2 : collectProject lo (recoverMeasures client) keys metrics (st', w) p =
        ((collectProject lo (recoverMeasures client) keys metrics (st', w) p).1,
          (collectProject lo client keys metrics (st, w) p).2) := Prod.ext rfl h3.symm
    rw [e1, e2]
    exact ih _ _ _ h1 h2

theorem Collect_recover {σ : Type} (lo : Char → Char) (client : Client σ) (c : Collector)
    (w : σ) :
    (Collect lo client c w).1.c = (Collect lo (recoverMeasures client) c w).1.c ∧
      (Collect lo client c w).1.ch = (Collect lo (recoverMeasures client) c w).1.ch ∧
      (Collect lo client c w).2 = (Collect lo (recoverMeasures client) c w).2 := by
  rcases hm : (client.GetMetrics w).1 with e | metrics
  · have hm' : ((recoverMeasures client).GetMetrics w).1 = .error e := hm
    simp only [Collect, hm, hm']
    exact ⟨trivial, trivial, rfl⟩
  · have hm' : ((recoverMeasures client).GetMetrics w).1 = .ok metrics := hm
    rcases hp : (client.GetProjects (client.GetMetrics w).2).1 with e | projects
    · have hp' : ((recoverMeasures client).GetProjects
          ((recoverMeasures client).GetMetrics w).2).1 = .error e := hp
      simp only [Collect, hm, hm', hp, hp']
      exact ⟨trivial, trivial, rfl⟩
    · have hp' : ((recoverMeasures client).GetProjects
          ((recoverMeasures client).GetMetrics w).2).1 = .ok projects := hp
      rw [Collect_ok lo client c w metrics projects hm hp,
        Collect_ok lo (recoverMeasures client) c w metrics projects hm' hp']
      exact collectProjects_recover lo client _ metrics projects _ _ _ rfl rfl

theorem measureResponses_append {σ : Type} (client : Client σ) (keys : List String)
    (pre post : List Component) (w : σ) :
    measureResponses client keys (pre ++ post) w =
      measureResponses client keys pre w ++
        measureResponses client keys post (worldAfter client keys pre w) := by
  induction pre generalizing w with
  | nil => rfl
  | cons p pre ih =>
    rw [List.cons_append]
    simp only [measureResponses, worldAfter]
    rw [ih, List.cons_append]

theorem expectedSamples_append (lo : Char → Char) (c : Collector) (metrics : List Metric)
    (pre post : List Component) (rs1 rs2 : List (Except String (List Measure)))
    (hlen : rs1.length = pre.length) :
    expectedSamples lo c metrics (pre ++ post) (rs1 ++ rs2) =
      expectedSamples lo c metrics pre rs1 ++ expectedSamples lo c metrics post rs2 := by
  induction pre generalizing rs1 with
  | nil =>
    cases rs1 with
    | nil => simp [expectedSamples]
    | cons r rs => simp at hlen
  | cons p pre ih =>
    cases rs1 with
    | nil => simp at hlen
    | cons r rs =>
      have hlen' : rs.length = pre.length := by simpa using hlen
      rw [List.cons_append, List.cons_append]
      simp only [expectedSamples]
      rw [ih rs hlen', List.cons_append, List.append_assoc]

/-- The samples of a cycle in which no sample constructor panics and the measure fetch of
one project fails, and the cycle with the failed fetches answered by an empty list. -/
theorem Collect_ch_fetch_error {σ : Type} (caseTable : Char → Char) (client : Client σ)
    (c : Collector) (w : σ) (metrics : List Metric) (before : List Component)
    (p : Component) (after : List Component) (e : String)
    (hm : (client.GetMetrics w).1 = .ok metrics)
    (hp : (client.GetProjects (client.GetMetrics w).2).1 = .ok (before ++ p :: after))
    (he : (client.GetProjectMeasures p.Key (getNumericMetricKeys metrics)
      (worldAfter client (getNumericMetricKeys metrics) before
        (client.GetProjects (client.GetMetrics w).2).2)).1 = .error e) :
    (Collect caseTable client c w).1.ch =
        expectedSamples caseTable c metrics before
            (measureResponses client (getNumericMetricKeys metrics) before
              (client.GetProjects (client.GetMetrics w).2).2) ++
          identitySample c p ::
            expectedSamples caseTable c metrics after
              (measureResponses client (getNumericMetricKeys metrics) after
                (client.GetProjectMeasures p.Key (getNumericMetricKeys metrics)
                  (worldAfter client (getNumericMetricKeys metrics) before
                    (client.GetProjects (client.GetMetrics w).2).2)).2) ∧
      (Collect caseTable client c w).1.ch =
        (Collect caseTable (recoverMeasures client) c w).1.ch ∧
      (Collect caseTable client c w).1.c = (Collect caseTable (recoverMeasures client) c w).1.c ∧
      (Collect caseTable client c w).2 = (Collect caseTable (recoverMeasures client) c w).2 := by
  obtain ⟨h1, h2, h3⟩ := Collect_recover caseTable client c w
  refine ⟨?_, h2, h1, h3⟩
  rw [Collect_ok caseTable client c w metrics _ hm hp,
    collectProjects_ch caseTable client _ metrics c _ ⟨c, [], []⟩ _
      (agrees_refl caseTable metrics c),
    measureResponses_append,
    expectedSamples_append _ _ _ _ _ _ _ (measureResponses_length _ _ _ _)]
  simp only [measureResponses, worldAfter, expectedSamples, he, returnedMeasures,
    List.filterMap_nil, List.nil_append]

theorem exportable_iff (metrics : List Metric) (m : Measure) :
    exportable metrics m = true ↔
      ∃ d, findMetricDef metrics m.Metric = some d ∧
        (parseMetricValue m.Value d.Typ).2 = none := by
  rcases hf : findMetricDef metrics m.Metric with _ | d
  · simp [exportable, hf]
  · simp [exportable, hf]

theorem exportMeasure_of_not_exportable (lo : Char → Char) (st : CollectState)
    (pk pn : String) (m : Measure) (metrics : List Metric)
    (h : exportable metrics m = false) :
    (exportMeasure lo st pk pn m metrics).c = st.c ∧
      (exportMeasure lo st pk pn m metrics).ch = st.ch := by
  rcases hf : findMetricDef metrics m.Metric with _ | d
  · rw [exportMeasure_of_not_found lo st pk pn m metrics hf]
    exact ⟨rfl, rfl⟩
  · rcases hp : (parseMetricValue m.Value d.Typ).2 with _ | e
    · simp [exportable, hf, hp] at h
    · rw [exportMeasure_of_parse_error lo st pk pn m metrics d e hf hp]
      exact ⟨rfl, rfl⟩

theorem mem_expectedSamples (lo : Char → Char) (c : Collector) (metrics : List Metric)
    (ps : List Component) (rs : List (Except String (List Measure))) (s : Sample)
    (h : s ∈ expectedSamples lo c metrics ps rs) :
    (∃ p ∈ ps, s = identitySample c p) ∨
      ∃ p ∈ ps, ∃ r ∈ rs, ∃ m ∈ returnedMeasures r,
        measureSample lo c metrics p.Key p.Name m = some s := by
  induction ps generalizing rs with
  | nil => simp [expectedSamples] at h
  | cons p ps ih =>
    cases rs with
    | nil => simp [expectedSamples] at h
    | cons r rs =>
      simp only [expectedSamples, List.mem_cons, List.mem_append, List.mem_filterMap] at h
      rcases h with h | ⟨m, hm, hs⟩ | h
      · exact Or.inl ⟨p, List.mem_cons_self _ _, h⟩
      · exact Or.inr ⟨p, List.mem_cons_self _ _, r, List.mem_cons_self _ _, m, hm, hs⟩
      · rcases ih rs h with ⟨p', hp', hs⟩ | ⟨p', hp', r', hr', m, hm, hs⟩
        · exact Or.inl ⟨p', List.mem_cons_of_mem _ hp', hs⟩
        · exact Or.inr ⟨p', List.mem_cons_of_mem _ hp', r', List.mem_cons_of_mem _ hr', m,
            hm, hs⟩

theorem mem_measureResponses {σ : Type} (client : Client σ) (keys : List String)
    (ps : List Component) (w : σ) (r : Except String (List Measure))
    (h : r ∈ measureResponses client keys ps w) :
    ∃ (key : String) (w' : σ), r = (client.GetProjectMeasures key keys w').1 := by
  induction ps generalizing w with
  | nil => simp [measureResponses] at h
  | cons p ps ih =>
    simp only [measureResponses, List.mem_cons] at h
    rcases h with h | h
    · exact ⟨p.Key, w, h⟩
    · exact ih _ h

theorem mem_returnedMeasures_honoured {σ : Type} (client : Client σ) (keys : List String)
    (key : String) (w : σ) (m : Measure) (hon : HonoursKeys client keys)
    (h : m ∈ returnedMeasures (client.GetProjectMeasures key keys w).1) : m.Metric ∈ keys := by
  rcases hr : (client.GetProjectMeasures key keys w).1 with e | ms
  · rw [hr] at h
    simp [returnedMeasures] at h
  · rw [hr] at h
    exact hon key w ms hr m h

theorem measureSample_some (lo : Char → Char) (c : Collector) (metrics : List Metric)
    (pk pn : String) (m : Measure) (s : Sample)
    (h : measureSample lo c metrics pk pn m = some s) :
    ∃ d, findMetricDef metrics m.Metric = some d ∧ (parseMetricValue m.Value d.Typ).2 = none ∧
      s = ⟨(getOrCreateMetricDesc lo c d).1, (parseMetricValue m.Value d.Typ).1, [pk, pn]⟩ := by
  rcases hf : findMetricDef metrics m.Metric with _ | d
  · rw [measureSample_of_not_found lo c metrics pk pn m hf] at h
    simp at h
  · rcases hp : (parseMetricValue m.Value d.Typ).2 with _ | e
    · rw [measureSample_of_parsed lo c metrics pk pn m d hf hp] at h
      exact ⟨d, rfl, hp, (Option.some.inj h).symm⟩
    · rw [measureSample_of_parse_error lo c metrics pk pn m d e hf hp] at h
      simp at h

theorem mem_getNumericMetricKeys (metrics : List Metric) (k : String) :
    k ∈ getNumericMetricKeys metrics ↔
      ∃ m ∈ metrics, m.Key = k ∧
        m.Typ ∈ ["INT", "FLOAT", "PERCENT", "RATING", "MILLISEC", "WORK_DUR"] ∧
        m.Hidden = false := by
  unfold getNumericMetricKeys
  rw [mem_foldl_numeric]
  simp

theorem eq_of_key_eq (metrics : List Metric) (hnd : (metrics.map (fun m => m.Key)).Nodup)
    (a b : Metric) (ha : a ∈ metrics) (hb : b ∈ metrics) (hk : a.Key = b.Key) : a = b :=
  List.inj_on_of_nodup_map hnd ha hb hk

/-- C9, as the specification states it, fails: in a cycle whose measure fetch returns a
measure of the catalog metric `alert_status`, which is of type LEVEL and so not in the
numeric allow list, `Collect` sends a sample for it, with the value 0 that
`parseMetricValue` returns for a type that is not numeric. -/
theorem Collect_emits_unrequested :
    ¬ OnlyAllowlisted id scenarioUnrequested NewCollector () ∧
      getNumericMetricKeys
        [⟨"1", "bugs", "INT", "Bugs", "Number of bugs", "Reliability", 0, false, false⟩,
          ⟨"2", "alert_status", "LEVEL", "Alert status", "The project status",
            "Releasability", 0, true, false⟩] = ["bugs"] ∧
      (Collect id scenarioUnrequested NewCollector ()).1.ch =
        [identitySample NewCollector ⟨"project1", "Project 1", "TRK", false, "", [], "private"⟩,
          ⟨NewDesc "sonarqube_alert_status" "The project status"
              ["project_key", "project_name"] [("domain", "Releasability")],
            Float64.zero, ["project1", "Project 1"]⟩,
          ⟨NewDesc "sonarqube_bugs" "Number of bugs" ["project_key", "project_name"]
              [("domain", "Reliability")],
            Float64.finite false (3 * 2 ^ 51) (-51), ["project1", "Project 1"]⟩] := by
  have hch : (Collect id scenarioUnrequested NewCollector ()).1.ch =
        [identitySample NewCollector ⟨"project1", "Project 1", "TRK", false, "", [], "private"⟩,
          ⟨NewDesc "sonarqube_alert_status" "The project status"
              ["project_key", "project_name"] [("domain", "Releasability")],
            Float64.zero, ["project1", "Project 1"]⟩,
          ⟨NewDesc "sonarqube_bugs" "Number of bugs" ["project_key", "project_name"]
              [("domain", "Reliability")],
            Float64.finite false (3 * 2 ^ 51) (-51), ["project1", "Project 1"]⟩] := by
    decide
  have hkeys : getNumericMetricKeys
        [⟨"1", "bugs", "INT", "Bugs", "Number of bugs", "Reliability", 0, false, false⟩,
          ⟨"2", "alert_status", "LEVEL", "Alert status", "The project status",
            "Releasability", 0, true, false⟩] = ["bugs"] := by
    decide
  refine ⟨?_, hkeys, hch⟩
  intro hall
  have hs := hall _ _ rfl rfl
    ⟨NewDesc "sonarqube_alert_status" "The project status"
        ["project_key", "project_name"] [("domain", "Releasability")],
      Float64.zero, ["project1", "Project 1"]⟩ (by rw [hch]; simp)
  rcases hs with ⟨p, _, hp⟩ | ⟨p, _, m, d, hm, hf, _, hs⟩
  · have := congrArg (fun s => s.labelValues.length) hp
    simp [identitySample] at this
  · rw [hkeys, List.mem_singleton] at hm
    rw [hm] at hf
    have hd : d = ⟨"1", "bugs", "INT", "Bugs", "Number of bugs", "Reliability", 0, false,
        false⟩ := by
      have : findMetricDef
          [⟨"1", "bugs", "INT", "Bugs", "Number of bugs", "Reliability", 0, false, false⟩,
            ⟨"2", "alert_status", "LEVEL", "Alert status", "The project status",
              "Releasability", 0, true, false⟩] "bugs" =
          some ⟨"1", "bugs", "INT", "Bugs", "Number of bugs", "Reliability", 0, false,
            false⟩ := by decide
      rw [this] at hf
      exact (Option.some.inj hf).symm
    subst hd
    have h2 : "sonarqube_alert_status" = (getOrCreateMetricDesc id NewCollector
        ⟨"1", "bugs", "INT", "Bugs", "Number of bugs", "Reliability", 0, false, false⟩).1.fqName :=
      congrArg (fun s => s.desc.fqName) hs
    exact absurd h2 (by decide)

/-- C9, amended: if every measure the measure fetches of the cycle return is for one of the
requested metric keys, each sample `Collect` sends is the identity sample of a project or the sample
of a measure whose metric key is in the numeric allow list of the cycle; and in a catalog
whose keys are pairwise distinct, the entry used for an allow-listed key has a numeric
declared type and is not hidden, so that the value is not the 0 that `parseMetricValue`
returns for the other types. -/
theorem Collect_only_allowlisted {σ : Type} (caseTable : Char → Char) (client : Client σ)
    (c : Collector) (w : σ)
    (hon : ∀ metrics, (client.GetMetrics w).1 = .ok metrics →
      HonoursKeys client (getNumericMetricKeys metrics)) :
    OnlyAllowlisted caseTable client c w ∧
      ∀ (metrics : List Metric), (metrics.map (fun m => m.Key)).Nodup →
        ∀ k ∈ getNumericMetricKeys metrics, ∃ d, findMetricDef metrics k = some d ∧
          d.Typ ∈ ["INT", "FLOAT", "PERCENT", "RATING", "MILLISEC", "WORK_DUR"] ∧
          d.Hidden = false := by
  constructor
  · intro metrics projects hm hp s hs
    have hch : (Collect caseTable client c w).1.ch =
        expectedSamples caseTable c metrics projects
          (measureResponses client (getNumericMetricKeys metrics) projects
            (client.GetProjects (client.GetMetrics w).2).2) := by
      rw [Collect_ok caseTable client c w metrics projects hm hp,
        collectProjects_ch caseTable client _ metrics c projects ⟨c, [], []⟩ _
          (agrees_refl caseTable metrics c)]
      rfl
    rw [hch] at hs
    rcases mem_expectedSamples caseTable c metrics projects _ s hs with
      h | ⟨p, hp', r, hr, m, hmr, hsm⟩
    · exact Or.inl h
    · right
      obtain ⟨key, w', rfl⟩ := mem_measureResponses client _ projects _ r hr
      have hkey := mem_returnedMeasures_honoured client _ key w' m (hon metrics hm) hmr
      obtain ⟨d, hf, hpv, hsd⟩ := measureSample_some caseTable c metrics p.Key p.Name m s hsm
      exact ⟨p, hp', m, d, hkey, hf, hpv, hsd⟩
  · intro metrics hnd k hk
    obtain ⟨m, hm, hmk, hty, hhid⟩ := (mem_getNumericMetricKeys metrics k).1 hk
    rcases hf : findMetricDef metrics k with _ | d
    · exact absurd hmk ((findMetricDef_none metrics k).1 hf m hm)
    · obtain ⟨hd, hdk⟩ := findMetricDef_some metrics k d hf
      have : d = m := eq_of_key_eq metrics hnd d m hd hm (hdk.trans hmk.symm)
      subst this
      exact ⟨d, rfl, hty, hhid⟩

/-- C9, amended, in scenario A, whose measure fetches return measures of the requested
keys `bugs` and `coverage` only. -/
theorem Collect_only_allowlisted_witness : OnlyAllowlisted id scenarioA NewCollector () :=
  (Collect_only_allowlisted id scenarioA NewCollector () (by
    intro metrics hmetrics key w ms h m hm
    have hcat : metrics =
        [⟨"1", "bugs", "INT", "Bugs", "Number of bugs", "Reliability", 0, false, false⟩,
          ⟨"2", "coverage", "PERCENT", "Coverage", "Test coverage", "Coverage", 0, false,
            false⟩] := (Except.ok.inj hmetrics).symm
    subst hcat
    have hkeys : getNumericMetricKeys
        [⟨"1", "bugs", "INT", "Bugs", "Number of bugs", "Reliability", 0, false, false⟩,
          ⟨"2", "coverage", "PERCENT", "Coverage", "Test coverage", "Coverage", 0, false,
            false⟩] = ["bugs", "coverage"] := by decide
    rw [hkeys] at h ⊢
    simp only [scenarioA] at h
    split_ifs at h
    all_goals
      have hms := (Except.ok.inj h).symm
      subst hms
      simp only [List.mem_cons, List.mem_singleton, List.not_mem_nil, or_false] at hm
    · rcases hm with rfl | rfl <;> decide
    · rcases hm with rfl | rfl <;> decide)).1

theorem exchange_response {σ α : Type} (req : Request) (code : Nat) (body : String)
    (decoded : Except String α) (s : σ) (w : World σ) :
    exchange req (HttpResult.response code body decoded, s) w =
      (.response code body decoded, ⟨s, w.requests ++ [req]⟩) := rfl

theorem checkResponse_ok {α : Type} (fetching decoding body : String) (a : α) :
    checkResponse fetching decoding (.response 200 body (.ok a)) = .ok a := by
  simp [checkResponse]

theorem getProjectsLoop_page_ok {σ : Type} (up : Upstream σ) (fuel : Nat)
    (acc : List Component) (p : Nat) (w : World σ) (body : String) (s' : σ)
    (resp : ComponentsResponse)
    (h : up.searchProjects 500 p w.upstream = (.response 200 body (.ok resp), s')) :
    getProjectsLoop up (fuel + 1) acc p w =
      if resp.Paging.Total ≤ ((acc ++ resp.Components).length : Int) then
        some ((acc ++ resp.Components, none), ⟨s', w.requests ++ [.searchProjects 500 p]⟩)
      else
        getProjectsLoop up fuel (acc ++ resp.Components) (p + 1)
          ⟨s', w.requests ++ [.searchProjects 500 p]⟩ := by
  simp only [getProjectsLoop, h, exchange_response, checkResponse_ok]

theorem getProjectsLoop_serves {σ : Type} (up : Upstream σ) (pages : Nat → ComponentsResponse)
    (hs : Serves up pages) (k : Nat) (hk : StopsAt pages k) (reqs : List Request) :
    ∀ (d i fuel : Nat) (w : World σ), i + d + 1 = k →
      (∀ j, i < j → j < k → ¬ StopsAt pages j) → d + 1 ≤ fuel →
      w.requests = reqs ++ pageRequests i →
      ∃ r, getProjectsLoop up fuel (pagesConcat pages i) (i + 1) w = some r ∧
        r.1 = (pagesConcat pages k, none) ∧ r.2.requests = reqs ++ pageRequests k := by
  intro d
  induction d with
  | zero =>
    intro i fuel w hik _ hfuel hreq
    obtain ⟨f, rfl⟩ : ∃ f, fuel = f + 1 := ⟨fuel - 1, by omega⟩
    obtain ⟨body, s', hpage⟩ := hs (i + 1) w.upstream
    have hk' : i + 1 = k := by omega
    subst hk'
    rw [getProjectsLoop_page_ok up f _ (i + 1) w body s' _ hpage]
    have hstop : (pages (i + 1)).Paging.Total ≤
        ((pagesConcat pages i ++ (pages (i + 1)).Components).length : Int) := hk
    rw [if_pos hstop]
    refine ⟨_, rfl, rfl, ?_⟩
    simp only [hreq, pageRequests, List.append_assoc]
  | succ d ih =>
    intro i fuel w hik hno hfuel hreq
    obtain ⟨f, rfl⟩ : ∃ f, fuel = f + 1 := ⟨fuel - 1, by omega⟩
    obtain ⟨body, s', hpage⟩ := hs (i + 1) w.upstream
    rw [getProjectsLoop_page_ok up f _ (i + 1) w body s' _ hpage]
    have hnstop : ¬ (pages (i + 1)).Paging.Total ≤
        ((pagesConcat pages i ++ (pages (i + 1)).Components).length : Int) :=
      hno (i + 1) (by omega) (by omega)
    rw [if_neg hnstop]
    exact ih (i + 1) f ⟨s', w.requests ++ [.searchProjects 500 (i + 1)]⟩ (by omega)
      (fun j hj1 hj2 => hno j (by omega) hj2) (by omega)
      (by simp only [hreq, pageRequests, List.append_assoc])

theorem getProjects_serves {σ : Type} (up : Upstream σ) (pages : Nat → ComponentsResponse)
    (hs : Serves up pages) (k : Nat) (hk1 : 1 ≤ k) (hk : StopsAt pages k)
    (hno : ∀ j, 1 ≤ j → j < k → ¬ StopsAt pages j) (fuel : Nat) (hfuel : k ≤ fuel)
    (w : World σ) :
    ∃ r, GetProjects up fuel w = some r ∧ r.1 = (pagesConcat pages k, none) ∧
      r.2.requests = w.requests ++ pageRequests k :=
  getProjectsLoop_serves up pages hs k hk w.requests (k - 1) 0 fuel w (by omega)
    (fun j hj1 hj2 => hno j hj1 hj2) (by omega) (by simp [pageRequests])

theorem getProjectsLoop_never {σ : Type} (up : Upstream σ) (pages : Nat → ComponentsResponse)
    (hs : Serves up pages) :
    ∀ (fuel i : Nat) (w : World σ), (∀ j, i < j → j ≤ i + fuel → ¬ StopsAt pages j) →
      getProjectsLoop up fuel (pagesConcat pages i) (i + 1) w = none := by
  intro fuel
  induction fuel with
  | zero => intro i w _; rfl
  | succ f ih =>
    intro i w hno
    obtain ⟨body, s', hpage⟩ := hs (i + 1) w.upstream
    rw [getProjectsLoop_page_ok up f _ (i + 1) w body s' _ hpage]
    have hnstop : ¬ (pages (i + 1)).Paging.Total ≤
        ((pagesConcat pages i ++ (pages (i + 1)).Components).length : Int) :=
      hno (i + 1) (by omega) (by omega)
    rw [if_neg hnstop]
    exact ih (i + 1) _ (fun j hj1 hj2 => hno j (by omega) (by omega))

theorem okPageServer_serves (pages : Nat → ComponentsResponse) :
    Serves (okPageServer pages) pages :=
  fun _ _ => ⟨"", (), rfl⟩

/-- C15, as the specification states it, fails: two upstreams serve the same projects page
by page and report the same total, 3, on the first page; the second reports the total 2 on
its second page. For the first `GetProjects` asks for three pages and returns three
projects; for the second it stops after the second page, with two projects, although the
total of the first page is not reached. -/
theorem GetProjects_later_total_counts :
    (∀ p, (pagesWithSecondTotal 3 p).Components = (pagesWithSecondTotal 2 p).Components) ∧
      (pagesWithSecondTotal 3 1).Paging.Total = (pagesWithSecondTotal 2 1).Paging.Total ∧
      GetProjects (okPageServer (pagesWithSecondTotal 3)) 3 ⟨(), []⟩ =
        some (([exampleProject 1, exampleProject 2, exampleProject 3], none),
          ⟨(), [.searchProjects 500 1, .searchProjects 500 2, .searchProjects 500 3]⟩) ∧
      GetProjects (okPageServer (pagesWithSecondTotal 2)) 3 ⟨(), []⟩ =
        some (([exampleProject 1, exampleProject 2], none),
          ⟨(), [.searchProjects 500 1, .searchProjects 500 2]⟩) ∧
      ¬ ReachesFirstTotal (pagesWithSecondTotal 2) 2 := by
  refine ⟨?_, rfl, by decide, by decide, by decide⟩
  intro p
  simp only [pagesWithSecondTotal]
  split_ifs <;> rfl

/-- C15, amended: over an upstream that serves the pages `pages`, `GetProjects` stops
after a page exactly when the projects accumulated so far reach the total reported in the
paging block of that same page. If `k` is the first such page and the page requests
allowed are at least `k`, it returns the projects of the pages 1 to `k` without error
after the requests for the pages 1 to `k`; if no page up to `fuel` is such a page, it has
not returned after `fuel` page requests. The result depends on the components and the
totals of the pages only. -/
theorem GetProjects_stops_at_page_total {σ : Type} (up : Upstream σ)
    (pages : Nat → ComponentsResponse) (hs : Serves up pages) (fuel : Nat) (w : World σ) :
    (∀ k, 1 ≤ k → k ≤ fuel → StopsAt pages k → (∀ j, 1 ≤ j → j < k → ¬ StopsAt pages j) →
        ∃ r, GetProjects up fuel w = some r ∧ r.1 = (pagesConcat pages k, none) ∧
          r.2.requests = w.requests ++ pageRequests k) ∧
      ((∀ j, 1 ≤ j → j ≤ fuel → ¬ StopsAt pages j) → GetProjects up fuel w = none) := by
  constructor
  · intro k hk1 hkf hk hno
    exact getProjects_serves up pages hs k hk1 hk hno fuel hkf w
  · intro hno
    exact getProjectsLoop_never up pages hs fuel 0 w
      (fun j hj1 hj2 => hno j (by omega) (by omega))

/-- C15, amended, on the pages whose second page reports the total 2: the second page is
the first whose own total is reached, and `GetProjects` returns the projects of the first
two pages after two requests. -/
theorem GetProjects_stops_at_page_total_witness :
    ∃ r, GetProjects (okPageServer (pagesWithSecondTotal 2)) 3 ⟨(), []⟩ = some r ∧
      r.1 = ([exampleProject 1, exampleProject 2], none) ∧
      r.2.requests = [.searchProjects 500 1, .searchProjects 500 2] :=
  (GetProjects_stops_at_page_total (okPageServer (pagesWithSecondTotal 2))
    (pagesWithSecondTotal 2) (okPageServer_serves _) 3 ⟨(), []⟩).1 2 (by decide) (by decide)
    (by decide) (by
      intro j hj1 hj2
      have : j = 1 := by omega
      subst this
      decide)

theorem pagesConcat_pagesOf (projects : List Component) (j : Nat) :
    pagesConcat (pagesOf projects) j = projects.take (j * 500) := by
  induction j with
  | zero => simp [pagesConcat]
  | succ j ih =>
    simp only [pagesConcat, ih, pagesOf, Nat.add_sub_cancel]
    rw [Nat.succ_mul, List.take_add]

theorem stopsAt_pagesOf (projects : List Component) (j : Nat) :
    StopsAt (pagesOf projects) j ↔ projects.length ≤ j * 500 := by
  unfold StopsAt
  rw [pagesConcat_pagesOf, List.length_take]
  simp only [pagesOf]
  omega

theorem pageRequests_eq (k : Nat) :
    pageRequests k = (List.range k).map (fun i => Request.searchProjects 500 (i + 1)) := by
  induction k with
  | zero => rfl
  | succ k ih => simp [pageRequests, ih, List.range_succ]

/-- C16: over an upstream that serves a list of `N` projects in consecutive pages of 500,
every page reporting the total `N`, `GetProjects` returns, as soon as it may send
`max 1 ⌈N / 500⌉` page requests, the `N` projects in their order and no error, after
exactly the requests for the pages `1, 2, ..., max 1 ⌈N / 500⌉`, in that order and with
page size 500. -/
theorem GetProjects_paginates {σ : Type} (up : Upstream σ) (projects : List Component)
    (hs : Serves up (pagesOf projects)) (fuel : Nat)
    (hfuel : max 1 ((projects.length + 499) / 500) ≤ fuel) (w : World σ) :
    ∃ r, GetProjects up fuel w = some r ∧ r.1 = (projects, none) ∧
      r.2.requests =
        w.requests ++ (List.range (max 1 ((projects.length + 499) / 500))).map
          (fun i => Request.searchProjects 500 (i + 1)) := by
  have hk1 : 1 ≤ max 1 ((projects.length + 499) / 500) := le_max_left _ _
  have hstop : StopsAt (pagesOf projects) (max 1 ((projects.length + 499) / 500)) := by
    rw [stopsAt_pagesOf]
    have : projects.length ≤ (projects.length + 499) / 500 * 500 := by omega
    have h2 : (projects.length + 499) / 500 ≤ max 1 ((projects.length + 499) / 500) :=
      le_max_right _ _
    calc projects.length ≤ (projects.length + 499) / 500 * 500 := this
      _ ≤ max 1 ((projects.length + 499) / 500) * 500 := Nat.mul_le_mul_right _ h2
  have hno : ∀ j, 1 ≤ j → j < max 1 ((projects.length + 499) / 500) →
      ¬ StopsAt (pagesOf projects) j := by
    intro j hj1 hj2
    rw [stopsAt_pagesOf]
    have hlt : j < (projects.length + 499) / 500 := by
      rcases max_cases 1 ((projects.length + 499) / 500) with ⟨h, _⟩ | ⟨h, _⟩
      · omega
      · omega
    omega
  obtain ⟨r, h1, h2, h3⟩ := getProjects_serves up (pagesOf projects) hs _ hk1 hstop hno fuel
    hfuel w
  refine ⟨r, h1, ?_, ?_⟩
  · rw [h2, pagesConcat_pagesOf, List.take_of_length_le]
    exact (stopsAt_pagesOf projects _).1 hstop
  · rw [h3, pageRequests_eq]

/-- C16 on the two projects of `TestGetProjects_Success`: one request, for page 1, and the
two projects are returned. -/
theorem GetProjects_paginates_witness :
    ∃ r, GetProjects (okPageServer (pagesOf [exampleProject 1, exampleProject 2])) 1
        ⟨(), []⟩ = some r ∧
      r.1 = ([exampleProject 1, exampleProject 2], none) ∧
      r.2.requests = [.searchProjects 500 1] :=
  GetProjects_paginates (okPageServer (pagesOf [exampleProject 1, exampleProject 2]))
    [exampleProject 1, exampleProject 2] (okPageServer_serves _) 1 (by decide) ⟨(), []⟩

theorem exchange_fst {σ α : Type} (req : Request) (r : HttpResult α × σ) (w : World σ) :
    (exchange req r w).1 = r.1 := by
  unfold exchange
  cases r.1 <;> rfl

theorem checkResponse_ok_iff {α : Type} (fetching decoding : String) (res : HttpResult α)
    (a : α) :
    checkResponse fetching decoding res = .ok a ↔
      ∃ body, res = .response 200 body (.ok a) := by
  cases res with
  | requestError err => simp [checkResponse]
  | transportError err => simp [checkResponse]
  | response code body decoded =>
    by_cases hc : code = 200
    · subst hc
      cases decoded with
      | error err => simp [checkResponse]
      | ok b => simp [checkResponse]
    · simp [checkResponse, hc]

theorem getProjectsLoop_page_error {σ : Type} (up : Upstream σ) (fuel : Nat)
    (acc : List Component) (p : Nat) (w : World σ) (err : String)
    (h : checkResponse "projects" "components" (up.searchProjects 500 p w.upstream).1 =
      .error err) :
    getProjectsLoop up (fuel + 1) acc p w =
      some (([], some err),
        (exchange (.searchProjects 500 p) (up.searchProjects 500 p w.upstream) w).2) := by
  have h' : checkResponse "projects" "components"
      (exchange (.searchProjects 500 p) (up.searchProjects 500 p w.upstream) w).1 =
      .error err := by rw [exchange_fst, h]
  simp only [getProjectsLoop, h']

theorem getProjectsLoop_error_nil {σ : Type} (up : Upstream σ) :
    ∀ (fuel : Nat) (acc : List Component) (p : Nat) (w : World σ)
      (r : (List Component × Option String) × World σ),
      getProjectsLoop up fuel acc p w = some r → r.1.2 ≠ none → r.1.1 = [] := by
  intro fuel
  induction fuel with
  | zero =>
    intro acc p w r h
    simp [getProjectsLoop] at h
  | succ f ih =>
    intro acc p w r h hne
    rcases hc : checkResponse "projects" "components"
      (exchange (.searchProjects 500 p) (up.searchProjects 500 p w.upstream) w).1 with
      err | resp
    · simp only [getProjectsLoop, hc, Option.some.injEq] at h
      rw [← h]
    · simp only [getProjectsLoop, hc] at h
      by_cases hstop : resp.Paging.Total ≤ ((acc ++ resp.Components).length : Int)
      · rw [if_pos hstop] at h
        have := Option.some.inj h
        rw [← this] at hne
        exact absurd rfl hne
      · rw [if_neg hstop] at h
        exact ih _ _ _ r h hne

theorem getProjectsLoop_fails {σ : Type} (up : Upstream σ) (pages : Nat → ComponentsResponse)
    (k : Nat) (hs : ServesBelow up pages k) (hf : FailsAt up k) :
    ∀ (d i fuel : Nat) (w : World σ), i + d + 1 = k →
      (∀ j, i < j → j < k → ¬ StopsAt pages j) → d + 1 ≤ fuel →
      ∃ r err, getProjectsLoop up fuel (pagesConcat pages i) (i + 1) w = some r ∧
        r.1 = ([], some err) := by
  intro d
  induction d with
  | zero =>
    intro i fuel w hik _ hfuel
    obtain ⟨f, rfl⟩ : ∃ f, fuel = f + 1 := ⟨fuel - 1, by omega⟩
    have hk' : i + 1 = k := by omega
    subst hk'
    obtain ⟨err, herr⟩ := hf w.upstream
    exact ⟨_, err, getProjectsLoop_page_error up f _ (i + 1) w err herr, rfl⟩
  | succ d ih =>
    intro i fuel w hik hno hfuel
    obtain ⟨f, rfl⟩ : ∃ f, fuel = f + 1 := ⟨fuel - 1, by omega⟩
    obtain ⟨body, s', hpage⟩ := hs (i + 1) w.upstream (by omega) (by omega)
    rw [getProjectsLoop_page_ok up f _ (i + 1) w body s' _ hpage]
    have hnstop : ¬ (pages (i + 1)).Paging.Total ≤
        ((pagesConcat pages i ++ (pages (i + 1)).Components).length : Int) :=
      hno (i + 1) (by omega) (by omega)
    rw [if_neg hnstop]
    exact ih (i + 1) f _ (by omega) (fun j hj1 hj2 => hno j (by omega) hj2) (by omega)

/-- C17: whenever `GetProjects` returns an error, the project list it returns with it is
empty. A page request that fails (the request cannot be made, the transport fails, the
status is not 200, or the body does not decode) ends the loop at once with the error and an
empty list, whatever was accumulated; so when the pages before page `k` are served and do
not end the loop and the request for page `k` fails, `GetProjects` returns an error and an
empty list as soon as it may send `k` page requests. -/
theorem GetProjects_error_returns_nil {σ : Type} (up : Upstream σ) (fuel : Nat) (w : World σ) :
    (∀ r, GetProjects up fuel w = some r → r.1.2 ≠ none → r.1.1 = []) ∧
      (∀ (acc : List Component) (p : Nat) (w' : World σ) (err : String),
        checkResponse "projects" "components" (up.searchProjects 500 p w'.upstream).1 =
          .error err →
        getProjectsLoop up (fuel + 1) acc p w' =
          some (([], some err),
            (exchange (.searchProjects 500 p) (up.searchProjects 500 p w'.upstream) w').2)) ∧
      (∀ (res : HttpResult ComponentsResponse),
        (∃ err, checkResponse "projects" "components" res = .error err) ↔
          ¬ ∃ body resp, res = .response 200 body (.ok resp)) ∧
      (∀ (pages : Nat → ComponentsResponse) (k : Nat), 1 ≤ k → k ≤ fuel →
        ServesBelow up pages k → FailsAt up k →
        (∀ j, 1 ≤ j → j < k → ¬ StopsAt pages j) →
        ∃ r err, GetProjects up fuel w = some r ∧ r.1 = ([], some err)) := by
  refine ⟨?_, ?_, ?_, ?_⟩
  · intro r h hne
    exact getProjectsLoop_error_nil up fuel [] 1 w r h hne
  · intro acc p w' err h
    exact getProjectsLoop_page_error up fuel acc p w' err h
  · intro res
    constructor
    · rintro ⟨err, herr⟩ ⟨body, resp, hres⟩
      rw [(checkResponse_ok_iff "projects" "components" res resp).2 ⟨body, hres⟩] at herr
      exact absurd herr (by simp)
    · intro hno
      rcases hc : checkResponse "projects" "components" res with err | resp
      · exact ⟨err, rfl⟩
      · obtain ⟨body, hres⟩ := (checkResponse_ok_iff "projects" "components" res resp).1 hc
        exact absurd ⟨body, resp, hres⟩ hno
  · intro pages k hk1 hkf hs hf hno
    exact getProjectsLoop_fails up pages k hs hf (k - 1) 0 fuel w (by omega)
      (fun j hj1 hj2 => hno j hj1 hj2) (by omega)

/-- C17 on an upstream whose first page is served with one project of three and whose
second page request is answered with status 500: `GetProjects` returns an error and an
empty list, not the project of the first page. -/
theorem GetProjects_error_returns_nil_witness :
    ∃ r err, GetProjects failingSecondPage 5 ⟨(), []⟩ = some r ∧ r.1 = ([], some err) :=
  (GetProjects_error_returns_nil failingSecondPage 5 ⟨(), []⟩).2.2.2
    (pagesWithSecondTotal 3) 2 (by decide) (by decide)
    (by
      intro p s h1 h2
      have : p = 1 := by omega
      subst this
      exact ⟨"", (), rfl⟩)
    (fun _ => ⟨_, rfl⟩)
    (by
      intro j hj1 hj2
      have : j = 1 := by omega
      subst this
      decide)

theorem getProjectMeasures_nil {σ : Type} (up : Upstream σ) (projectKey : String)
    (w : World σ) : GetProjectMeasures up projectKey [] w = (([], none), w) := rfl

theorem sonarClient_measures_nil {σ : Type} (up : Upstream σ) (fuel : Nat)
    (projectKey : String) (w : World σ) :
    (sonarClient up fuel).GetProjectMeasures projectKey [] w = (.ok [], w) := rfl

theorem collectProjects_no_keys {σ : Type} (lo : Char → Char) (up : Upstream σ) (fuel : Nat)
    (metrics : List Metric) (ps : List Component) (st : CollectState) (w : World σ) :
    ps.foldl (collectProject lo (sonarClient up fuel) [] metrics) (st, w) =
      ({ st with ch := st.ch ++ ps.map (identitySample st.c) }, w) := by
  induction ps generalizing st with
  | nil => simp
  | cons p ps ih =>
    rw [List.foldl_cons,
      collectProject_of_ok lo (sonarClient up fuel) [] metrics st w p []
        (by rw [sonarClient_measures_nil]),
      sonarClient_measures_nil, List.foldl_nil, ih]
    simp only [List.map_cons, List.append_assoc, List.singleton_append]

/-- C18: for every project key, `GetProjectMeasures` called with an empty list of metric
keys returns an empty list of measures and no error, and leaves the world as it was: no
request is sent. Consequently a cycle whose catalog has no numeric metric sends exactly the
identity samples of the projects, one per project and in their order, logs nothing, leaves
the collector as it was, and sends no request after the ones of the project list. -/
theorem GetProjectMeasures_no_keys {σ : Type} (up : Upstream σ) :
    (∀ (projectKey : String) (w : World σ),
      GetProjectMeasures up projectKey [] w = (([], none), w)) ∧
    (∀ (caseTable : Char → Char) (fuel : Nat) (c : Collector) (w w1 w2 : World σ)
      (metrics : List Metric) (projects : List Component),
      GetMetrics up w = ((metrics, none), w1) →
      GetProjects up fuel w1 = some ((projects, none), w2) →
      getNumericMetricKeys metrics = [] →
      CollectHttp caseTable up fuel c w =
        some (⟨c, projects.map (identitySample c), []⟩, w2)) := by
  refine ⟨fun projectKey w => rfl, ?_⟩
  intro caseTable fuel c w w1 w2 metrics projects hm hp hk
  have hm1 : ((sonarClient up fuel).GetMetrics w).1 = .ok metrics := by
    simp only [sonarClient, hm, toExcept]
  have hm2 : ((sonarClient up fuel).GetMetrics w).2 = w1 := by
    simp only [sonarClient, hm]
  have hp1 : ((sonarClient up fuel).GetProjects w1).1 = .ok projects := by
    simp only [sonarClient, hp, toExcept]
  have hp2 : ((sonarClient up fuel).GetProjects w1).2 = w2 := by
    simp only [sonarClient, hp]
  have hc : Collect caseTable (sonarClient up fuel) c w =
      (⟨c, projects.map (identitySample c), []⟩, w2) := by
    rw [Collect_ok caseTable (sonarClient up fuel) c w metrics projects hm1 (by rw [hm2, hp1]),
      hm2, hp2, hk, collectProjects_no_keys]
    simp
  simp only [CollectHttp, hm, hp, hc]

/-- C18 in scenario E: the catalog has no numeric metric and there are two projects; the
cycle sends the two identity samples and its requests are the catalog request and one page
request, none for measures. -/
theorem GetProjectMeasures_no_keys_witness :
    CollectHttp id scenarioE 1 NewCollector ⟨(), []⟩ =
      some (⟨NewCollector,
          [identitySample NewCollector (exampleProject 1),
            identitySample NewCollector (exampleProject 2)], []⟩,
        ⟨(), [.metricsSearch 500, .searchProjects 500 1]⟩) :=
  (GetProjectMeasures_no_keys scenarioE).2 id 1 NewCollector ⟨(), []⟩ _ _ _
    [exampleProject 1, exampleProject 2] rfl rfl rfl

theorem sanitizeMetricName_data (T : Char → Char) (key : String) :
    (sanitizeMetricName T key).data =
      key.data.map (fun c => unicodeToLower T (replaceDashDot c)) := by
  simp only [sanitizeMetricName, replaceAll, toLower, List.map_map]
  rfl

theorem sanitizeReference_data (T : Char → Char) (key : String) :
    (sanitizeReference T key).data =
      key.data.map (fun c => replaceDashDot (unicodeToLower T c)) := by
  simp only [sanitizeReference, replaceAll, toLower, List.map_map]
  rfl

theorem unicodeToLower_ascii (T : Char → Char) (r : Char) (h : r.toNat ≤ 127) :
    unicodeToLower T r = asciiLower r := by
  simp only [unicodeToLower, if_pos h, asciiLower]
  rfl

theorem unicodeToLower_not_ascii (T : Char → Char) (r : Char) (h : 127 < r.toNat) :
    unicodeToLower T r = T r := by
  simp only [unicodeToLower, if_neg (Nat.not_le.2 h)]

theorem asciiLower_of_not_upper (c : Char) (h : ¬ ('A' ≤ c ∧ c ≤ 'Z')) :
    asciiLower c = c := by
  simp only [asciiLower, if_neg h]

theorem ascii_table :
    ∀ n : Fin 128,
      (replaceDashDot (Char.ofNat n)).toNat ≤ 127 ∧
      (asciiLower (Char.ofNat n)).toNat ≤ 127 ∧
      (asciiLower (replaceDashDot (Char.ofNat n))).toNat ≤ 127 ∧
      asciiLower (replaceDashDot (Char.ofNat n)) ≠ '-' ∧
      asciiLower (replaceDashDot (Char.ofNat n)) ≠ '.' ∧
      ¬ ('A' ≤ asciiLower (replaceDashDot (Char.ofNat n)) ∧
        asciiLower (replaceDashDot (Char.ofNat n)) ≤ 'Z') ∧
      asciiLower (replaceDashDot (Char.ofNat n)) =
        replaceDashDot (asciiLower (Char.ofNat n)) := by
  decide

theorem replaceDashDot_not_ascii (r : Char) (h : 127 < r.toNat) : replaceDashDot r = r := by
  have h1 : r ≠ '-' := by
    intro e
    rw [e] at h
    exact absurd h (by decide)
  have h2 : r ≠ '.' := by
    intro e
    rw [e] at h
    exact absurd h (by decide)
  simp only [replaceDashDot, if_neg h1, if_neg h2]

theorem replaceDashDot_fixed (c : Char) (h1 : c ≠ '-') (h2 : c ≠ '.') :
    replaceDashDot c = c := by
  simp only [replaceDashDot, if_neg h1, if_neg h2]

theorem not_upper_of_fixed (T : Char → Char) (c : Char) (h : unicodeToLower T c = c) :
    ¬ ('A' ≤ c ∧ c ≤ 'Z') := by
  intro hu
  have h127 : c.toNat ≤ 127 := by
    have : c.toNat ≤ 'Z'.toNat := hu.2
    exact le_trans this (by decide)
  rw [unicodeToLower_ascii T c h127] at h
  have key := (ascii_table ⟨c.toNat, by omega⟩).2.2.2.2.2.1
  simp only [Char.ofNat_toNat] at key
  have hd : replaceDashDot c = c := by
    apply replaceDashDot_fixed
    · intro e
      rw [e] at hu
      exact absurd hu (by decide)
    · intro e
      rw [e] at hu
      exact absurd hu (by decide)
  rw [hd, h] at key
  exact key hu

/-- The character-level facts behind the sanitization claims: the sanitized form of a rune
is not `-`, not `.`, is its own lower-case form, and is the same in the two orders. -/
theorem sanitize_rune (T : Char → Char) (hT : CaseTableOK T) (c : Char) :
    unicodeToLower T (replaceDashDot c) ≠ '-' ∧
      unicodeToLower T (replaceDashDot c) ≠ '.' ∧
      unicodeToLower T (unicodeToLower T (replaceDashDot c)) =
        unicodeToLower T (replaceDashDot c) ∧
      unicodeToLower T (replaceDashDot c) = replaceDashDot (unicodeToLower T c) := by
  by_cases h : c.toNat ≤ 127
  · obtain ⟨k1, k2, k3, k4, k5, k6, k7⟩ := ascii_table ⟨c.toNat, by omega⟩
    simp only [Char.ofNat_toNat] at k1 k2 k3 k4 k5 k6 k7
    rw [unicodeToLower_ascii T _ k1, unicodeToLower_ascii T c h,
      unicodeToLower_ascii T _ k3]
    exact ⟨k4, k5, asciiLower_of_not_upper _ k6, k7⟩
  · have h' : 127 < c.toNat := Nat.lt_of_not_le h
    obtain ⟨t1, t2, t3⟩ := hT c h'
    rw [replaceDashDot_not_ascii c h', unicodeToLower_not_ascii T c h',
      replaceDashDot_fixed _ t2 t3]
    exact ⟨t2, t3, t1, rfl⟩

theorem sanitize_rune_fixed (T : Char → Char) (hT : CaseTableOK T) (c : Char) :
    unicodeToLower T (replaceDashDot (unicodeToLower T (replaceDashDot c))) =
      unicodeToLower T (replaceDashDot c) := by
  obtain ⟨h1, h2, h3, _⟩ := sanitize_rune T hT c
  rw [replaceDashDot_fixed _ h1 h2, h3]

theorem exampleCaseTable_ok : CaseTableOK exampleCaseTable := by
  intro r hr
  by_cases h1 : r = '\u00C9'
  · rw [h1]
    exact ⟨by decide, by decide, by decide⟩
  · by_cases h2 : r = '\u212A'
    · rw [h2]
      exact ⟨by decide, by decide, by decide⟩
    · have e : exampleCaseTable r = r := by
        simp only [exampleCaseTable, if_neg h1, if_neg h2]
      rw [e, unicodeToLower_not_ascii _ r hr, e]
      refine ⟨rfl, ?_, ?_⟩
      · intro e
        rw [e] at hr
        exact absurd hr (by decide)
      · intro e
        rw [e] at hr
        exact absurd hr (by decide)

/-- C12: `sanitizeMetricName` is idempotent, for every string, whenever the case tables of
the runtime map every rune above the ASCII range to a rune that is its own lower-case form
and is neither `-` nor `.`. -/
theorem sanitizeMetricName_idempotent (caseTable : Char → Char) (hT : CaseTableOK caseTable)
    (x : String) :
    sanitizeMetricName caseTable (sanitizeMetricName caseTable x) =
      sanitizeMetricName caseTable x := by
  have h : (sanitizeMetricName caseTable (sanitizeMetricName caseTable x)).data =
      (sanitizeMetricName caseTable x).data := by
    rw [sanitizeMetricName_data caseTable (sanitizeMetricName caseTable x),
      sanitizeMetricName_data caseTable x, List.map_map]
    apply List.map_congr_left
    intro c _
    rw [Function.comp_apply]
    exact sanitize_rune_fixed caseTable hT c
  exact String.ext h

/-- C12 on a key with capitals, `-`, `.`, a capital above the ASCII range and the Kelvin
sign, whose lower-case form is the ASCII letter `k`. -/
theorem sanitizeMetricName_idempotent_witness :
    CaseTableOK exampleCaseTable ∧
      sanitizeMetricName exampleCaseTable "CXX-\u00C9t\u00E9.\u212A" = "cxx_\u00E9t\u00E9_k" ∧
      sanitizeMetricName exampleCaseTable
          (sanitizeMetricName exampleCaseTable "CXX-\u00C9t\u00E9.\u212A") =
        sanitizeMetricName exampleCaseTable "CXX-\u00C9t\u00E9.\u212A" :=
  ⟨exampleCaseTable_ok, rfl,
    sanitizeMetricName_idempotent exampleCaseTable exampleCaseTable_ok
      "CXX-\u00C9t\u00E9.\u212A"⟩

/-- C13: for every key, `sanitizeMetricName`, which replaces first and lower-cases last,
returns what lower-casing first and replacing every `-` and every `.` with `_` afterwards
returns, whenever the case tables of the runtime map every rune above the ASCII range to a
rune that is its own lower-case form and is neither `-` nor `.`. The result then holds no
`-`, no `.` and no upper-case ASCII letter. `CXX-public_api` becomes `cxx_public_api` and
`sqale.index` becomes `sqale_index`. -/
theorem sanitizeMetricName_eq_reference (caseTable : Char → Char)
    (hT : CaseTableOK caseTable) (key : String) :
    sanitizeMetricName caseTable key = sanitizeReference caseTable key ∧
      (∀ c ∈ (sanitizeMetricName caseTable key).data,
        c ≠ '-' ∧ c ≠ '.' ∧ ¬ ('A' ≤ c ∧ c ≤ 'Z')) ∧
      sanitizeMetricName caseTable "CXX-public_api" = "cxx_public_api" ∧
      sanitizeMetricName caseTable "sqale.index" = "sqale_index" := by
  refine ⟨?_, ?_, rfl, rfl⟩
  · have h : (sanitizeMetricName caseTable key).data = (sanitizeReference caseTable key).data := by
      rw [sanitizeMetricName_data, sanitizeReference_data]
      apply List.map_congr_left
      intro c _
      exact (sanitize_rune caseTable hT c).2.2.2
    exact String.ext h
  · intro c hc
    rw [sanitizeMetricName_data, List.mem_map] at hc
    obtain ⟨a, _, rfl⟩ := hc
    obtain ⟨h1, h2, h3, _⟩ := sanitize_rune caseTable hT a
    exact ⟨h1, h2, not_upper_of_fixed caseTable _ h3⟩

/-- C13 on a key with capitals, `-`, `.`, a capital above the ASCII range and the Kelvin
sign: the two orders give the same name. -/
theorem sanitizeMetricName_eq_reference_witness :
    CaseTableOK exampleCaseTable ∧
      sanitizeMetricName exampleCaseTable "Sqale.Index-\u00C9\u212A" =
        sanitizeReference exampleCaseTable "Sqale.Index-\u00C9\u212A" ∧
      sanitizeReference exampleCaseTable "Sqale.Index-\u00C9\u212A" = "sqale_index_\u00E9k" :=
  ⟨exampleCaseTable_ok,
    (sanitizeMetricName_eq_reference exampleCaseTable exampleCaseTable_ok
      "Sqale.Index-\u00C9\u212A").1, rfl⟩

/-- C14 fails on the key `code smells`: `sanitizeMetricName` returns it unchanged, and
neither the result nor the exposed name `sonarqube_code smells` matches
`[a-zA-Z_:][a-zA-Z0-9_:]*`, because of the space. The empty key is returned unchanged too,
and the empty string is no metric name. -/
theorem sanitizeMetricName_invalid_name (caseTable : Char → Char) :
    sanitizeMetricName caseTable "code smells" = "code smells" ∧
      IsValidMetricName (sanitizeMetricName caseTable "code smells") = false ∧
      IsValidMetricName ("sonarqube_" ++ sanitizeMetricName caseTable "code smells") = false ∧
      IsValidMetricName (sanitizeMetricName caseTable "") = false ∧
      IsValidMetricName "sonarqube_code_smells" = true :=
  ⟨rfl, (by decide : IsValidMetricName "code smells" = false),
    (by decide : IsValidMetricName ("sonarqube_" ++ "code smells") = false),
    (by decide : IsValidMetricName "" = false), by decide⟩

theorem getOrCreate_has (lo : Char → Char) (c : Collector) (d : Metric) (k : String) :
    ((getOrCreateMetricDesc lo c d).2.metricDescs.get k).isSome ↔
      (c.metricDescs.get k).isSome ∨ d.Key = k := by
  by_cases hk : k = d.Key
  · subst hk
    rw [getOrCreate_get]
    simp
  · rw [getOrCreate_get_ne lo c d k hk]
    constructor
    · exact fun h => Or.inl h
    · rintro (h | h)
      · exact h
      · exact absurd h.symm hk

theorem exportMeasure_has (lo : Char → Char) (st : CollectState) (pk pn : String)
    (m : Measure) (metrics : List Metric) (k : String) :
    ((exportMeasure lo st pk pn m metrics).c.metricDescs.get k).isSome ↔
      (st.c.metricDescs.get k).isSome ∨ (exportable metrics m = true ∧ m.Metric = k) := by
  rcases hf : findMetricDef metrics m.Metric with _ | d
  · rw [exportMeasure_of_not_found lo st pk pn m metrics hf]
    simp [exportable, hf]
  · have hd := findMetricDef_some metrics _ d hf
    rcases hp : (parseMetricValue m.Value d.Typ).2 with _ | e
    · rw [exportMeasure_of_parsed lo st pk pn m metrics d hf hp]
      simp only [getOrCreate_has, exportable, hf, hp, Option.isNone_none, true_and, hd.2]
    · rw [exportMeasure_of_parse_error lo st pk pn m metrics d e hf hp]
      simp [exportable, hf, hp]

theorem exportMeasure_emits (lo : Char → Char) (st : CollectState) (pk pn : String)
    (m : Measure) (metrics : List Metric) :
    (exportMeasure lo st pk pn m metrics).ch.length =
      st.ch.length + (if exportable metrics m = true then 1 else 0) := by
  rcases hf : findMetricDef metrics m.Metric with _ | d
  · rw [exportMeasure_of_not_found lo st pk pn m metrics hf]
    simp [exportable, hf]
  · rcases hp : (parseMetricValue m.Value d.Typ).2 with _ | e
    · rw [exportMeasure_of_parsed lo st pk pn m metrics d hf hp]
      simp [exportable, hf, hp]
    · rw [exportMeasure_of_parse_error lo st pk pn m metrics d e hf hp]
      simp [exportable, hf, hp]

theorem exportMeasures_has (lo : Char → Char) (pk pn : String) (metrics : List Metric)
    (k : String) (ms : List Measure) (st : CollectState) :
    (((ms.foldl (fun st m => exportMeasure lo st pk pn m metrics) st).c.metricDescs.get
        k).isSome) ↔
      (st.c.metricDescs.get k).isSome ∨
        k ∈ (ms.filter (exportable metrics)).map (fun m => m.Metric) := by
  induction ms generalizing st with
  | nil => simp
  | cons m ms ih =>
    rw [List.foldl_cons, ih, exportMeasure_has]
    by_cases he : exportable metrics m = true
    · simp only [he, true_and, List.filter_cons_of_pos, List.map_cons, List.mem_cons]
      constructor
      · rintro ((h | h) | h)
        · exact Or.inl h
        · exact Or.inr (Or.inl h.symm)
        · exact Or.inr (Or.inr h)
      · rintro (h | h | h)
        · exact Or.inl (Or.inl h)
        · exact Or.inl (Or.inr h.symm)
        · exact Or.inr h
    · have hf : exportable metrics m = false := by simpa using he
      rw [List.filter_cons_of_neg he]
      simp [hf]

theorem collectProject_has {σ : Type} (lo : Char → Char) (client : Client σ)
    (keys : List String) (metrics : List Metric) (st : CollectState) (w : σ) (p : Component)
    (k : String) :
    (((collectProject lo client keys metrics (st, w) p).1.c.metricDescs.get k).isSome ↔
      (st.c.metricDescs.get k).isSome ∨
        k ∈ ((returnedMeasures (client.GetProjectMeasures p.Key keys w).1).filter
          (exportable metrics)).map (fun m => m.Metric)) ∧
      (collectProject lo client keys metrics (st, w) p).2 =
        (client.GetProjectMeasures p.Key keys w).2 := by
  rcases hr : (client.GetProjectMeasures p.Key keys w).1 with e | ms
  · rw [collectProject_of_error lo client keys metrics st w p e hr]
    simp [returnedMeasures]
  · rw [collectProject_of_ok lo client keys metrics st w p ms hr, exportMeasures_has]
    simp [returnedMeasures]

theorem collectProjects_has {σ : Type} (lo : Char → Char) (client : Client σ)
    (keys : List String) (metrics : List Metric) (k : String) (ps : List Component)
    (st : CollectState) (w : σ) :
    ((ps.foldl (collectProject lo client keys metrics) (st, w)).1.c.metricDescs.get k).isSome ↔
      (st.c.metricDescs.get k).isSome ∨
        k ∈ emittedKeysOf metrics (measureResponses client keys ps w) := by
  induction ps generalizing st w with
  | nil => simp [measureResponses, emittedKeysOf]
  | cons p ps ih =>
    obtain ⟨h1, h2⟩ := collectProject_has lo client keys metrics st w p k
    have hsplit : collectProject lo client keys metrics (st, w) p =
        ((collectProject lo client keys metrics (st, w) p).1,
          (client.GetProjectMeasures p.Key keys w).2) := Prod.ext rfl h2
    rw [List.foldl_cons, hsplit, ih, h1]
    simp only [measureResponses, emittedKeysOf, List.mem_append, or_assoc]

theorem Collect_has {σ : Type} (lo : Char → Char) (client : Client σ) (c : Collector) (w : σ)
    (k : String) :
    ((Collect lo client c w).1.c.metricDescs.get k).isSome ↔
      (c.metricDescs.get k).isSome ∨ k ∈ cycleKeys client w := by
  rcases hm : (client.GetMetrics w).1 with e | metrics
  · simp [Collect, cycleKeys, hm]
  · rcases hp : (client.GetProjects (client.GetMetrics w).2).1 with e | projects
    · simp [Collect, cycleKeys, hm, hp]
    · rw [Collect_ok lo client c w metrics projects hm hp, collectProjects_has]
      simp only [cycleKeys, hm, hp]

theorem runCycles_has {σ : Type} (lo : Char → Char) (client : Client σ) (k : String)
    (ws : List σ) (c : Collector) :
    ((runCycles lo client c ws).metricDescs.get k).isSome ↔
      (c.metricDescs.get k).isSome ∨ k ∈ emittedKeys client ws := by
  induction ws generalizing c with
  | nil => simp [runCycles, emittedKeys]
  | cons w ws ih =>
    rw [runCycles, ih, Collect_has]
    simp only [emittedKeys, List.mem_append, or_assoc]

/-- After two cycles of scenario A the cache holds `bugs` and `coverage`, once each; every
cycle sent a sample for each of the two keys for each of the two projects. -/
theorem runCycles_scenarioA :
    (runCycles id scenarioA NewCollector [(), ()]).metricDescs.map (fun e => e.1) =
        ["bugs", "coverage"] ∧
      emittedKeys scenarioA [(), ()] =
        ["bugs", "coverage", "bugs", "coverage", "bugs", "coverage", "bugs", "coverage"] := by
  decide

theorem mustNewConstMetricChecked_some (V : String → Bool) (desc : Desc) (value : Float64)
    (labelValues : List String) (s : Sample)
    (h : MustNewConstMetricChecked V desc value labelValues = some s) :
    s = MustNewConstMetric desc value labelValues := by
  unfold MustNewConstMetricChecked at h
  split_ifs at h
  exact (Option.some.inj h).symm

theorem mustNewConstMetricChecked_ok (V : String → Bool) (desc : Desc) (value : Float64)
    (labelValues : List String) (h1 : V desc.fqName = true)
    (h2 : labelValues.length = desc.variableLabels.length) :
    MustNewConstMetricChecked V desc value labelValues =
      some (MustNewConstMetric desc value labelValues) := by
  unfold MustNewConstMetricChecked
  rw [if_pos ⟨h1, h2⟩]

theorem exportMeasureChecked_some (V : String → Bool) (lo : Char → Char) (st st' : CollectState)
    (pk pn : String) (m : Measure) (metrics : List Metric)
    (h : exportMeasureChecked V lo st pk pn m metrics = some st') :
    st' = exportMeasure lo st pk pn m metrics := by
  rcases hf : findMetricDef metrics m.Metric with _ | d
  · simp only [exportMeasureChecked, hf, Option.some.injEq] at h
    rw [exportMeasure_of_not_found lo st pk pn m metrics hf, h]
  · rcases hp : (parseMetricValue m.Value d.Typ).2 with _ | e
    · rcases hs : MustNewConstMetricChecked V (getOrCreateMetricDesc lo st.c d).1
        (parseMetricValue m.Value d.Typ).1 [pk, pn] with _ | s
      · simp only [exportMeasureChecked, hf, hp, hs] at h
        exact absurd h (by simp)
      · simp only [exportMeasureChecked, hf, hp, hs, Option.some.injEq] at h
        rw [exportMeasure_of_parsed lo st pk pn m metrics d hf hp, ← h,
          mustNewConstMetricChecked_some V _ _ _ s hs]
        rfl
    · simp only [exportMeasureChecked, hf, hp, Option.some.injEq] at h
      rw [exportMeasure_of_parse_error lo st pk pn m metrics d e hf hp, h]

theorem exportMeasuresChecked_some (V : String → Bool) (lo : Char → Char) (pk pn : String)
    (metrics : List Metric) (ms : List Measure) (st st' : CollectState)
    (h : exportMeasuresChecked V lo pk pn metrics ms st = some st') :
    st' = ms.foldl (fun st m => exportMeasure lo st pk pn m metrics) st := by
  induction ms generalizing st with
  | nil =>
    simp only [exportMeasuresChecked, Option.some.injEq] at h
    rw [List.foldl_nil, h]
  | cons m ms ih =>
    rcases h1 : exportMeasureChecked V lo st pk pn m metrics with _ | st1
    · simp only [exportMeasuresChecked, h1] at h
      exact absurd h (by simp)
    · simp only [exportMeasuresChecked, h1] at h
      rw [List.foldl_cons, ← exportMeasureChecked_some V lo st st1 pk pn m metrics h1]
      exact ih st1 h

theorem collectProjectChecked_some {σ : Type} (V : String → Bool) (lo : Char → Char)
    (client : Client σ) (keys : List String) (metrics : List Metric)
    (acc acc' : CollectState × σ) (p : Component)
    (h : collectProjectChecked V lo client keys metrics acc p = some acc') :
    acc' = collectProject lo client keys metrics acc p := by
  rcases hs : MustNewConstMetricChecked V acc.1.c.projectInfo Float64.one
    [p.Key, p.Name, p.Qualifier, p.Visibility] with _ | s
  · simp only [collectProjectChecked, hs] at h
    exact absurd h (by simp)
  · have es := mustNewConstMetricChecked_some V _ _ _ s hs
    rcases hr : (client.GetProjectMeasures p.Key keys acc.2).1 with e | ms
    · simp only [collectProjectChecked, hs, hr, Option.some.injEq] at h
      simp only [collectProject, hr, ← h, es]
    · rcases hm : exportMeasuresChecked V lo p.Key p.Name metrics ms
        { acc.1 with ch := acc.1.ch ++ [s] } with _ | st1
      · simp only [collectProjectChecked, hs, hr, hm] at h
        exact absurd h (by simp)
      · simp only [collectProjectChecked, hs, hr, hm, Option.some.injEq] at h
        have := exportMeasuresChecked_some V lo p.Key p.Name metrics ms _ st1 hm
        simp only [collectProject, hr, ← h, this, es]

theorem collectProjectsChecked_some {σ : Type} (V : String → Bool) (lo : Char → Char)
    (client : Client σ) (keys : List String) (metrics : List Metric) (ps : List Component)
    (acc acc' : CollectState × σ)
    (h : collectProjectsChecked V lo client keys metrics ps acc = some acc') :
    acc' = ps.foldl (collectProject lo client keys metrics) acc := by
  induction ps generalizing acc with
  | nil =>
    simp only [collectProjectsChecked, Option.some.injEq] at h
    rw [List.foldl_nil, h]
  | cons p ps ih =>
    rcases h1 : collectProjectChecked V lo client keys metrics acc p with _ | acc1
    · simp only [collectProjectsChecked, h1] at h
      exact absurd h (by simp)
    · simp only [collectProjectsChecked, h1] at h
      rw [List.foldl_cons, ← collectProjectChecked_some V lo client keys metrics acc acc1 p h1]
      exact ih acc1 h

/-- A cycle in which no sample constructor panics is the cycle `Collect` describes. -/
theorem CollectChecked_some {σ : Type} (V : String → Bool) (lo : Char → Char)
    (client : Client σ) (c : Collector) (w : σ) (r : CollectState × σ)
    (h : CollectChecked V lo client c w = some r) : r = Collect lo client c w := by
  rcases hm : (client.GetMetrics w).1 with e | metrics
  · simp only [CollectChecked, hm, Option.some.injEq] at h
    simp only [Collect, hm, h]
  · rcases hp : (client.GetProjects (client.GetMetrics w).2).1 with e | projects
    · simp only [CollectChecked, hm, hp, Option.some.injEq] at h
      simp only [Collect, hm, hp, h]
    · simp only [CollectChecked, hm, hp] at h
      rw [Collect_ok lo client c w metrics projects hm hp]
      exact collectProjectsChecked_some V lo client _ metrics projects _ r h

theorem newCollector_ok (V : String → Bool) (hV : AcceptsPrefixed V) :
    CollectorOK V NewCollector := by
  refine ⟨⟨hV "project_info", rfl⟩, ?_⟩
  intro k d h
  simp [NewCollector, GoMap.get] at h

theorem getOrCreate_ok (V : String → Bool) (hV : AcceptsPrefixed V) (lo : Char → Char)
    (c : Collector) (m : Metric) (hc : CollectorOK V c) :
    (V (getOrCreateMetricDesc lo c m).1.fqName = true ∧
        (getOrCreateMetricDesc lo c m).1.variableLabels.length = 2) ∧
      CollectorOK V (getOrCreateMetricDesc lo c m).2 := by
  rcases h : c.metricDescs.get m.Key with _ | d
  · have hnew : (getOrCreateMetricDesc lo c m).1 =
        NewDesc ("sonarqube_" ++ sanitizeMetricName lo m.Key) m.Description
          ["project_key", "project_name"] [("domain", m.Domain)] := by
      simp [getOrCreateMetricDesc, h]
    have hd : V (getOrCreateMetricDesc lo c m).1.fqName = true ∧
        (getOrCreateMetricDesc lo c m).1.variableLabels.length = 2 := by
      rw [hnew]
      exact ⟨hV _, rfl⟩
    refine ⟨hd, ?_, ?_⟩
    · rw [getOrCreate_projectInfo]
      exact hc.1
    · intro k d hk
      by_cases hkm : k = m.Key
      · subst hkm
        rw [getOrCreate_get] at hk
        rw [← Option.some.inj hk]
        exact hd
      · rw [getOrCreate_get_ne lo c m k hkm] at hk
        exact hc.2 k d hk
  · rw [getOrCreate_of_get_some lo c m d h]
    exact ⟨hc.2 _ d h, hc⟩

theorem exportMeasureChecked_ok (V : String → Bool) (hV : AcceptsPrefixed V) (lo : Char → Char)
    (st : CollectState) (pk pn : String) (m : Measure) (metrics : List Metric)
    (hc : CollectorOK V st.c) :
    exportMeasureChecked V lo st pk pn m metrics = some (exportMeasure lo st pk pn m metrics) ∧
      CollectorOK V (exportMeasure lo st pk pn m metrics).c := by
  rcases hf : findMetricDef metrics m.Metric with _ | d
  · rw [exportMeasure_of_not_found lo st pk pn m metrics hf]
    simp only [exportMeasureChecked, hf]
    exact ⟨trivial, hc⟩
  · rcases hp : (parseMetricValue m.Value d.Typ).2 with _ | e
    · obtain ⟨⟨h1, h2⟩, h3⟩ := getOrCreate_ok V hV lo st.c d hc
      have hs := mustNewConstMetricChecked_ok V (getOrCreateMetricDesc lo st.c d).1
        (parseMetricValue m.Value d.Typ).1 [pk, pn] h1 h2.symm
      rw [exportMeasure_of_parsed lo st pk pn m metrics d hf hp]
      simp only [exportMeasureChecked, hf, hp, hs]
      exact ⟨rfl, h3⟩
    · rw [exportMeasure_of_parse_error lo st pk pn m metrics d e hf hp]
      simp only [exportMeasureChecked, hf, hp]
      exact ⟨trivial, hc⟩

theorem exportMeasuresChecked_ok (V : String → Bool) (hV : AcceptsPrefixed V)
    (lo : Char → Char) (pk pn : String) (metrics : List Metric) (ms : List Measure)
    (st : CollectState) (hc : CollectorOK V st.c) :
    exportMeasuresChecked V lo pk pn metrics ms st =
        some (ms.foldl (fun st m => exportMeasure lo st pk pn m metrics) st) ∧
      CollectorOK V (ms.foldl (fun st m => exportMeasure lo st pk pn m metrics) st).c := by
  induction ms generalizing st with
  | nil => exact ⟨rfl, hc⟩
  | cons m ms ih =>
    obtain ⟨h1, h2⟩ := exportMeasureChecked_ok V hV lo st pk pn m metrics hc
    simp only [exportMeasuresChecked, h1, List.foldl_cons]
    exact ih _ h2

theorem collectProjectChecked_ok {σ : Type} (V : String → Bool) (hV : AcceptsPrefixed V)
    (lo : Char → Char) (client : Client σ) (keys : List String) (metrics : List Metric)
    (acc : CollectState × σ) (p : Component) (hc : CollectorOK V acc.1.c) :
    collectProjectChecked V lo client keys metrics acc p =
        some (collectProject lo client keys metrics acc p) ∧
      CollectorOK V (collectProject lo client keys metrics acc p).1.c := by
  have hs := mustNewConstMetricChecked_ok V acc.1.c.projectInfo Float64.one
    [p.Key, p.Name, p.Qualifier, p.Visibility] hc.1.1 hc.1.2.symm
  rcases hr : (client.GetProjectMeasures p.Key keys acc.2).1 with e | ms
  · simp only [collectProjectChecked, hs, hr, collectProject]
    exact ⟨trivial, hc⟩
  · obtain ⟨h1, h2⟩ := exportMeasuresChecked_ok V hV lo p.Key p.Name metrics ms
      { acc.1 with ch := acc.1.ch ++ [MustNewConstMetric acc.1.c.projectInfo Float64.one
        [p.Key, p.Name, p.Qualifier, p.Visibility]] } hc
    simp only [collectProjectChecked, hs, hr, collectProject, h1]
    exact ⟨trivial, h2⟩

theorem collectProjectsChecked_ok {σ : Type} (V : String → Bool) (hV : AcceptsPrefixed V)
    (lo : Char → Char) (client : Client σ) (keys : List String) (metrics : List Metric)
    (ps : List Component) (acc : CollectState × σ) (hc : CollectorOK V acc.1.c) :
    collectProjectsChecked V lo client keys metrics ps acc =
        some (ps.foldl (collectProject lo client keys metrics) acc) ∧
      CollectorOK V (ps.foldl (collectProject lo client keys metrics) acc).1.c := by
  induction ps generalizing acc with
  | nil => exact ⟨rfl, hc⟩
  | cons p ps ih =>
    obtain ⟨h1, h2⟩ := collectProjectChecked_ok V hV lo client keys metrics acc p hc
    simp only [collectProjectsChecked, h1, List.foldl_cons]
    exact ih _ h2

/-- With a name check that accepts every name starting with `sonarqube_`, no sample
constructor panics in a cycle of a collector whose descriptors the check accepts, and the
collector after the cycle is such a collector again. -/
theorem CollectChecked_total {σ : Type} (V : String → Bool) (hV : AcceptsPrefixed V)
    (lo : Char → Char) (client : Client σ) (c : Collector) (w : σ) (hc : CollectorOK V c) :
    CollectChecked V lo client c w = some (Collect lo client c w) ∧
      CollectorOK V (Collect lo client c w).1.c := by
  rcases hm : (client.GetMetrics w).1 with e | metrics
  · simp only [CollectChecked, Collect, hm]
    exact ⟨trivial, hc⟩
  · rcases hp : (client.GetProjects (client.GetMetrics w).2).1 with e | projects
    · simp only [CollectChecked, Collect, hm, hp]
      exact ⟨trivial, hc⟩
    · rw [Collect_ok lo client c w metrics projects hm hp]
      simp only [CollectChecked, hm, hp]
      exact collectProjectsChecked_ok V hV lo client _ metrics projects _ hc

/-- Started from `NewCollector`, every cycle of every sequence of cycles runs without a
panic when the name check accepts every name starting with `sonarqube_`. -/
theorem runCycles_total {σ : Type} (V : String → Bool) (hV : AcceptsPrefixed V)
    (lo : Char → Char) (client : Client σ) (ws : List σ) (w : σ) :
    CollectChecked V lo client (runCycles lo client NewCollector ws) w =
      some (Collect lo client (runCycles lo client NewCollector ws) w) := by
  have key : ∀ (ws : List σ) (c : Collector), CollectorOK V c →
      CollectorOK V (runCycles lo client c ws) := by
    intro ws
    induction ws with
    | nil => exact fun c hc => hc
    | cons w ws ih =>
      intro c hc
      exact ih _ (CollectChecked_total V hV lo client c w hc).2
  exact (CollectChecked_total V hV lo client _ w (key ws _ (newCollector_ok V hV))).1

theorem nonEmptyName_accepts : AcceptsPrefixed nonEmptyName := by
  intro x
  simp [nonEmptyName, String.data_append]

/-- C19 fails under the metric-name rule `[a-zA-Z_:][a-zA-Z0-9_:]*`: in the cycle of
scenario `scenarioSpace`, whose catalog has the metric key `code smells`, the name of the
descriptor is `sonarqube_code smells`, the rule rejects it, and the sample constructor in
`exportMeasure` panics. With a name check that accepts every non-empty name the same cycle
sends its two samples. -/
theorem Collect_panics_on_invalid_name :
    (getOrCreateMetricDesc id NewCollector
        ⟨"1", "code smells", "INT", "Code smells", "Number of code smells",
          "Maintainability", 0, false, false⟩).1.fqName = "sonarqube_code smells" ∧
      IsValidMetricName "sonarqube_code smells" = false ∧
      CollectChecked IsValidMetricName id scenarioSpace NewCollector () = none ∧
      (CollectChecked nonEmptyName id scenarioSpace NewCollector ()).map
          (fun r => r.1.ch.length) = some 2 := by
  refine ⟨rfl, by decide, by decide, by decide⟩

theorem getProjectsStep_page_ok {σ : Type} (up : Upstream σ) (s : LoopState σ) (body : String)
    (s' : σ) (resp : ComponentsResponse)
    (h : up.searchProjects 500 s.pageIndex s.world.upstream =
      (.response 200 body (.ok resp), s')) :
    getProjectsStep up s =
      if resp.Paging.Total ≤ ((s.allComponents ++ resp.Components).length : Int) then
        .inl ((s.allComponents ++ resp.Components, none),
          ⟨s', s.world.requests ++ [.searchProjects 500 s.pageIndex]⟩)
      else
        .inr ⟨s.allComponents ++ resp.Components, s.pageIndex + 1,
          ⟨s', s.world.requests ++ [.searchProjects 500 s.pageIndex]⟩⟩ := by
  simp only [getProjectsStep, h, exchange_response, checkResponse_ok]

/-- The loop with fuel is the loop run iteration by iteration: it has a result exactly when
the function has returned within that many iterations. -/
theorem getProjectsLoop_eq_run {σ : Type} (up : Upstream σ) :
    ∀ (fuel : Nat) (acc : List Component) (p : Nat) (w : World σ),
      getProjectsLoop up fuel acc p w = (getProjectsRun up fuel ⟨acc, p, w⟩).getLeft? := by
  intro fuel
  induction fuel with
  | zero => intro acc p w; rfl
  | succ f ih =>
    intro acc p w
    rcases hc : checkResponse "projects" "components"
      (exchange (.searchProjects 500 p) (up.searchProjects 500 p w.upstream) w).1 with
      err | resp
    · simp only [getProjectsLoop, getProjectsRun, getProjectsStep, hc, Sum.getLeft?_inl]
    · by_cases hstop : resp.Paging.Total ≤ ((acc ++ resp.Components).length : Int)
      · simp only [getProjectsLoop, getProjectsRun, getProjectsStep, hc, if_pos hstop,
          Sum.getLeft?_inl]
      · simp only [getProjectsLoop, getProjectsRun, getProjectsStep, hc, if_neg hstop]
        exact ih _ _ _

/-- Over an upstream that serves pages none of which reaches its own total, the loop has
not returned after `n` iterations, whatever `n`: it has sent the requests for the pages 1
to `n` and is about to ask for page `n + 1`. -/
theorem getProjectsRun_never {σ : Type} (up : Upstream σ) (pages : Nat → ComponentsResponse)
    (hs : Serves up pages) (hno : ∀ j, 1 ≤ j → ¬ StopsAt pages j) (reqs : List Request) :
    ∀ (n i : Nat) (s0 : σ),
      ∃ s : LoopState σ,
        getProjectsRun up n ⟨pagesConcat pages i, i + 1, ⟨s0, reqs ++ pageRequests i⟩⟩ =
          .inr s ∧
        s.allComponents = pagesConcat pages (i + n) ∧ s.pageIndex = i + n + 1 ∧
        s.world.requests = reqs ++ pageRequests (i + n) := by
  intro n
  induction n with
  | zero => intro i s0; exact ⟨_, rfl, rfl, rfl, rfl⟩
  | succ n ih =>
    intro i s0
    obtain ⟨body, s', hpage⟩ := hs (i + 1) s0
    have hnstop : ¬ (pages (i + 1)).Paging.Total ≤
        ((pagesConcat pages i ++ (pages (i + 1)).Components).length : Int) :=
      hno (i + 1) (by omega)
    obtain ⟨s, h1, h2, h3, h4⟩ := ih (i + 1) s'
    refine ⟨s, ?_, ?_, ?_, ?_⟩
    · rw [getProjectsRun,
        getProjectsStep_page_ok up ⟨pagesConcat pages i, i + 1, ⟨s0, reqs ++ pageRequests i⟩⟩
          body s' (pages (i + 1)) hpage, if_neg hnstop]
      simp only [List.append_assoc]
      exact h1
    · rw [h2]; congr 1; omega
    · rw [h3]; omega
    · rw [h4]; congr 2; omega

theorem pageRequests_length (n : Nat) : (pageRequests n).length = n := by
  induction n with
  | zero => rfl
  | succ n ih => simp [pageRequests, ih]

theorem pagesConcat_emptyPages (k : Nat) : pagesConcat emptyPages k = [] := by
  induction k with
  | zero => rfl
  | succ k ih => simp [pagesConcat, ih, emptyPages]

theorem emptyPages_never (j : Nat) : ¬ StopsAt emptyPages j := by
  simp [StopsAt, pagesConcat_emptyPages, emptyPages]

/-- C21: the pagination loop has no iteration cap. Over the upstream that answers every
page request with status 200 and a page without projects reporting the total 1, every
request succeeds, and for every bound `n` the loop of `GetProjects` has not returned after
`n + 1` iterations: it has then sent the `n + 1` requests for the pages 1 to `n + 1`, more
than `n`, and is about to ask for page `n + 2`. So `GetProjects` has no result within any
number of page requests. -/
theorem GetProjects_unbounded (n : Nat) :
    Serves emptyPageServer emptyPages ∧
      (∀ p, (emptyPages p).Components = [] ∧ 0 < (emptyPages p).Paging.Total) ∧
      getProjectsRun emptyPageServer (n + 1) ⟨[], 1, ⟨(), []⟩⟩ =
        .inr ⟨[], n + 2, ⟨(), pageRequests (n + 1)⟩⟩ ∧
      n < (pageRequests (n + 1)).length ∧
      GetProjects emptyPageServer n ⟨(), []⟩ = none := by
  have hs : Serves emptyPageServer emptyPages := okPageServer_serves emptyPages
  refine ⟨hs, fun p => ⟨rfl, (by decide : (0 : Int) < 1)⟩, ?_, ?_, ?_⟩
  · obtain ⟨s, h1, h2, h3, h4⟩ := getProjectsRun_never emptyPageServer emptyPages hs
      (fun j _ => emptyPages_never j) [] (n + 1) 0 ()
    have hc : pagesConcat emptyPages (0 + (n + 1)) = [] := pagesConcat_emptyPages _
    have hs' : s = ⟨[], n + 2, ⟨(), pageRequests (n + 1)⟩⟩ := by
      obtain ⟨a, p, ⟨u, r⟩⟩ := s
      simp only [List.nil_append] at h4
      simp only at h2 h3 h4
      rw [hc] at h2
      have hp : p = n + 2 := by omega
      have hr : r = pageRequests (n + 1) := by rw [h4]; congr 1; omega
      subst h2 hp hr
      rfl
    rw [← hs']
    exact h1
  · rw [pageRequests_length]
    omega
  · exact getProjectsLoop_never emptyPageServer emptyPages hs n 0 ⟨(), []⟩
      (fun j _ _ => emptyPages_never j)

theorem getOrCreate_of_get_none (lo : Char → Char) (c : Collector) (m : Metric)
    (h : c.metricDescs.get m.Key = none) :
    (getOrCreateMetricDesc lo c m).1 =
        NewDesc ("sonarqube_" ++ sanitizeMetricName lo m.Key) m.Description
          ["project_key", "project_name"] [("domain", m.Domain)] ∧
      (getOrCreateMetricDesc lo c m).2.metricDescs =
        c.metricDescs ++ [(m.Key, (getOrCreateMetricDesc lo c m).1)] := by
  have h1 : getOrCreateMetricDesc lo c m =
      (NewDesc ("sonarqube_" ++ sanitizeMetricName lo m.Key) m.Description
          ["project_key", "project_name"] [("domain", m.Domain)],
        ⟨c.projectInfo, c.metricDescs.set m.Key
          (NewDesc ("sonarqube_" ++ sanitizeMetricName lo m.Key) m.Description
            ["project_key", "project_name"] [("domain", m.Domain)])⟩) := by
    simp only [getOrCreateMetricDesc, h]
  rw [h1]
  exact ⟨rfl, GoMap.keys_set_of_get_none _ _ _ h⟩

/-- C22: `sanitizeMetricName` is not injective: `a-b` and `a.b` are distinct keys with the
same sanitized name, and so are `Bugs` and `bugs`. For two catalog entries with distinct
keys and the same sanitized name, neither key in the cache, `getOrCreateMetricDesc` called
for the one and then for the other adds two entries to the cache, one under each key, and
the two descriptors carry the same name, `sonarqube_` followed by the sanitized key. -/
theorem sanitizeMetricName_not_injective (caseTable : Char → Char) :
    ("a-b" ≠ "a.b" ∧ sanitizeMetricName caseTable "a-b" = sanitizeMetricName caseTable "a.b") ∧
      ("Bugs" ≠ "bugs" ∧
        sanitizeMetricName caseTable "Bugs" = sanitizeMetricName caseTable "bugs") ∧
      ¬ Function.Injective (sanitizeMetricName caseTable) ∧
      (∀ (c : Collector) (m1 m2 : Metric), m1.Key ≠ m2.Key →
        sanitizeMetricName caseTable m1.Key = sanitizeMetricName caseTable m2.Key →
        c.metricDescs.get m1.Key = none → c.metricDescs.get m2.Key = none →
        (getOrCreateMetricDesc caseTable (getOrCreateMetricDesc caseTable c m1).2
            m2).2.metricDescs =
          c.metricDescs ++
            [(m1.Key, (getOrCreateMetricDesc caseTable c m1).1),
              (m2.Key, (getOrCreateMetricDesc caseTable
                (getOrCreateMetricDesc caseTable c m1).2 m2).1)] ∧
        (getOrCreateMetricDesc caseTable c m1).1.fqName =
          "sonarqube_" ++ sanitizeMetricName caseTable m1.Key ∧
        (getOrCreateMetricDesc caseTable (getOrCreateMetricDesc caseTable c m1).2
            m2).1.fqName =
          "sonarqube_" ++ sanitizeMetricName caseTable m1.Key) := by
  have hab : sanitizeMetricName caseTable "a-b" = sanitizeMetricName caseTable "a.b" := rfl
  refine ⟨⟨by decide, hab⟩, ⟨by decide, rfl⟩, ?_, ?_⟩
  · intro hinj
    exact absurd (hinj hab) (by decide)
  · intro c m1 m2 hne hs h1 h2
    obtain ⟨k1, k2⟩ := getOrCreate_of_get_none caseTable c m1 h1
    have h2' : (getOrCreateMetricDesc caseTable c m1).2.metricDescs.get m2.Key = none := by
      rw [getOrCreate_get_ne caseTable c m1 m2.Key (fun e => hne e.symm)]
      exact h2
    obtain ⟨j1, j2⟩ := getOrCreate_of_get_none caseTable _ m2 h2'
    refine ⟨?_, ?_, ?_⟩
    · rw [j2, k2, List.append_assoc]
      rfl
    · rw [k1]
      rfl
    · rw [j1, hs]
      rfl

/-- C22 on the keys `a-b` and `a.b` and the empty cache of `NewCollector`: the cache then
holds two descriptors, one under each key, both with the name `sonarqube_a_b`. -/
theorem sanitizeMetricName_not_injective_witness :
    (getOrCreateMetricDesc id (getOrCreateMetricDesc id NewCollector (exampleMetric "a-b")).2
        (exampleMetric "a.b")).2.metricDescs.map (fun e => (e.1, e.2.fqName)) =
      [("a-b", "sonarqube_a_b"), ("a.b", "sonarqube_a_b")] := by
  have h := ((sanitizeMetricName_not_injective id).2.2.2 NewCollector (exampleMetric "a-b")
    (exampleMetric "a.b") (by decide) rfl rfl rfl).1
  rw [h]
  rfl

theorem allOK_nil (V : String → Bool) : AllOK V [] := by
  intro s hs
  simp at hs

theorem allOK_append (V : String → Bool) (a b : List Sample) :
    AllOK V (a ++ b) ↔ AllOK V a ∧ AllOK V b := by
  simp only [AllOK, List.mem_append]
  constructor
  · intro h
    exact ⟨fun s hs => h s (Or.inl hs), fun s hs => h s (Or.inr hs)⟩
  · rintro ⟨h1, h2⟩ s (hs | hs)
    · exact h1 s hs
    · exact h2 s hs

theorem allOK_cons (V : String → Bool) (s : Sample) (l : List Sample) :
    AllOK V (s :: l) ↔ SampleOK V s ∧ AllOK V l := by
  simp only [AllOK, List.mem_cons]
  constructor
  · intro h
    exact ⟨h s (Or.inl rfl), fun t ht => h t (Or.inr ht)⟩
  · rintro ⟨h1, h2⟩ t (ht | ht)
    · rw [ht]; exact h1
    · exact h2 t ht

theorem mustNewConstMetricChecked_eq (V : String → Bool) (desc : Desc) (value : Float64)
    (labelValues : List String) :
    MustNewConstMetricChecked V desc value labelValues =
      if SampleOK V ⟨desc, value, labelValues⟩ then some ⟨desc, value, labelValues⟩
      else none := rfl

/-- A call of `exportMeasure` with the error branch: it panics exactly when the sample it
is to send is one the constructor does not accept, and is the call without the error
branch otherwise. -/
theorem exportMeasureChecked_eq (V : String → Bool) (lo : Char → Char)
    (metrics : List Metric) (c : Collector) (st : CollectState) (pk pn : String)
    (m : Measure) (h : Agrees lo metrics c st.c) :
    exportMeasureChecked V lo st pk pn m metrics =
      if AllOK V (measureSample lo c metrics pk pn m).toList then
        some (exportMeasure lo st pk pn m metrics)
      else none := by
  rcases hf : findMetricDef metrics m.Metric with _ | d
  · rw [exportMeasure_of_not_found lo st pk pn m metrics hf,
      measureSample_of_not_found lo c metrics pk pn m hf, Option.toList, if_pos (allOK_nil V)]
    simp only [exportMeasureChecked, hf]
  · have hd := findMetricDef_some metrics _ d hf
    have hfd : findMetricDef metrics d.Key = some d := by rw [hd.2, hf]
    rcases hp : (parseMetricValue m.Value d.Typ).2 with _ | e
    · rw [exportMeasure_of_parsed lo st pk pn m metrics d hf hp,
        measureSample_of_parsed lo c metrics pk pn m d hf hp]
      simp only [exportMeasureChecked, hf, hp, mustNewConstMetricChecked_eq, h.2 d hfd,
        Option.toList]
      by_cases hok : SampleOK V ⟨(getOrCreateMetricDesc lo c d).1,
          (parseMetricValue m.Value d.Typ).1, [pk, pn]⟩
      · rw [if_pos hok, if_pos ((allOK_cons V _ _).2 ⟨hok, allOK_nil V⟩)]
      · rw [if_neg hok, if_neg (fun hall => hok ((allOK_cons V _ _).1 hall).1)]
    · rw [exportMeasure_of_parse_error lo st pk pn m metrics d e hf hp,
        measureSample_of_parse_error lo c metrics pk pn m d e hf hp, Option.toList,
        if_pos (allOK_nil V)]
      simp only [exportMeasureChecked, hf, hp]

theorem filterMap_cons_toList {α β : Type} (f : α → Option β) (a : α) (l : List α) :
    (a :: l).filterMap f = (f a).toList ++ l.filterMap f := by
  cases h : f a <;> simp [List.filterMap_cons, h]

theorem exportMeasuresChecked_eq (V : String → Bool) (lo : Char → Char)
    (metrics : List Metric) (c : Collector) (pk pn : String) (ms : List Measure)
    (st : CollectState) (h : Agrees lo metrics c st.c) :
    exportMeasuresChecked V lo pk pn metrics ms st =
      if AllOK V (ms.filterMap (measureSample lo c metrics pk pn)) then
        some (ms.foldl (fun st m => exportMeasure lo st pk pn m metrics) st)
      else none := by
  induction ms generalizing st with
  | nil =>
    rw [List.filterMap_nil, if_pos (allOK_nil V)]
    rfl
  | cons m ms ih =>
    rw [exportMeasuresChecked, exportMeasureChecked_eq V lo metrics c st pk pn m h,
      filterMap_cons_toList, List.foldl_cons]
    by_cases h1 : AllOK V (measureSample lo c metrics pk pn m).toList
    · rw [if_pos h1]
      simp only
      rw [ih _ (exportMeasure_ch lo metrics c st pk pn m h).2]
      by_cases h2 : AllOK V (ms.filterMap (measureSample lo c metrics pk pn))
      · rw [if_pos h2, if_pos ((allOK_append V _ _).2 ⟨h1, h2⟩)]
      · rw [if_neg h2, if_neg (fun hall => h2 ((allOK_append V _ _).1 hall).2)]
    · rw [if_neg h1, if_neg (fun hall => h1 ((allOK_append V _ _).1 hall).1)]

theorem collectProjectChecked_eq {σ : Type} (V : String → Bool) (lo : Char → Char)
    (client : Client σ) (keys : List String) (metrics : List Metric) (c : Collector)
    (st : CollectState) (w : σ) (p : Component) (h : Agrees lo metrics c st.c) :
    collectProjectChecked V lo client keys metrics (st, w) p =
      if AllOK V (identitySample c p ::
          (returnedMeasures (client.GetProjectMeasures p.Key keys w).1).filterMap
            (measureSample lo c metrics p.Key p.Name)) then
        some (collectProject lo client keys metrics (st, w) p)
      else none := by
  have hid : (⟨st.c.projectInfo, Float64.one, [p.Key, p.Name, p.Qualifier, p.Visibility]⟩ :
      Sample) = identitySample c p := by
    simp only [identitySample, h.1]
  by_cases h0 : SampleOK V (identitySample c p)
  · have hs : MustNewConstMetricChecked V st.c.projectInfo Float64.one
        [p.Key, p.Name, p.Qualifier, p.Visibility] = some (identitySample c p) := by
      rw [mustNewConstMetricChecked_eq, hid, if_pos h0]
    rcases hr : (client.GetProjectMeasures p.Key keys w).1 with e | ms
    · rw [collectProject_of_error lo client keys metrics st w p e hr]
      simp only [collectProjectChecked, hs, hr, returnedMeasures, List.filterMap_nil]
      rw [if_pos ((allOK_cons V _ _).2 ⟨h0, allOK_nil V⟩)]
      simp only [identitySample, h.1]
    · rw [collectProject_of_ok lo client keys metrics st w p ms hr]
      have hag : Agrees lo metrics c
          ({ st with ch := st.ch ++ [identitySample c p] } : CollectState).c := h
      simp only [collectProjectChecked, hs, hr, returnedMeasures,
        exportMeasuresChecked_eq V lo metrics c p.Key p.Name ms
          { st with ch := st.ch ++ [identitySample c p] } hag]
      have hid2 : identitySample st.c p = identitySample c p := by
        simp only [identitySample, h.1]
      by_cases h2 : AllOK V (ms.filterMap (measureSample lo c metrics p.Key p.Name))
      · rw [if_pos h2, if_pos ((allOK_cons V _ _).2 ⟨h0, h2⟩), hid2]
      · rw [if_neg h2, if_neg (fun hall => h2 ((allOK_cons V _ _).1 hall).2)]
  · have hs : MustNewConstMetricChecked V st.c.projectInfo Float64.one
        [p.Key, p.Name, p.Qualifier, p.Visibility] = none := by
      rw [mustNewConstMetricChecked_eq, hid, if_neg h0]
    rw [if_neg (fun hall => h0 ((allOK_cons V _ _).1 hall).1)]
    simp only [collectProjectChecked, hs]

theorem collectProjectsChecked_eq {σ : Type} (V : String → Bool) (lo : Char → Char)
    (client : Client σ) (keys : List String) (metrics : List Metric) (c : Collector)
    (ps : List Component) (st : CollectState) (w : σ) (h : Agrees lo metrics c st.c) :
    collectProjectsChecked V lo client keys metrics ps (st, w) =
      if AllOK V (expectedSamples lo c metrics ps (measureResponses client keys ps w)) then
        some (ps.foldl (collectProject lo client keys metrics) (st, w))
      else none := by
  induction ps generalizing st w with
  | nil =>
    simp only [measureResponses, expectedSamples]
    rw [if_pos (allOK_nil V)]
    rfl
  | cons p ps ih =>
    obtain ⟨_, h2, h3⟩ := collectProject_ch lo client keys metrics c st w p h
    have hsplit : collectProject lo client keys metrics (st, w) p =
        ((collectProject lo client keys metrics (st, w) p).1,
          (client.GetProjectMeasures p.Key keys w).2) := Prod.ext rfl h3
    rw [collectProjectsChecked, collectProjectChecked_eq V lo client keys metrics c st w p h,
      List.foldl_cons]
    simp only [measureResponses, expectedSamples]
    have hiff : AllOK V (identitySample c p ::
        ((returnedMeasures (client.GetProjectMeasures p.Key keys w).1).filterMap
            (measureSample lo c metrics p.Key p.Name) ++
          expectedSamples lo c metrics ps
            (measureResponses client keys ps (client.GetProjectMeasures p.Key keys w).2))) ↔
        AllOK V (identitySample c p ::
          (returnedMeasures (client.GetProjectMeasures p.Key keys w).1).filterMap
            (measureSample lo c metrics p.Key p.Name)) ∧
        AllOK V (expectedSamples lo c metrics ps
          (measureResponses client keys ps (client.GetProjectMeasures p.Key keys w).2)) :=
      allOK_append V (identitySample c p ::
        (returnedMeasures (client.GetProjectMeasures p.Key keys w).1).filterMap
          (measureSample lo c metrics p.Key p.Name)) _
    by_cases h1 : AllOK V (identitySample c p ::
        (returnedMeasures (client.GetProjectMeasures p.Key keys w).1).filterMap
          (measureSample lo c metrics p.Key p.Name))
    · rw [if_pos h1]
      simp only
      rw [hsplit, ih _ _ h2]
      by_cases hrest : AllOK V (expectedSamples lo c metrics ps
          (measureResponses client keys ps (client.GetProjectMeasures p.Key keys w).2))
      · rw [if_pos hrest, if_pos (hiff.2 ⟨h1, hrest⟩)]
      · rw [if_neg hrest, if_neg (fun hall => hrest (hiff.1 hall).2)]
    · rw [if_neg h1, if_neg (fun hall => h1 (hiff.1 hall).1)]

/-- A cycle with the error branch of the sample constructors, when the catalog and the
project list are fetched: it panics exactly when one of the samples it is to send is one
the constructor does not accept, and is the cycle without the error branch otherwise. -/
theorem CollectChecked_eq {σ : Type} (V : String → Bool) (lo : Char → Char)
    (client : Client σ) (c : Collector) (w : σ) (metrics : List Metric)
    (projects : List Component)
    (hm : (client.GetMetrics w).1 = .ok metrics)
    (hp : (client.GetProjects (client.GetMetrics w).2).1 = .ok projects) :
    CollectChecked V lo client c w =
      if AllOK V (expectedSamples lo c metrics projects
          (measureResponses client (getNumericMetricKeys metrics) projects
            (client.GetProjects (client.GetMetrics w).2).2)) then
        some (Collect lo client c w)
      else none := by
  rw [Collect_ok lo client c w metrics projects hm hp]
  simp only [CollectChecked, hm, hp]
  exact collectProjectsChecked_eq V lo client _ metrics c projects ⟨c, [], []⟩ _
    (agrees_refl lo metrics c)

theorem getOrCreate_ok_of_name (V : String → Bool) (lo : Char → Char) (c : Collector)
    (m : Metric) (hn : V ("sonarqube_" ++ sanitizeMetricName lo m.Key) = true)
    (hc : CollectorOK V c) :
    (V (getOrCreateMetricDesc lo c m).1.fqName = true ∧
        (getOrCreateMetricDesc lo c m).1.variableLabels.length = 2) ∧
      CollectorOK V (getOrCreateMetricDesc lo c m).2 := by
  rcases h : c.metricDescs.get m.Key with _ | d
  · have hnew : (getOrCreateMetricDesc lo c m).1 =
        NewDesc ("sonarqube_" ++ sanitizeMetricName lo m.Key) m.Description
          ["project_key", "project_name"] [("domain", m.Domain)] := by
      simp [getOrCreateMetricDesc, h]
    have hd : V (getOrCreateMetricDesc lo c m).1.fqName = true ∧
        (getOrCreateMetricDesc lo c m).1.variableLabels.length = 2 := by
      rw [hnew]
      exact ⟨hn, rfl⟩
    refine ⟨hd, ?_, ?_⟩
    · rw [getOrCreate_projectInfo]
      exact hc.1
    · intro k d hk
      by_cases hkm : k = m.Key
      · subst hkm
        rw [getOrCreate_get] at hk
        rw [← Option.some.inj hk]
        exact hd
      · rw [getOrCreate_get_ne lo c m k hkm] at hk
        exact hc.2 k d hk
  · rw [getOrCreate_of_get_some lo c m d h]
    exact ⟨hc.2 _ d h, hc⟩

theorem exportMeasure_collectorOK (V : String → Bool) (lo : Char → Char)
    (metrics : List Metric) (hn : NamesOK V lo metrics) (st : CollectState) (pk pn : String)
    (m : Measure) (hc : CollectorOK V st.c) :
    CollectorOK V (exportMeasure lo st pk pn m metrics).c := by
  rcases hf : findMetricDef metrics m.Metric with _ | d
  · rw [exportMeasure_of_not_found lo st pk pn m metrics hf]
    exact hc
  · rcases hp : (parseMetricValue m.Value d.Typ).2 with _ | e
    · rw [exportMeasure_of_parsed lo st pk pn m metrics d hf hp]
      exact (getOrCreate_ok_of_name V lo st.c d
        (hn d (findMetricDef_some metrics _ d hf).1) hc).2
    · rw [exportMeasure_of_parse_error lo st pk pn m metrics d e hf hp]
      exact hc

theorem exportMeasures_collectorOK (V : String → Bool) (lo : Char → Char)
    (metrics : List Metric) (hn : NamesOK V lo metrics) (pk pn : String) (ms : List Measure)
    (st : CollectState) (hc : CollectorOK V st.c) :
    CollectorOK V (ms.foldl (fun st m => exportMeasure lo st pk pn m metrics) st).c := by
  induction ms generalizing st with
  | nil => exact hc
  | cons m ms ih =>
    rw [List.foldl_cons]
    exact ih _ (exportMeasure_collectorOK V lo metrics hn st pk pn m hc)

theorem collectProject_collectorOK {σ : Type} (V : String → Bool) (lo : Char → Char)
    (client : Client σ) (keys : List String) (metrics : List Metric)
    (hn : NamesOK V lo metrics) (acc : CollectState × σ) (p : Component)
    (hc : CollectorOK V acc.1.c) :
    CollectorOK V (collectProject lo client keys metrics acc p).1.c := by
  rcases hr : (client.GetProjectMeasures p.Key keys acc.2).1 with e | ms
  · rw [collectProject_of_error lo client keys metrics acc.1 acc.2 p e hr]
    exact hc
  · rw [collectProject_of_ok lo client keys metrics acc.1 acc.2 p ms hr]
    exact exportMeasures_collectorOK V lo metrics hn p.Key p.Name ms _ hc

theorem collectProjects_collectorOK {σ : Type} (V : String → Bool) (lo : Char → Char)
    (client : Client σ) (keys : List String) (metrics : List Metric)
    (hn : NamesOK V lo metrics) (ps : List Component) (acc : CollectState × σ)
    (hc : CollectorOK V acc.1.c) :
    CollectorOK V (ps.foldl (collectProject lo client keys metrics) acc).1.c := by
  induction ps generalizing acc with
  | nil => exact hc
  | cons p ps ih =>
    rw [List.foldl_cons]
    exact ih _ (collectProject_collectorOK V lo client keys metrics hn acc p hc)

theorem Collect_collectorOK {σ : Type} (V : String → Bool) (lo : Char → Char)
    (client : Client σ) (c : Collector) (w : σ)
    (hn : ∀ metrics, (client.GetMetrics w).1 = .ok metrics → NamesOK V lo metrics)
    (hc : CollectorOK V c) : CollectorOK V (Collect lo client c w).1.c := by
  rcases hm : (client.GetMetrics w).1 with e | metrics
  · simp only [Collect, hm]
    exact hc
  · rcases hp : (client.GetProjects (client.GetMetrics w).2).1 with e | projects
    · simp only [Collect, hm, hp]
      exact hc
    · rw [Collect_ok lo client c w metrics projects hm hp]
      exact collectProjects_collectorOK V lo client _ metrics (hn metrics hm) projects _ hc

/-- When the name check accepts the descriptors of the collector and the exposed name of
every catalog entry, the constructor accepts every sample the cycle is to send. -/
theorem allOK_of_names (V : String → Bool) (lo : Char → Char) (c : Collector)
    (metrics : List Metric) (ps : List Component) (rs : List (Except String (List Measure)))
    (hc : CollectorOK V c) (hn : NamesOK V lo metrics) :
    AllOK V (expectedSamples lo c metrics ps rs) := by
  intro s hs
  rcases mem_expectedSamples lo c metrics ps rs s hs with ⟨p, _, rfl⟩ | ⟨p, _, r, _, m, _, hm⟩
  · exact ⟨hc.1.1, hc.1.2.symm⟩
  · obtain ⟨d, hf, _, rfl⟩ := measureSample_some lo c metrics p.Key p.Name m s hm
    obtain ⟨h1, h2⟩ := (getOrCreate_ok_of_name V lo c d
      (hn d (findMetricDef_some metrics _ d hf).1) hc).1
    exact ⟨h1, h2.symm⟩

theorem CollectChecked_of_names {σ : Type} (V : String → Bool) (lo : Char → Char)
    (client : Client σ) (c : Collector) (w : σ)
    (hn : ∀ metrics, (client.GetMetrics w).1 = .ok metrics → NamesOK V lo metrics)
    (hc : CollectorOK V c) :
    CollectChecked V lo client c w = some (Collect lo client c w) := by
  rcases hm : (client.GetMetrics w).1 with e | metrics
  · simp only [CollectChecked, Collect, hm]
  · rcases hp : (client.GetProjects (client.GetMetrics w).2).1 with e | projects
    · simp only [CollectChecked, Collect, hm, hp]
    · rw [CollectChecked_eq V lo client c w metrics projects hm hp,
        if_pos (allOK_of_names V lo c metrics projects _ hc (hn metrics hm))]

theorem runCyclesChecked_of_names {σ : Type} (V : String → Bool) (lo : Char → Char)
    (client : Client σ) (ws : List σ) (c : Collector)
    (hn : ∀ w ∈ ws, ∀ metrics, (client.GetMetrics w).1 = .ok metrics → NamesOK V lo metrics)
    (hc : CollectorOK V c) :
    runCyclesChecked V lo client c ws = some (runCycles lo client c ws) := by
  induction ws generalizing c with
  | nil => rfl
  | cons w ws ih =>
    have hw := hn w (List.mem_cons_self _ _)
    rw [runCyclesChecked, CollectChecked_of_names V lo client c w hw hc]
    simp only [runCycles]
    exact ih _ (fun w' hw' => hn w' (List.mem_cons_of_mem _ hw'))
      (Collect_collectorOK V lo client c w hw hc)

theorem runCyclesChecked_some {σ : Type} (V : String → Bool) (lo : Char → Char)
    (client : Client σ) (ws : List σ) (c c' : Collector)
    (h : runCyclesChecked V lo client c ws = some c') : c' = runCycles lo client c ws := by
  induction ws generalizing c with
  | nil =>
    simp only [runCyclesChecked, Option.some.injEq] at h
    rw [runCycles, h]
  | cons w ws ih =>
    rcases hr : CollectChecked V lo client c w with _ | r
    · simp only [runCyclesChecked, hr] at h
      exact absurd h (by simp)
    · simp only [runCyclesChecked, hr] at h
      rw [runCycles, ← CollectChecked_some V lo client c w r hr]
      exact ih _ h

theorem CollectChecked_eq_ch {σ : Type} (V : String → Bool) (lo : Char → Char)
    (client : Client σ) (c : Collector) (w : σ) :
    CollectChecked V lo client c w =
      if AllOK V (Collect lo client c w).1.ch then some (Collect lo client c w) else none := by
  rcases hm : (client.GetMetrics w).1 with e | metrics
  · have hch : (Collect lo client c w).1.ch = [] := by simp only [Collect, hm]
    rw [hch, if_pos (allOK_nil V)]
    simp only [CollectChecked, Collect, hm]
  · rcases hp : (client.GetProjects (client.GetMetrics w).2).1 with e | projects
    · have hch : (Collect lo client c w).1.ch = [] := by simp only [Collect, hm, hp]
      rw [hch, if_pos (allOK_nil V)]
      simp only [CollectChecked, Collect, hm, hp]
    · rw [CollectChecked_eq V lo client c w metrics projects hm hp,
        (Collect_ch_expected lo client c w metrics projects hm hp).1]

/-- C1: when the catalog fetch and the project list fetch succeed and the sample
constructor accepts every sample that is to be sent, `Collect` sends exactly, project by
project in the order of the project list, the identity sample of the project followed by
one sample for each returned measure whose key is in the catalog and whose value parses,
in the order returned, with the parsed value and the project key and name as labels; their
number is the number of projects plus the number of such measures. When the constructor
does not accept one of these samples, the cycle panics. The constructor accepts all of
them when the name check accepts the descriptors of the collector and the exposed name of
every catalog entry. -/
theorem Collect_samples {σ : Type} (validName : String → Bool) (caseTable : Char → Char)
    (client : Client σ) (c : Collector) (w : σ) (metrics : List Metric)
    (projects : List Component)
    (hm : (client.GetMetrics w).1 = .ok metrics)
    (hp : (client.GetProjects (client.GetMetrics w).2).1 = .ok projects) :
    (AllOK validName (expectedSamples caseTable c metrics projects
          (measureResponses client (getNumericMetricKeys metrics) projects
            (client.GetProjects (client.GetMetrics w).2).2)) →
        ∃ r, CollectChecked validName caseTable client c w = some r ∧
          r.1.ch =
            expectedSamples caseTable c metrics projects
              (measureResponses client (getNumericMetricKeys metrics) projects
                (client.GetProjects (client.GetMetrics w).2).2) ∧
          r.1.ch.length =
            projects.length +
              exportableCount metrics
                (measureResponses client (getNumericMetricKeys metrics) projects
                  (client.GetProjects (client.GetMetrics w).2).2)) ∧
      (¬ AllOK validName (expectedSamples caseTable c metrics projects
          (measureResponses client (getNumericMetricKeys metrics) projects
            (client.GetProjects (client.GetMetrics w).2).2)) →
        CollectChecked validName caseTable client c w = none) ∧
      (CollectorOK validName c → NamesOK validName caseTable metrics →
        AllOK validName (expectedSamples caseTable c metrics projects
          (measureResponses client (getNumericMetricKeys metrics) projects
            (client.GetProjects (client.GetMetrics w).2).2))) := by
  refine ⟨?_, ?_, ?_⟩
  · intro hok
    obtain ⟨h1, h2⟩ := Collect_ch_expected caseTable client c w metrics projects hm hp
    exact ⟨Collect caseTable client c w,
      by rw [CollectChecked_eq validName caseTable client c w metrics projects hm hp,
        if_pos hok], h1, h2⟩
  · intro hno
    rw [CollectChecked_eq validName caseTable client c w metrics projects hm hp, if_neg hno]
  · intro hc hn
    exact allOK_of_names validName caseTable c metrics projects _ hc hn

/-- C1 in scenario A under the name rule `[a-zA-Z_:][a-zA-Z0-9_:]*`: the names
`sonarqube_bugs` and `sonarqube_coverage` pass, and two projects with two parsable measures
each give 6 samples. -/
theorem Collect_samples_witness :
    ∃ r, CollectChecked IsValidMetricName id scenarioA NewCollector () = some r ∧
      r.1.ch.length = 6 :=
  ((Collect_samples IsValidMetricName id scenarioA NewCollector () _ _ rfl rfl).1
    (by decide)).elim fun r hr => ⟨r, hr.1, hr.2.2.trans (by decide)⟩

/-- C3: when the catalog and the project list are fetched, the measure fetch of a project
fails and the sample constructor accepts every sample that is to be sent, `Collect` sends,
between the samples of the projects before it and the samples of the projects after it,
exactly one sample for that project, its identity sample, and goes on with the next
project from the state of the world the failed fetch left. The samples, the cache and the
world after `Collect` are those of the same cycle with every failed measure fetch answered
by an empty list of measures. -/
theorem Collect_measure_fetch_error {σ : Type} (validName : String → Bool)
    (caseTable : Char → Char) (client : Client σ)
    (c : Collector) (w : σ) (metrics : List Metric) (before : List Component)
    (p : Component) (after : List Component) (e : String)
    (hm : (client.GetMetrics w).1 = .ok metrics)
    (hp : (client.GetProjects (client.GetMetrics w).2).1 = .ok (before ++ p :: after))
    (he : (client.GetProjectMeasures p.Key (getNumericMetricKeys metrics)
      (worldAfter client (getNumericMetricKeys metrics) before
        (client.GetProjects (client.GetMetrics w).2).2)).1 = .error e)
    (hok : AllOK validName
      (expectedSamples caseTable c metrics before
          (measureResponses client (getNumericMetricKeys metrics) before
            (client.GetProjects (client.GetMetrics w).2).2) ++
        identitySample c p ::
          expectedSamples caseTable c metrics after
            (measureResponses client (getNumericMetricKeys metrics) after
              (client.GetProjectMeasures p.Key (getNumericMetricKeys metrics)
                (worldAfter client (getNumericMetricKeys metrics) before
                  (client.GetProjects (client.GetMetrics w).2).2)).2))) :
    ∃ r, CollectChecked validName caseTable client c w = some r ∧
      r.1.ch =
        expectedSamples caseTable c metrics before
            (measureResponses client (getNumericMetricKeys metrics) before
              (client.GetProjects (client.GetMetrics w).2).2) ++
          identitySample c p ::
            expectedSamples caseTable c metrics after
              (measureResponses client (getNumericMetricKeys metrics) after
                (client.GetProjectMeasures p.Key (getNumericMetricKeys metrics)
                  (worldAfter client (getNumericMetricKeys metrics) before
                    (client.GetProjects (client.GetMetrics w).2).2)).2) ∧
      ∃ r', CollectChecked validName caseTable (recoverMeasures client) c w = some r' ∧
        r'.1.ch = r.1.ch ∧ r'.1.c = r.1.c ∧ r'.2 = r.2 := by
  obtain ⟨h1, h2, h3, h4⟩ := Collect_ch_fetch_error caseTable client c w metrics before p
    after e hm hp he
  have hok1 : AllOK validName (Collect caseTable client c w).1.ch := by
    rw [h1]; exact hok
  have hok2 : AllOK validName (Collect caseTable (recoverMeasures client) c w).1.ch := by
    rw [← h2]; exact hok1
  refine ⟨Collect caseTable client c w, ?_, h1, Collect caseTable (recoverMeasures client) c w,
    ?_, h2.symm, h3.symm, h4.symm⟩
  · rw [CollectChecked_eq_ch, if_pos hok1]
  · rw [CollectChecked_eq_ch, if_pos hok2]

/-- C3 in scenario D under the name rule `[a-zA-Z_:][a-zA-Z0-9_:]*`: one project, whose
measure fetch is answered with not found; the output of `Collect` is exactly one sample,
the identity sample of the project. -/
theorem Collect_measure_fetch_error_witness :
    ∃ r, CollectChecked IsValidMetricName id scenarioD NewCollector () = some r ∧
      r.1.ch = [identitySample NewCollector
        ⟨"project1", "Project 1", "TRK", false, "", [], "private"⟩] :=
  (Collect_measure_fetch_error IsValidMetricName id scenarioD NewCollector () _ []
    ⟨"project1", "Project 1", "TRK", false, "", [], "private"⟩ []
    "unexpected status code 404: Not found" rfl rfl rfl (by decide)).elim
    fun r hr => ⟨r, hr.1, hr.2.1⟩

theorem measureSample_of_not_exportable (lo : Char → Char) (c : Collector)
    (metrics : List Metric) (pk pn : String) (m : Measure)
    (h : exportable metrics m = false) : measureSample lo c metrics pk pn m = none := by
  have hs := measureSample_isSome lo c metrics pk pn m
  rw [h] at hs
  cases hm : measureSample lo c metrics pk pn m with
  | none => rfl
  | some s =>
    rw [hm] at hs
    simp at hs

/-- C4: `exportMeasure` sends exactly one sample, with the parsed value, when the key of
the measure is in the catalog (its first entry with that key is the definition used), the
value parses under the declared type of that entry and the sample constructor accepts the
sample; when the constructor does not accept it, the call panics. Otherwise (the key is
not in the catalog, or the value does not parse) it sends nothing and leaves the
collector, the descriptor cache included, as it was, and says nothing in the log when the
key is not in the catalog. A measure that is not exported changes neither the samples nor
the cache that the other measures of the project produce, nor whether they are produced. -/
theorem exportMeasure_spec (validName : String → Bool) (caseTable : Char → Char)
    (st : CollectState) (projectKey projectName : String) (measure : Measure)
    (allMetrics : List Metric) (before after : List Measure) :
    (exportable allMetrics measure = true ↔
        ∃ d, d ∈ allMetrics ∧ d.Key = measure.Metric ∧
          findMetricDef allMetrics measure.Metric = some d ∧
          (parseMetricValue measure.Value d.Typ).2 = none) ∧
      (findMetricDef allMetrics measure.Metric = none ↔
        ∀ d ∈ allMetrics, d.Key ≠ measure.Metric) ∧
      (∀ d, findMetricDef allMetrics measure.Metric = some d →
        (parseMetricValue measure.Value d.Typ).2 = none →
        (SampleOK validName ⟨(getOrCreateMetricDesc caseTable st.c d).1,
            (parseMetricValue measure.Value d.Typ).1, [projectKey, projectName]⟩ →
          ∃ st', exportMeasureChecked validName caseTable st projectKey projectName measure
              allMetrics = some st' ∧
            st'.ch = st.ch ++ [⟨(getOrCreateMetricDesc caseTable st.c d).1,
              (parseMetricValue measure.Value d.Typ).1, [projectKey, projectName]⟩]) ∧
        (¬ SampleOK validName ⟨(getOrCreateMetricDesc caseTable st.c d).1,
            (parseMetricValue measure.Value d.Typ).1, [projectKey, projectName]⟩ →
          exportMeasureChecked validName caseTable st projectKey projectName measure
            allMetrics = none)) ∧
      (exportable allMetrics measure = false →
        ∃ st', exportMeasureChecked validName caseTable st projectKey projectName measure
            allMetrics = some st' ∧ st'.ch = st.ch ∧ st'.c = st.c) ∧
      (findMetricDef allMetrics measure.Metric = none →
        exportMeasureChecked validName caseTable st projectKey projectName measure
          allMetrics = some st) ∧
      (exportable allMetrics measure = false →
        (exportMeasuresChecked validName caseTable projectKey projectName allMetrics
            (before ++ measure :: after) st).map (fun s => (s.ch, s.c)) =
          (exportMeasuresChecked validName caseTable projectKey projectName allMetrics
            (before ++ after) st).map (fun s => (s.ch, s.c))) := by
  have hag := agrees_refl caseTable allMetrics st.c
  refine ⟨?_, findMetricDef_none allMetrics measure.Metric, ?_, ?_, ?_, ?_⟩
  · rw [exportable_iff]
    constructor
    · rintro ⟨d, hf, hp⟩
      exact ⟨d, (findMetricDef_some _ _ d hf).1, (findMetricDef_some _ _ d hf).2, hf, hp⟩
    · rintro ⟨d, _, _, hf, hp⟩
      exact ⟨d, hf, hp⟩
  · intro d hf hp
    have heq := exportMeasureChecked_eq validName caseTable allMetrics st.c st projectKey
      projectName measure hag
    rw [measureSample_of_parsed caseTable st.c allMetrics projectKey projectName measure d
      hf hp] at heq
    simp only [Option.toList] at heq
    constructor
    · intro hok
      refine ⟨exportMeasure caseTable st projectKey projectName measure allMetrics, ?_, ?_⟩
      · rw [heq, if_pos ((allOK_cons validName _ _).2 ⟨hok, allOK_nil validName⟩)]
      · rw [exportMeasure_of_parsed caseTable st projectKey projectName measure allMetrics d
          hf hp]
    · intro hno
      rw [heq, if_neg (fun hall => hno ((allOK_cons validName _ _).1 hall).1)]
  · intro h
    have heq := exportMeasureChecked_eq validName caseTable allMetrics st.c st projectKey
      projectName measure hag
    rw [measureSample_of_not_exportable caseTable st.c allMetrics projectKey projectName
      measure h, Option.toList, if_pos (allOK_nil validName)] at heq
    obtain ⟨h1, h2⟩ := exportMeasure_of_not_exportable caseTable st projectKey projectName
      measure allMetrics h
    exact ⟨_, heq, h2, h1⟩
  · intro hf
    simp only [exportMeasureChecked, hf]
  · intro h
    have hnone := measureSample_of_not_exportable caseTable st.c allMetrics projectKey
      projectName measure h
    have hfm : (before ++ measure :: after).filterMap
          (measureSample caseTable st.c allMetrics projectKey projectName) =
        (before ++ after).filterMap
          (measureSample caseTable st.c allMetrics projectKey projectName) := by
      simp only [List.filterMap_append, List.filterMap_cons, hnone]
    rw [exportMeasuresChecked_eq validName caseTable allMetrics st.c projectKey projectName
        (before ++ measure :: after) st hag,
      exportMeasuresChecked_eq validName caseTable allMetrics st.c projectKey projectName
        (before ++ after) st hag, hfm]
    by_cases hall : AllOK validName ((before ++ after).filterMap
        (measureSample caseTable st.c allMetrics projectKey projectName))
    · rw [if_pos hall, if_pos hall]
      simp only [Option.map_some', List.foldl_append, List.foldl_cons, Option.some.injEq]
      obtain ⟨h1, h2⟩ := exportMeasure_of_not_exportable caseTable
        (before.foldl
          (fun st m => exportMeasure caseTable st projectKey projectName m allMetrics) st)
        projectKey projectName measure allMetrics h
      obtain ⟨k1, k2⟩ := exportMeasures_congr caseTable projectKey projectName allMetrics
        after _ _ h1 h2
      exact Prod.ext k2 k1
    · rw [if_neg hall, if_neg hall]

/-- C4 on the catalog and the measures of the unit tests, under the name rule
`[a-zA-Z_:][a-zA-Z0-9_:]*`: the measure `bugs = 10` is sent as one sample; the measure
`bugs = not-a-number` before it is not sent and does not change what `bugs = 10` gives,
which is one sample. -/
theorem exportMeasure_spec_witness :
    (∃ st', exportMeasureChecked IsValidMetricName id ⟨NewCollector, [], []⟩ "project1"
          "Project 1" ⟨"bugs", "10"⟩
          [⟨"", "bugs", "INT", "Bugs", "Number of bugs", "Reliability", 0, false, false⟩] =
          some st' ∧
        st'.ch =
          [⟨NewDesc "sonarqube_bugs" "Number of bugs" ["project_key", "project_name"]
              [("domain", "Reliability")],
            Float64.finite false (5 * 2 ^ 50) (-49), ["project1", "Project 1"]⟩]) ∧
      (exportMeasuresChecked IsValidMetricName id "project1" "Project 1"
          [⟨"", "bugs", "INT", "Bugs", "Number of bugs", "Reliability", 0, false, false⟩]
          [⟨"bugs", "not-a-number"⟩, ⟨"bugs", "10"⟩] ⟨NewCollector, [], []⟩).map
          (fun s => (s.ch, s.c)) =
        (exportMeasuresChecked IsValidMetricName id "project1" "Project 1"
          [⟨"", "bugs", "INT", "Bugs", "Number of bugs", "Reliability", 0, false, false⟩]
          [⟨"bugs", "10"⟩] ⟨NewCollector, [], []⟩).map (fun s => (s.ch, s.c)) ∧
      (exportMeasuresChecked IsValidMetricName id "project1" "Project 1"
          [⟨"", "bugs", "INT", "Bugs", "Number of bugs", "Reliability", 0, false, false⟩]
          [⟨"bugs", "10"⟩] ⟨NewCollector, [], []⟩).map (fun s => s.ch.length) = some 1 :=
  have h := exportMeasure_spec IsValidMetricName id ⟨NewCollector, [], []⟩ "project1"
    "Project 1" ⟨"bugs", "10"⟩
    [⟨"", "bugs", "INT", "Bugs", "Number of bugs", "Reliability", 0, false, false⟩] [] []
  have h' := exportMeasure_spec IsValidMetricName id ⟨NewCollector, [], []⟩ "project1"
    "Project 1" ⟨"bugs", "not-a-number"⟩
    [⟨"", "bugs", "INT", "Bugs", "Number of bugs", "Reliability", 0, false, false⟩] []
    [⟨"bugs", "10"⟩]
  ⟨((h.2.2.1 _ rfl (by decide)).1 (by decide)).elim
      fun st' hs => ⟨st', hs.1, hs.2.trans (by decide)⟩,
    h'.2.2.2.2.2 (by decide), by decide⟩

/-- C11: started from the empty cache of `NewCollector` and run through any number of
collection cycles none of which panics, the descriptor cache has an entry for the metric
key `k` if and only if one of the cycles sent a measure sample for `k`, that is, one of
its measure fetches returned a measure of key `k` that is in the catalog of the cycle and
whose value parses. The same holds step by step: a call of `exportMeasure` that does not
panic sends one sample if the measure is such a measure and none otherwise, and the cache
has an entry for `k` afterwards if and only if it had one before or the call sent a sample
for a measure of key `k`. No cycle panics when the name check accepts the name of the
project information and the exposed name of every catalog entry of every cycle. A call of
`exportMeasure` that panics has written the cache entry of its measure before it does. -/
theorem cache_iff_emitted {σ : Type} (validName : String → Bool) (caseTable : Char → Char)
    (client : Client σ) (k : String) :
    (∀ (ws : List σ) (c' : Collector),
      runCyclesChecked validName caseTable client NewCollector ws = some c' →
      ((c'.metricDescs.get k).isSome ↔ k ∈ emittedKeys client ws)) ∧
    (∀ (ws : List σ) (c c' : Collector),
      runCyclesChecked validName caseTable client c ws = some c' →
      ((c'.metricDescs.get k).isSome ↔
        (c.metricDescs.get k).isSome ∨ k ∈ emittedKeys client ws)) ∧
    (∀ (st st' : CollectState) (projectKey projectName : String) (measure : Measure)
      (allMetrics : List Metric),
      exportMeasureChecked validName caseTable st projectKey projectName measure
        allMetrics = some st' →
      st'.ch.length = st.ch.length + (if exportable allMetrics measure = true then 1 else 0) ∧
        ((st'.c.metricDescs.get k).isSome ↔
          (st.c.metricDescs.get k).isSome ∨
            (exportable allMetrics measure = true ∧ measure.Metric = k))) ∧
    (∀ ws : List σ, validName "sonarqube_project_info" = true →
      (∀ w ∈ ws, ∀ metrics, (client.GetMetrics w).1 = .ok metrics →
        NamesOK validName caseTable metrics) →
      ∃ c', runCyclesChecked validName caseTable client NewCollector ws = some c') ∧
    (∀ (st : CollectState) (projectKey projectName : String) (measure : Measure)
      (allMetrics : List Metric),
      exportMeasureChecked validName caseTable st projectKey projectName measure
        allMetrics = none →
      ∃ d, findMetricDef allMetrics measure.Metric = some d ∧
        ((getOrCreateMetricDesc caseTable st.c d).2.metricDescs.get measure.Metric).isSome =
          true) := by
  refine ⟨?_, ?_, ?_, ?_, ?_⟩
  · intro ws c' h
    rw [runCyclesChecked_some validName caseTable client ws _ c' h, runCycles_has]
    simp [NewCollector, GoMap.get]
  · intro ws c c' h
    rw [runCyclesChecked_some validName caseTable client ws c c' h]
    exact runCycles_has caseTable client k ws c
  · intro st st' pk pn m metrics h
    rw [exportMeasureChecked_some validName caseTable st st' pk pn m metrics h]
    exact ⟨exportMeasure_emits caseTable st pk pn m metrics,
      exportMeasure_has caseTable st pk pn m metrics k⟩
  · intro ws h0 hn
    have hc : CollectorOK validName NewCollector := by
      refine ⟨⟨h0, rfl⟩, ?_⟩
      intro k' d hd
      simp [NewCollector, GoMap.get] at hd
    exact ⟨_, runCyclesChecked_of_names validName caseTable client ws NewCollector hn hc⟩
  · intro st pk pn m metrics h
    rcases hf : findMetricDef metrics m.Metric with _ | d
    · simp only [exportMeasureChecked, hf] at h
      exact absurd h (by simp)
    · refine ⟨d, rfl, ?_⟩
      rw [← (findMetricDef_some metrics _ d hf).2, getOrCreate_get]
      rfl

/-- C11 on two cycles of scenario A under the name rule `[a-zA-Z_:][a-zA-Z0-9_:]*`: no
cycle panics, and the cache holds `bugs`, for which samples were sent, and does not hold
`alert_status`, for which none was. -/
theorem cache_iff_emitted_witness :
    runCyclesChecked IsValidMetricName id scenarioA NewCollector [(), ()] =
        some (runCycles id scenarioA NewCollector [(), ()]) ∧
      ((runCycles id scenarioA NewCollector [(), ()]).metricDescs.get "bugs").isSome = true ∧
      ((runCycles id scenarioA NewCollector [(), ()]).metricDescs.get
        "alert_status").isSome = false := by
  have h0 : runCyclesChecked IsValidMetricName id scenarioA NewCollector [(), ()] =
      some (runCycles id scenarioA NewCollector [(), ()]) := by decide
  have h1 := (cache_iff_emitted IsValidMetricName id scenarioA "bugs").1 [(), ()] _ h0
  have h2 := (cache_iff_emitted IsValidMetricName id scenarioA "alert_status").1 [(), ()] _ h0
  refine ⟨h0, h1.2 (by decide), ?_⟩
  cases h : ((runCycles id scenarioA NewCollector [(), ()]).metricDescs.get
      "alert_status").isSome with
  | false => rfl
  | true => exact absurd (h2.1 h) (by decide)

end Exporter
